import Mathlib

set_option linter.unusedSectionVars false

/-!
Verification development for the Celestia bridge explorer repository.

The development shallowly embeds the two cores of the repository:

* the delta-synchronization snapshot importers
  (`services/balance_import.py`, `services/delegation_import.py`), modelled
  generically over the identity type `ι` (a wallet address for balances,
  a delegator-validator pair for delegations); and
* the generic aggregation query engine
  (`services/universal_db_aggregator.py`).

Dates are modelled as natural numbers (calendar days), monetary values as
rationals (`Numeric` columns hold exact decimals; Python float noise is out
of scope for the embedded comparisons, which are exact in the source up to
the fixed epsilon `0.000001`).
-/

namespace DeltaSync

/-- A row of the snapshot store (`balance_history` / `delegations` table):
identity, calendar date, decimal value and the `is_latest` marker. -/
structure SRec (ι : Type) where
  id : ι
  date : Nat
  value : ℚ
  is_latest : Bool
deriving DecidableEq, Repr

/-- The fixed change-detection epsilon `0.000001` used by both importers. -/
def eps : ℚ := 1 / 1000000

variable {ι : Type} [DecidableEq ι]

/-- Mirrors `get_existing_balances_for_date` / `get_existing_delegations_for_date`:
the value already stored for `(i, d)`, if any (first matching row). -/
def existing_for (s : List (SRec ι)) (d : Nat) (i : ι) : Option ℚ :=
  (s.find? (fun r => decide (r.id = i ∧ r.date = d))).map (fun r => r.value)

/-- The stored row of identity `i` with the maximal date strictly before `d`
(later rows win ties, as in the SQL join followed by a dict build). -/
def latest_before (s : List (SRec ι)) (d : Nat) (i : ι) : Option (SRec ι) :=
  (s.filter (fun r => decide (r.id = i ∧ r.date < d))).foldl
    (fun acc r =>
      match acc with
      | none => some r
      | some b => if b.date ≤ r.date then some r else acc) none

/-- Mirrors `get_previous_balances` / `get_previous_delegations`: the value of
identity `i` as of the most recent date strictly before `d`. -/
def previous_for (s : List (SRec ι)) (d : Nat) (i : ι) : Option ℚ :=
  (latest_before s d i).map (fun r => r.value)

/-- In-place same-day correction (the `existing_record.balance_tia = ...;
is_latest = True` branch): update the first row at `(i, d)` with the fetched
value and set its `is_latest` flag. -/
def update_existing (s : List (SRec ι)) (d : Nat) (i : ι) (v : ℚ) : List (SRec ι) :=
  match s with
  | [] => []
  | r :: rs =>
    if r.id = i ∧ r.date = d then { r with value := v, is_latest := true } :: rs
    else r :: update_existing rs d i v

/-- The `existing.amount_tia = 0.0` branch of `process_deleted_delegations`:
zero the value of the first row at `(i, d)`, leaving its flag untouched. -/
def zero_existing (s : List (SRec ι)) (d : Nat) (i : ι) : List (SRec ι) :=
  match s with
  | [] => []
  | r :: rs =>
    if r.id = i ∧ r.date = d then { r with value := 0 } :: rs
    else r :: zero_existing rs d i

/-- The summary counters returned by an importer run. -/
structure Stats where
  processed : Nat
  new : Nat
  changed : Nat
  unchanged : Nat
  deleted : Nat
  disappeared : Nat
  errors : Nat
deriving DecidableEq, Repr

/-- The state threaded through the diff-and-classify loop: the live store
(same-day corrections are committed immediately), the pending bulk inserts,
the affected-identity set and the counters. -/
structure LoopState (ι : Type) where
  store : List (SRec ι)
  inserts : List (SRec ι)
  affected : List ι
  stats : Stats
deriving Repr

/-- One iteration of the diff-and-classify loop, mirroring the nested
`if existing is not None / elif previous is None / elif abs(...) > 0.000001`
chain of `import_balances_to_db` and `import_delegations_to_db`. -/
def process_entry (d : Nat) (prev exist : ι → Option ℚ) (ls : LoopState ι)
    (e : ι × ℚ) : LoopState ι :=
  match exist e.1 with
  | some w =>
    if |w - e.2| > eps then
      { ls with
        store := update_existing ls.store d e.1 e.2
        affected := e.1 :: ls.affected
        stats := { ls.stats with
          changed := ls.stats.changed + 1, processed := ls.stats.processed + 1 } }
    else
      { ls with stats := { ls.stats with
          unchanged := ls.stats.unchanged + 1, processed := ls.stats.processed + 1 } }
  | none =>
    match prev e.1 with
    | none =>
      { ls with
        inserts := ls.inserts ++ [⟨e.1, d, e.2, true⟩]
        affected := e.1 :: ls.affected
        stats := { ls.stats with
          new := ls.stats.new + 1, processed := ls.stats.processed + 1 } }
    | some p =>
      if |p - e.2| > eps then
        { ls with
          inserts := ls.inserts ++ [⟨e.1, d, e.2, true⟩]
          affected := e.1 :: ls.affected
          stats := { ls.stats with
            changed := ls.stats.changed + 1, processed := ls.stats.processed + 1 } }
      else
        { ls with stats := { ls.stats with
            unchanged := ls.stats.unchanged + 1, processed := ls.stats.processed + 1 } }

/-- The zero-valued initial counters. -/
def stats0 : Stats := ⟨0, 0, 0, 0, 0, 0, 0⟩

/-- The diff-and-classify pass over the whole fetched state: `previous` and
`existing` are materialized once before the loop and never refreshed, exactly
as in the source (steps 3-5 of both importers). -/
def run_loop (s : List (SRec ι)) (d : Nat) (fetch : List (ι × ℚ)) : LoopState ι :=
  fetch.foldl (process_entry d (previous_for s d) (existing_for s d))
    { store := s, inserts := [], affected := [], stats := stats0 }

/-- `session.query(func.max(date)).scalar()`: the table-wide maximum date,
`none` on an empty table. -/
def table_max_date (s : List (SRec ι)) : Option Nat :=
  s.foldl (fun acc r =>
    match acc with
    | none => some r.date
    | some m => some (max m r.date)) none

/-- Mirrors `update_latest_balance_flags` / `update_latest_delegation_flags`:
compute the table-wide maximum date once, then set `is_latest := false` on
every row of an affected identity whose date differs from it.  (On an empty
table the SQL `date != NULL` filter matches nothing.) -/
def update_latest_flags (s : List (SRec ι)) (affected : List ι) : List (SRec ι) :=
  match table_max_date s with
  | none => s
  | some m =>
    s.map (fun r =>
      if r.id ∈ affected ∧ r.date ≠ m then { r with is_latest := false } else r)

/-- The full balance-importer run (`import_balances_to_db`, steps 3-6): the
diff-and-classify loop, the bulk insert of new rows, then the `is_latest`
repair for the affected addresses (skipped when no address was touched). -/
def sync_balances (s : List (SRec ι)) (d : Nat) (fetch : List (ι × ℚ)) :
    List (SRec ι) × Stats :=
  let ls := run_loop s d fetch
  let s1 := ls.store ++ ls.inserts
  (if ls.affected = [] then s1 else update_latest_flags s1 ls.affected, ls.stats)

/-- The identities having at least one row strictly before `d` — the key set
of the `previous` dict iterated by `process_deleted_delegations`. -/
def prior_ids (s : List (SRec ι)) (d : Nat) : List ι :=
  ((s.filter (fun r => decide (r.date < d))).map (fun r => r.id)).dedup

/-- The deleted identities of `process_deleted_delegations`: present in the
prior state with a positive amount but absent from the current fetch. -/
def deleted_keys (s0 : List (SRec ι)) (d : Nat) (fetchIds : List ι) : List ι :=
  (prior_ids s0 d).filter (fun k =>
    decide (k ∉ fetchIds) &&
      match previous_for s0 d k with
      | some a => decide (a > 0)
      | none => false)

/-- One deleted identity: zero the already-materialized row for the target
date if there is one, otherwise insert a fresh zero row with
`is_latest = true`. -/
def apply_deleted (st : List (SRec ι)) (d : Nat) (k : ι) : List (SRec ι) :=
  if (st.find? (fun r => decide (r.id = k ∧ r.date = d))).isSome then
    zero_existing st d k
  else st ++ [⟨k, d, 0, true⟩]

/-- Mirrors `process_deleted_delegations`: write a zero row for every deleted
identity, returning the new store, the affected combinations and the count. -/
def process_deleted (s0 st : List (SRec ι)) (d : Nat) (fetchIds : List ι) :
    List (SRec ι) × List ι × Nat :=
  let dk := deleted_keys s0 d fetchIds
  (dk.foldl (fun acc k => apply_deleted acc d k) st, dk, dk.length)

/-- The bulk `UPDATE ... WHERE id = k AND date = d AND amount > 0 SET amount = 0`
statement of `process_disappeared_delegations`. -/
def zero_positive_at (st : List (SRec ι)) (d : Nat) (k : ι) : List (SRec ι) :=
  st.map (fun r =>
    if r.id = k ∧ r.date = d ∧ r.value > 0 then { r with value := 0 } else r)

/-- Mirrors `process_disappeared_delegations`: snapshot the positive rows of
the target date whose identity is absent from the fetch, then zero each one
(counting an update only when a positive row was still live). -/
def process_disappeared (st : List (SRec ι)) (d : Nat) (fetchIds : List ι) :
    List (SRec ι) × Nat :=
  let snap := st.filter (fun r =>
    decide (r.date = d ∧ r.value > 0 ∧ r.id ∉ fetchIds))
  snap.foldl (fun acc r =>
    let hit := acc.1.any (fun x => decide (x.id = r.id ∧ x.date = d ∧ x.value > 0))
    (zero_positive_at acc.1 d r.id, if hit then acc.2 + 1 else acc.2)) (st, 0)

/-- The full delegation-importer run (`import_delegations_to_db`, steps 3-8):
the diff-and-classify loop, the deleted pass, the disappeared pass, the bulk
insert of new rows, then the `is_latest` repair for the affected set. -/
def sync_delegations (s : List (SRec ι)) (d : Nat) (fetch : List (ι × ℚ)) :
    List (SRec ι) × Stats :=
  let ls := run_loop s d fetch
  let fids := fetch.map (fun e => e.1)
  let pd := process_deleted s ls.store d fids
  let pz := process_disappeared pd.1 d fids
  let s3 := pz.1 ++ ls.inserts
  let affected := ls.affected ++ pd.2.1
  (if affected = [] then s3 else update_latest_flags s3 affected,
   { ls.stats with deleted := pd.2.2, disappeared := pz.2 })

/-- Rows of identity `i`. -/
def recsOf (s : List (SRec ι)) (i : ι) : List (SRec ι) :=
  s.filter (fun r => decide (r.id = i))

/-- The maximal date among a list of rows (`0` if there are none). -/
def maxDate (l : List (SRec ι)) : Nat :=
  (l.map (fun r => r.date)).foldl max 0

/-- The per-identity latest invariant: among the rows of `i`, exactly one has
`is_latest = true`, and every flagged row sits at the maximal date of `i`. -/
def idOK (s : List (SRec ι)) (i : ι) : Prop :=
  (recsOf s i).countP (fun r => r.is_latest) = 1 ∧
    ∀ r ∈ recsOf s i, r.is_latest = true → r.date = maxDate (recsOf s i)

instance (s : List (SRec ι)) (i : ι) : Decidable (idOK s i) :=
  inferInstanceAs (Decidable ((recsOf s i).countP (fun r => r.is_latest) = 1 ∧
    ∀ r ∈ recsOf s i, r.is_latest = true → r.date = maxDate (recsOf s i)))

/-- The latest invariant for every identity present in the store. -/
def latestOK (s : List (SRec ι)) : Prop :=
  ∀ r ∈ s, idOK s r.id

instance (s : List (SRec ι)) : Decidable (latestOK s) :=
  inferInstanceAs (Decidable (∀ r ∈ s, idOK s r.id))

/-- At most one row per `(identity, date)` pair. -/
def uniqueIdDate (s : List (SRec ι)) : Prop :=
  List.Pairwise (fun a b => ¬(a.id = b.id ∧ a.date = b.date)) s

instance (s : List (SRec ι)) : Decidable (uniqueIdDate s) :=
  inferInstanceAs (Decidable
    (List.Pairwise (fun a b : SRec ι => ¬(a.id = b.id ∧ a.date = b.date)) s))

end DeltaSync

namespace Aggregator

/-- A database value at the query boundary: numeric (integers and `Numeric`
decimals), text, boolean, or SQL `NULL`. -/
inductive DBVal
  | num (q : ℚ)
  | str (s : String)
  | bool (b : Bool)
  | null
deriving DecidableEq, Repr

/-- A result row / entity row: an association list from column name to value. -/
abbrev Row : Type := List (String × DBVal)

/-- Column lookup on a row. -/
def getCol (r : Row) (f : String) : Option DBVal :=
  (r.find? (fun c => c.1 = f)).map (fun c => c.2)

/-- Argument of one filter operator: a scalar, a list (for `in`/`not_in`),
or Python `None` (skipped by `_apply_filters`). -/
inductive OpArg
  | value (v : DBVal)
  | values (vs : List DBVal)
  | noneArg
deriving DecidableEq, Repr

/-- A filter entry: a bare literal (implicit equality; `none` is Python
`None`, skipped) or an operator map. -/
inductive FilterVal
  | lit (v : Option DBVal)
  | ops (l : List (String × OpArg))
deriving DecidableEq, Repr

/-- Python truthiness of a value (used for the `is_null` flag). -/
def truthy : DBVal → Bool
  | .num q => decide (q ≠ 0)
  | .str s => decide (s ≠ "")
  | .bool b => b
  | .null => false

/-- Strict SQL ordering on comparable values (numbers with numbers, strings
with strings); incomparable pairs are unordered. -/
def dbLt : DBVal → DBVal → Bool
  | .num a, .num b => decide (a < b)
  | .str a, .str b => decide (a < b)
  | _, _ => false

/-- SQL three-valued comparison against a cell: a `NULL` (or absent) cell
never satisfies an ordinary predicate. -/
def sqlCmp (c : Option DBVal) (t : DBVal → Bool) : Bool :=
  match c with
  | some .null => false
  | some v => t v
  | none => false

/-- Whether a cell is SQL `NULL`. -/
def isNullCell (c : Option DBVal) : Bool :=
  match c with
  | some .null => true
  | none => true
  | some _ => false

/-- `LIKE '%pat%'`: the literal is wrapped with wildcards on both sides, so
this is a substring test. -/
def likeMatch (hay pat : String) : Bool :=
  decide (pat = "") || decide ((hay.splitOn pat).length > 1)

/-- One operator of `_apply_filters`' `{operator: value}` branch.  Unknown
operator keys fall through every `elif` and leave the query unchanged. -/
def opFilter (f : String) (op : String) (arg : OpArg) (rows : List Row) : List Row :=
  match arg with
  | .noneArg => rows
  | .value v =>
    if op = "eq" then rows.filter (fun r => sqlCmp (getCol r f) (fun x => decide (x = v)))
    else if op = "ne" then rows.filter (fun r => sqlCmp (getCol r f) (fun x => decide (x ≠ v)))
    else if op = "gt" then rows.filter (fun r => sqlCmp (getCol r f) (fun x => dbLt v x))
    else if op = "gte" then
      rows.filter (fun r => sqlCmp (getCol r f) (fun x => dbLt v x || decide (x = v)))
    else if op = "lt" then rows.filter (fun r => sqlCmp (getCol r f) (fun x => dbLt x v))
    else if op = "lte" then
      rows.filter (fun r => sqlCmp (getCol r f) (fun x => dbLt x v || decide (x = v)))
    else if op = "like" then
      rows.filter (fun r => sqlCmp (getCol r f) (fun x =>
        match x, v with
        | .str hay, .str pat => likeMatch hay pat
        | _, _ => false))
    else if op = "is_null" then
      (if truthy v then rows.filter (fun r => isNullCell (getCol r f))
       else rows.filter (fun r => !isNullCell (getCol r f)))
    else rows
  | .values vs =>
    if op = "in" then rows.filter (fun r => sqlCmp (getCol r f) (fun x => vs.contains x))
    else if op = "not_in" then
      rows.filter (fun r => sqlCmp (getCol r f) (fun x => !vs.contains x))
    else rows

/-- Mirrors `_apply_filters`: a field name the model class does not have is
skipped with only a log warning; a Python `None` value is skipped; a dict is
an operator map applied conjunctively; anything else is implicit equality. -/
def apply_filters (fields : List String) (rows : List Row)
    (filters : List (String × FilterVal)) : List Row :=
  filters.foldl (fun rs fv =>
    if fv.1 ∈ fields then
      match fv.2 with
      | .lit none => rs
      | .lit (some v) =>
        rs.filter (fun r => sqlCmp (getCol r fv.1) (fun x => decide (x = v)))
      | .ops l => l.foldl (fun rs2 o => opFilter fv.1 o.1 o.2 rs2) rs
    else rs) rows

/-- One aggregation directive (`{"type": ..., "field": ...}`). -/
structure Agg where
  type : String
  field : Option String
deriving DecidableEq, Repr

/-- The numeric (non-`NULL`) cells of a column among the given rows. -/
def numsOf (members : List Row) (f : String) : List ℚ :=
  members.filterMap (fun r =>
    match getCol r f with
    | some (.num q) => some q
    | _ => none)

/-- SQL `SUM` (`NULL` on no numeric input). -/
def sumVal (l : List ℚ) : DBVal :=
  match l with
  | [] => .null
  | _ => .num l.sum

/-- SQL `AVG` (`NULL` on no numeric input). -/
def avgVal (l : List ℚ) : DBVal :=
  match l with
  | [] => .null
  | _ => .num (l.sum / l.length)

/-- SQL `MIN` (`NULL` on no numeric input). -/
def minVal (l : List ℚ) : DBVal :=
  match l with
  | [] => .null
  | x :: xs => .num (xs.foldl min x)

/-- SQL `MAX` (`NULL` on no numeric input). -/
def maxVal (l : List ℚ) : DBVal :=
  match l with
  | [] => .null
  | x :: xs => .num (xs.foldl max x)

/-- The computed column one aggregation directive contributes to the SELECT
list, evaluated over the rows of one group — `count` needs no field, the
others require an existing, truthy field name; any other directive adds no
column (mirrors `_apply_group_by_and_aggregations`). -/
def agg_column (fields : List String) (members : List Row) (a : Agg) : Option DBVal :=
  if a.type = "count" then some (.num members.length)
  else
    match a.field with
    | some f =>
      if f ≠ "" ∧ f ∈ fields then
        if a.type = "sum" then some (sumVal (numsOf members f))
        else if a.type = "avg" then some (avgVal (numsOf members f))
        else if a.type = "min" then some (minVal (numsOf members f))
        else if a.type = "max" then some (maxVal (numsOf members f))
        else none
      else none
    | none => none

/-- Whether a directive contributes a SELECT column (independent of the rows). -/
def selectedAgg (fields : List String) (a : Agg) : Bool :=
  (agg_column fields [] a).isSome

/-- The group-by fields that exist on the model (`hasattr` check). -/
def validGroupCols (fields : List String) (group_by : List String) : List String :=
  group_by.filter (fun f => decide (f ∈ fields))

/-- The grouping key of a row. -/
def projectKey (gcols : List String) (r : Row) : List DBVal :=
  gcols.map (fun f => (getCol r f).getD .null)

/-- The result tuples of the grouped SELECT: one tuple per distinct key (in
order of first appearance) when a `GROUP BY` applies, and a single aggregate
tuple over all rows when no valid group column exists. -/
def group_tuples (fields : List String) (rows : List Row) (group_by : List String)
    (aggs : List Agg) : List (List DBVal) :=
  let gcols := validGroupCols fields group_by
  if gcols = [] then [aggs.filterMap (agg_column fields rows)]
  else
    (rows.map (projectKey gcols)).dedup.map (fun k =>
      k ++ aggs.filterMap (agg_column fields
        (rows.filter (fun r => decide (projectKey gcols r = k)))))

/-- The group-field part of `_process_aggregated_results`' index walk:
assign tuple positions to the raw `group_by` names until the tuple runs out. -/
def assign_group_fields : List String → List DBVal → Row × List DBVal
  | [], t => ([], t)
  | _ :: _, [] => ([], [])
  | f :: fs, v :: vs =>
    let p := assign_group_fields fs vs
    ((f, v) :: p.1, p.2)

/-- The deterministic name of a computed column: `count`, `{type}_{field}`,
or the positional `agg_{index}` fallback. -/
def agg_name (idx : Nat) (a : Agg) : String :=
  if a.type = "count" then "count"
  else
    match a.field with
    | some f => if f ≠ "" then a.type ++ "_" ++ f else "agg_" ++ toString idx
    | none => "agg_" ++ toString idx

/-- The aggregation part of the index walk. -/
def assign_aggs (idx : Nat) : List Agg → List DBVal → Row
  | [], _ => []
  | _ :: _, [] => []
  | a :: rest, v :: vs => (agg_name idx a, v) :: assign_aggs (idx + 1) rest vs

/-- Mirrors `_process_aggregated_results` for one tuple. -/
def process_aggregated (t : List DBVal) (group_by : List String) (aggs : List Agg) :
    Row :=
  let p := assign_group_fields group_by t
  p.1 ++ assign_aggs (min group_by.length t.length) aggs p.2

/-- The three normalized result shapes plus the wrapped-error dictionary
(`{"error": ..., "results": [], "count": 0}`). -/
inductive AggResult
  | list_res (results : List Row) (count : Nat) (limit : Option Nat) (offset : Nat)
  | agg_res (results : List Row) (count : Nat)
  | total_res (total : DBVal)
  | err_res
deriving DecidableEq, Repr

/-- Mirrors `_format_result`. -/
def format_result (processed : List Row) (return_format : String)
    (limit offset : Option Nat) : AggResult :=
  if return_format = "count_only" then
    match processed with
    | [p] =>
      match getCol p "count" with
      | some v => .total_res v
      | none => .total_res (.num 1)
    | _ => .total_res (.num processed.length)
  else if return_format = "aggregated" then .agg_res processed processed.length
  else .list_res processed processed.length limit (offset.getD 0)

/-- Python truthiness of an optional list argument. -/
def truthyList : Option (List α) → Bool
  | some (_ :: _) => true
  | _ => false

/-- Lexicographic `ORDER BY` comparison for flat mode; absent/`NULL` cells
sort first in ascending direction. -/
def optLt (a b : Option DBVal) : Bool :=
  match a, b with
  | none, none => false
  | none, some _ => true
  | some _, none => false
  | some x, some y =>
    match x, y with
    | .null, .null => false
    | .null, _ => true
    | _, .null => false
    | x, y => dbLt x y

/-- Row comparison over the ordered `order_by` key list. -/
def rowLe (keys : List (String × String)) (a b : Row) : Bool :=
  match keys with
  | [] => true
  | (f, dir) :: rest =>
    let av := getCol a f
    let bv := getCol b f
    if av = bv then rowLe rest a b
    else if dir.toLower = "desc" then !optLt av bv
    else !optLt bv av

/-- Mirrors `aggregate_db_data`, the single entry point of the engine.
`fields` is the column set of the SQLAlchemy model class; the flat branch's
`_process_regular_results` boundary normalization (dates to ISO strings,
decimals to floats) is treated as already applied to `rows`. -/
def aggregate_db_data (fields : List String) (rows : List Row)
    (filters : Option (List (String × FilterVal)))
    (group_by : Option (List String)) (aggregations : Option (List Agg))
    (order_by : Option (List (String × String)))
    (limit offset : Option Nat) (return_format : String) : AggResult :=
  let q0 := apply_filters fields rows (filters.getD [])
  if return_format = "count_only" ∧
      (truthyList aggregations || truthyList group_by) = false then
    .total_res (.num q0.length)
  else if (truthyList aggregations || truthyList group_by) = true then
    let gb := (group_by.getD [])
    let ags := (aggregations.getD [])
    let gcols := validGroupCols fields gb
    if gcols = [] ∧ ags.filter (selectedAgg fields) = [] ∧ q0 ≠ [] then .err_res
    else
      let processed :=
        if gcols = [] ∧ ags.filter (selectedAgg fields) = [] then ([] : List Row)
        else (group_tuples fields q0 gb ags).map (fun t => process_aggregated t gb ags)
      if return_format = "count_only" ∧ truthyList aggregations = true then
        match ags.find? (fun a => a.type = "count") with
        | some _ =>
          match processed with
          | p :: _ =>
            match getCol p "count" with
            | some v => .total_res v
            | none => format_result processed return_format limit offset
          | [] => format_result processed return_format limit offset
        | none => format_result processed return_format limit offset
      else format_result processed return_format limit offset
  else
    let obList := order_by.getD []
    if obList.any (fun o => decide (o.1 ∉ fields)) then .err_res
    else
      let sorted := if obList = [] then q0 else q0.mergeSort (rowLe obList)
      let paged1 :=
        match offset with
        | some o => if o ≠ 0 then sorted.drop o else sorted
        | none => sorted
      let paged :=
        match limit with
        | some l => if l ≠ 0 then paged1.take l else paged1
        | none => paged1
      format_result paged return_format limit offset

end Aggregator

namespace CosmosFetch

/-- The observable outcome of the per-address HTTP request issued by
`get_balance_async`: a 200 response with a parsed `balances` array, a 200
response without that key, a non-200 status, or a raised exception
(connection error or the 10-second timeout). -/
inductive FetchOutcome
  | ok (balances : List (String × Int))
  | okNoField
  | httpError (status : Nat)
  | exn
deriving DecidableEq, Repr

/-- Mirrors `get_balance_async`: scan the `balances` array for the `utia`
denomination and convert micro-TIA to TIA; every other path — no `utia`
entry, missing `balances` key, non-200 status, exception, timeout — reports
the address with balance `0.0`. -/
def get_balance_async (address : String) (out : FetchOutcome) : String × ℚ :=
  match out with
  | .ok balances =>
    match balances.find? (fun b => b.1 = "utia") with
    | some b => (address, (b.2 : ℚ) / 1000000)
    | none => (address, 0)
  | .okNoField => (address, 0)
  | .httpError _ => (address, 0)
  | .exn => (address, 0)

end CosmosFetch

namespace DeltaSync

variable {ι : Type} [DecidableEq ι]

lemma table_max_aux (rs : List (SRec ι)) (a m : Nat)
    (h : rs.foldl (fun acc r =>
        match acc with
        | none => some r.date
        | some m0 => some (max m0 r.date)) (some a) = some m) :
    a ≤ m ∧ (∀ r ∈ rs, r.date ≤ m) ∧ (a = m ∨ ∃ r ∈ rs, r.date = m) := by
  induction rs generalizing a with
  | nil =>
    simp only [List.foldl_nil, Option.some.injEq] at h
    exact ⟨le_of_eq h, by simp, Or.inl h⟩
  | cons r rs ih =>
    simp only [List.foldl_cons] at h
    obtain ⟨h1, h2, h3⟩ := ih (max a r.date) h
    refine ⟨le_trans (le_max_left _ _) h1, ?_, ?_⟩
    · intro x hx
      rcases List.mem_cons.mp hx with hx | hx
      · rw [hx]
        exact le_trans (le_max_right a r.date) h1
      · exact h2 x hx
    · rcases h3 with h3 | ⟨x, hx, hxd⟩
      · rcases max_choice a r.date with hc | hc
        · exact Or.inl (hc ▸ h3)
        · exact Or.inr ⟨r, List.mem_cons_self _ _, hc ▸ h3⟩
      · exact Or.inr ⟨x, List.mem_cons_of_mem _ hx, hxd⟩

lemma table_max_date_le (s : List (SRec ι)) (m : Nat)
    (h : table_max_date s = some m) : ∀ r ∈ s, r.date ≤ m := by
  cases s with
  | nil => simp [table_max_date] at h
  | cons r rs =>
    unfold table_max_date at h
    simp only [List.foldl_cons] at h
    obtain ⟨h1, h2, _⟩ := table_max_aux rs r.date m h
    intro x hx
    rcases List.mem_cons.mp hx with hx | hx
    · rw [hx]
      exact h1
    · exact h2 x hx

lemma table_max_date_mem (s : List (SRec ι)) (m : Nat)
    (h : table_max_date s = some m) : ∃ r ∈ s, r.date = m := by
  cases s with
  | nil => simp [table_max_date] at h
  | cons r rs =>
    unfold table_max_date at h
    simp only [List.foldl_cons] at h
    obtain ⟨_, _, h3⟩ := table_max_aux rs r.date m h
    rcases h3 with h3 | ⟨x, hx, hxd⟩
    · exact ⟨r, List.mem_cons_self _ _, h3⟩
    · exact ⟨x, List.mem_cons_of_mem _ hx, hxd⟩

/-- C10: the `is_latest` repair step (`update_latest_balance_flags` /
`update_latest_delegation_flags`) computes one table-wide maximum date `m`
(over all identities, not per identity): every stored date is at most `m` and
`m` is attained somewhere in the table.  It clears `is_latest` on every row of
an affected identity whose date differs from `m`, it never turns a flag on
(every flagged row of the output is a flagged row of the input), and an
affected identity with no row on the table-wide maximum date is left with
zero `is_latest = true` rows. -/
theorem c10_flag_repair (s : List (SRec ι))
    (affected : List ι) (m : Nat) (hm : table_max_date s = some m) :
    (∀ r ∈ s, r.date ≤ m) ∧ (∃ r ∈ s, r.date = m) ∧
    (∀ r ∈ update_latest_flags s affected,
      r.id ∈ affected → r.date ≠ m → r.is_latest = false) ∧
    (∀ r ∈ update_latest_flags s affected, r.is_latest = true →
      ∃ x ∈ s, x.id = r.id ∧ x.date = r.date ∧ x.value = r.value ∧
        x.is_latest = true) ∧
    (∀ i ∈ affected, (∀ r ∈ s, r.id = i → r.date ≠ m) →
      ∀ r ∈ update_latest_flags s affected, r.id = i → r.is_latest = false) := by
  have hflag : update_latest_flags s affected =
      s.map (fun r =>
        if r.id ∈ affected ∧ r.date ≠ m then { r with is_latest := false } else r) := by
    unfold update_latest_flags
    rw [hm]
  refine ⟨table_max_date_le s m hm, table_max_date_mem s m hm, ?_, ?_, ?_⟩
  · intro r hr hid hd
    rw [hflag] at hr
    obtain ⟨x, hx, hxr⟩ := List.mem_map.mp hr
    by_cases hc : x.id ∈ affected ∧ x.date ≠ m
    · rw [if_pos hc] at hxr
      rw [← hxr]
    · rw [if_neg hc] at hxr
      subst hxr
      exact absurd ⟨hid, hd⟩ hc
  · intro r hr htrue
    rw [hflag] at hr
    obtain ⟨x, hx, hxr⟩ := List.mem_map.mp hr
    by_cases hc : x.id ∈ affected ∧ x.date ≠ m
    · rw [if_pos hc] at hxr
      rw [← hxr] at htrue
      simp at htrue
    · rw [if_neg hc] at hxr
      subst hxr
      exact ⟨x, hx, rfl, rfl, rfl, htrue⟩
  · intro i hi hnone r hr hid
    rw [hflag] at hr
    obtain ⟨x, hx, hxr⟩ := List.mem_map.mp hr
    have hxid : x.id = i := by
      by_cases hc : x.id ∈ affected ∧ x.date ≠ m
      · rw [if_pos hc] at hxr
        rw [← hxr] at hid
        exact hid
      · rw [if_neg hc] at hxr
        subst hxr
        exact hid
    have hxd : x.date ≠ m := hnone x hx hxid
    have hc : x.id ∈ affected ∧ x.date ≠ m := ⟨hxid ▸ hi, hxd⟩
    rw [if_pos hc] at hxr
    rw [← hxr]

/-- Witness for C10 at a concrete store: identity `0` is affected and has no
row on the table-wide maximum date `2`, so it ends with zero flagged rows. -/
theorem c10_flag_repair_witness :
    table_max_date (ι := ℕ) [⟨0, 0, 5, true⟩, ⟨0, 1, 6, true⟩, ⟨1, 2, 7, true⟩] = some 2 ∧
    (∀ i ∈ [0],
      (∀ r ∈ [(⟨0, 0, 5, true⟩ : SRec ℕ), ⟨0, 1, 6, true⟩, ⟨1, 2, 7, true⟩],
        r.id = i → r.date ≠ 2) →
      ∀ r ∈ update_latest_flags (ι := ℕ)
          [⟨0, 0, 5, true⟩, ⟨0, 1, 6, true⟩, ⟨1, 2, 7, true⟩] [0],
        r.id = i → r.is_latest = false) :=
  ⟨by decide,
   (c10_flag_repair (ι := ℕ) [⟨0, 0, 5, true⟩, ⟨0, 1, 6, true⟩, ⟨1, 2, 7, true⟩]
      [0] 2 (by decide)).2.2.2.2⟩

end DeltaSync

namespace Aggregator

/-- The result-row list of a query result (empty for totals and errors). -/
def resultsOf : AggResult → List Row
  | .list_res rs _ _ _ => rs
  | .agg_res rs _ => rs
  | .total_res _ => []
  | .err_res => []

/-- The row count echoed by a query result. -/
def countOf : AggResult → Nat
  | .list_res _ c _ _ => c
  | .agg_res _ c => c
  | .total_res _ => 0
  | .err_res => 0

/-- The `total` value of a `count_only` result. -/
def totalOf : AggResult → Option DBVal
  | .total_res v => some v
  | _ => none

lemma format_result_list (P : List Row) (l o : Option Nat) :
    format_result P "list" l o = .list_res P P.length l (o.getD 0) := by
  unfold format_result
  rw [if_neg (by decide), if_neg (by decide)]

lemma format_result_aggregated (P : List Row) (l o : Option Nat) :
    format_result P "aggregated" l o = .agg_res P P.length := by
  unfold format_result
  rw [if_neg (by decide), if_pos rfl]

lemma format_result_count_only (P : List Row) (l o : Option Nat) :
    ∃ v, format_result P "count_only" l o = .total_res v := by
  unfold format_result
  rw [if_pos rfl]
  cases P with
  | nil => exact ⟨_, rfl⟩
  | cons p t =>
    cases t with
    | nil =>
      dsimp only
      cases getCol p "count" with
      | none => exact ⟨_, rfl⟩
      | some v => exact ⟨_, rfl⟩
    | cons q t2 => exact ⟨_, rfl⟩

lemma format_result_pag (P : List Row) (fmt : String) (l o l2 o2 : Option Nat) :
    resultsOf (format_result P fmt l o) = resultsOf (format_result P fmt l2 o2) ∧
    countOf (format_result P fmt l o) = countOf (format_result P fmt l2 o2) ∧
    totalOf (format_result P fmt l o) = totalOf (format_result P fmt l2 o2) := by
  unfold format_result
  split_ifs
  · exact ⟨rfl, rfl, rfl⟩
  · exact ⟨rfl, rfl, rfl⟩
  · exact ⟨rfl, rfl, rfl⟩

end Aggregator

namespace Aggregator

/-- C5 fails on the code: a filter naming `secret_internal_col`, a field not
on the entity, does not fail — `_apply_filters` logs a warning, drops the
condition, and the query succeeds as if the filter were absent.  No
`InvalidFieldError` (or any error) exists on this path. -/
theorem c5_counterexample :
    aggregate_db_data ["id"] [[("id", .num 1)], [("id", .num 2)]]
      (some [("secret_internal_col", FilterVal.lit (some (.num 1)))])
      none none none none none "list"
    = .list_res [[("id", .num 1)], [("id", .num 2)]] 2 none 0 := by
  decide

/-- C5 amended: a filter whose field is not on the model class is silently
skipped (with only a log warning): the engine behaves exactly as if that
filter entry were absent, for every mode and every remaining filter. -/
theorem c5_amended (fields : List String) (rows : List Row) (f : String)
    (fv : FilterVal) (rest : List (String × FilterVal))
    (gb : Option (List String)) (ags : Option (List Agg))
    (ob : Option (List (String × String))) (l o : Option Nat) (fmt : String)
    (hf : f ∉ fields) :
    aggregate_db_data fields rows (some ((f, fv) :: rest)) gb ags ob l o fmt =
      aggregate_db_data fields rows (some rest) gb ags ob l o fmt := by
  have hq : apply_filters fields rows ((f, fv) :: rest) =
      apply_filters fields rows rest := by
    unfold apply_filters
    simp only [List.foldl_cons, if_neg hf]
  unfold aggregate_db_data
  simp only [Option.getD_some, hq]

/-- Witness for C5 amended at a concrete query. -/
theorem c5_amended_witness :
    ("bogus" ∉ ["id"]) ∧
    aggregate_db_data ["id"] [[("id", .num 1)]]
        (some [("bogus", FilterVal.lit (some (.num 3)))]) none none none none none
        "list" =
      aggregate_db_data ["id"] [[("id", .num 1)]] (some []) none none none none none
        "list" :=
  ⟨by decide,
   c5_amended ["id"] [[("id", .num 1)]] "bogus" (FilterVal.lit (some (.num 3))) []
     none none none none none "list" (by decide)⟩

end Aggregator

namespace Aggregator

/-- Result rows are ordered descending by the named column: each adjacent
pair is non-increasing. -/
def orderedByDescB (col : String) : List Row → Bool
  | [] => true
  | [_] => true
  | a :: b :: t =>
    (optLt (getCol b col) (getCol a col) || decide (getCol a col = getCol b col)) &&
      orderedByDescB col (b :: t)

/-- Propositional form of descending orderedness. -/
def orderedByDesc (col : String) (rows : List Row) : Prop :=
  orderedByDescB col rows = true

instance (col : String) (rows : List Row) : Decidable (orderedByDesc col rows) :=
  inferInstanceAs (Decidable (orderedByDescB col rows = true))

/-- C8 fails on the code: in grouped mode `aggregate_db_data` never applies
`_apply_order_by` — the branch taken when `group_by`/`aggregations` are
supplied runs the grouped query and returns it as-is.  Ordering by the
computed `count` column descending is accepted without error, but the groups
come back in natural (first-appearance) order `[A:1, B:2]`, not in the
requested descending order. -/
theorem c8_counterexample :
    aggregate_db_data ["country"]
        [[("country", .str "A")], [("country", .str "B")], [("country", .str "B")]]
        none (some ["country"]) (some [⟨"count", none⟩])
        (some [("count", "desc")]) none none "aggregated"
      = .agg_res [[("country", .str "A"), ("count", .num 1)],
                  [("country", .str "B"), ("count", .num 2)]] 2 ∧
    ¬ orderedByDesc "count"
        (resultsOf (aggregate_db_data ["country"]
          [[("country", .str "A")], [("country", .str "B")], [("country", .str "B")]]
          none (some ["country"]) (some [⟨"count", none⟩])
          (some [("count", "desc")]) none none "aggregated")) := by
  constructor
  · decide
  · decide

/-- C8 amended: in grouped mode an `orderBy` naming a computed-aggregate
column (or any column) is accepted without error but ignored entirely — the
returned result is identical for every choice of `order_by`; the groups stay
in natural order. -/
theorem c8_amended (fields : List String) (rows : List Row)
    (filters : Option (List (String × FilterVal)))
    (gb : Option (List String)) (ags : Option (List Agg))
    (ob1 ob2 : Option (List (String × String))) (l o : Option Nat) (fmt : String)
    (h : (truthyList ags || truthyList gb) = true) :
    aggregate_db_data fields rows filters gb ags ob1 l o fmt =
      aggregate_db_data fields rows filters gb ags ob2 l o fmt := by
  unfold aggregate_db_data
  simp [h]

/-- Witness for C8 amended at a concrete grouped query. -/
theorem c8_amended_witness :
    (truthyList (some [(⟨"count", none⟩ : Agg)]) || truthyList (some ["country"]))
      = true ∧
    aggregate_db_data ["country"] [[("country", .str "A")], [("country", .str "B")]]
        none (some ["country"]) (some [⟨"count", none⟩]) (some [("count", "desc")])
        none none "aggregated" =
      aggregate_db_data ["country"] [[("country", .str "A")], [("country", .str "B")]]
        none (some ["country"]) (some [⟨"count", none⟩]) none none none "aggregated" :=
  ⟨by decide,
   c8_amended ["country"] [[("country", .str "A")], [("country", .str "B")]] none
     (some ["country"]) (some [⟨"count", none⟩]) (some [("count", "desc")]) none
     none none "aggregated" (by decide)⟩

end Aggregator

namespace Aggregator

/-- C6: in grouped mode (a non-empty `group_by` or a non-empty `aggregations`
argument), the branch of `aggregate_db_data` that executes never applies
`limit`/`offset`: the result rows, the row count, and the `count_only` total
are identical for any two choices of `limit` and `offset`.  (Only the
`limit`/`offset` values echoed back in `"list"` format differ.)  Pagination
only affects the flat-row branch. -/
theorem c6_grouped_pagination (fields : List String) (rows : List Row)
    (filters : Option (List (String × FilterVal)))
    (gb : Option (List String)) (ags : Option (List Agg))
    (ob : Option (List (String × String))) (l1 o1 l2 o2 : Option Nat) (fmt : String)
    (h : (truthyList ags || truthyList gb) = true) :
    resultsOf (aggregate_db_data fields rows filters gb ags ob l1 o1 fmt) =
      resultsOf (aggregate_db_data fields rows filters gb ags ob l2 o2 fmt) ∧
    countOf (aggregate_db_data fields rows filters gb ags ob l1 o1 fmt) =
      countOf (aggregate_db_data fields rows filters gb ags ob l2 o2 fmt) ∧
    totalOf (aggregate_db_data fields rows filters gb ags ob l1 o1 fmt) =
      totalOf (aggregate_db_data fields rows filters gb ags ob l2 o2 fmt) := by
  unfold aggregate_db_data
  simp only [h, Bool.true_eq_false, and_false, if_false, if_true]
  split
  · exact ⟨rfl, rfl, rfl⟩
  · split
    · split
      · split
        · split
          · exact ⟨rfl, rfl, rfl⟩
          · exact format_result_pag _ _ _ _ _ _
        · exact format_result_pag _ _ _ _ _ _
      · exact format_result_pag _ _ _ _ _ _
    · exact format_result_pag _ _ _ _ _ _

/-- Witness for C6 at a concrete grouped query: `limit = 1, offset = 1`
returns the same grouped rows as no pagination at all. -/
theorem c6_grouped_pagination_witness :
    (truthyList (some [(⟨"count", none⟩ : Agg)]) || truthyList (some ["country"]))
      = true ∧
    resultsOf (aggregate_db_data ["country"]
        [[("country", .str "A")], [("country", .str "B")]] none (some ["country"])
        (some [⟨"count", none⟩]) none (some 1) (some 1) "aggregated") =
      resultsOf (aggregate_db_data ["country"]
        [[("country", .str "A")], [("country", .str "B")]] none (some ["country"])
        (some [⟨"count", none⟩]) none none none "aggregated") :=
  ⟨by decide,
   (c6_grouped_pagination ["country"] [[("country", .str "A")], [("country", .str "B")]]
     none (some ["country"]) (some [⟨"count", none⟩]) none (some 1) (some 1) none none
     "aggregated" (by decide)).1⟩

/-- C7: the return shape of `aggregate_db_data` is determined by the mode.
`"list"` yields `{results, count, limit, offset}` with `count` the number of
returned rows; `"aggregated"` yields `{results, count}` with no pagination
echo; `"count_only"` always yields `{total}` — through the direct
`query.count()` short-circuit, through the count-aggregation special case,
and through `_format_result`'s `count_only` branch alike — and when neither
grouping nor aggregations are requested the total is exactly the direct
count of the filtered rows, so an empty filtered set yields `{"total": 0}`,
not an error.  The hypotheses exclude the flat-mode
unknown-`order_by`-column SQL error and the grouped-mode empty-SELECT
TypeError, the two paths that produce the wrapped error dictionary
instead. -/
theorem c7_return_shapes (fields : List String) (rows : List Row)
    (filters : Option (List (String × FilterVal))) (gb : Option (List String))
    (ags : Option (List Agg)) (ob : Option (List (String × String)))
    (l o : Option Nat)
    (hord : ∀ k ∈ ob.getD [], k.1 ∈ fields)
    (hsel : (truthyList ags || truthyList gb) = true →
      ¬(validGroupCols fields (gb.getD []) = [] ∧
        (ags.getD []).filter (selectedAgg fields) = [] ∧
        apply_filters fields rows (filters.getD []) ≠ [])) :
    (∃ res, aggregate_db_data fields rows filters gb ags ob l o "list" =
        .list_res res res.length l (o.getD 0)) ∧
    (∃ res, aggregate_db_data fields rows filters gb ags ob l o "aggregated" =
        .agg_res res res.length) ∧
    (∃ v, aggregate_db_data fields rows filters gb ags ob l o "count_only" =
        .total_res v) ∧
    (truthyList ags = false → truthyList gb = false →
      aggregate_db_data fields rows filters gb ags ob l o "count_only" =
        .total_res (.num (apply_filters fields rows (filters.getD [])).length)) := by
  have hob : ((ob.getD []).any fun k => decide (k.1 ∉ fields)) = false := by
    rw [List.any_eq_false]
    intro k hk
    simp only [decide_eq_true_eq]
    exact fun hcon => hcon (hord k hk)
  refine ⟨?_, ?_, ?_, ?_⟩
  · unfold aggregate_db_data
    rw [if_neg (fun hc => absurd hc.1 (by decide))]
    by_cases hg : (truthyList ags || truthyList gb) = true
    · rw [if_pos hg, if_neg (hsel hg),
        if_neg (fun hc => absurd hc.1 (by decide) :
          ¬("list" = "count_only" ∧ truthyList ags = true)),
        format_result_list]
      exact ⟨_, rfl⟩
    · rw [if_neg hg, if_neg (by rw [hob]; exact Bool.false_ne_true),
        format_result_list]
      exact ⟨_, rfl⟩
  · unfold aggregate_db_data
    rw [if_neg (fun hc => absurd hc.1 (by decide))]
    by_cases hg : (truthyList ags || truthyList gb) = true
    · rw [if_pos hg, if_neg (hsel hg),
        if_neg (fun hc => absurd hc.1 (by decide) :
          ¬("aggregated" = "count_only" ∧ truthyList ags = true)),
        format_result_aggregated]
      exact ⟨_, rfl⟩
    · rw [if_neg hg, if_neg (by rw [hob]; exact Bool.false_ne_true),
        format_result_aggregated]
      exact ⟨_, rfl⟩
  · unfold aggregate_db_data
    by_cases hg : (truthyList ags || truthyList gb) = true
    · rw [if_neg (fun hc => absurd hg (by rw [hc.2]; exact Bool.false_ne_true)),
        if_pos hg, if_neg (hsel hg)]
      repeat'
        first
        | exact ⟨_, rfl⟩
        | exact format_result_count_only _ _ _
        | split
        | dsimp only
    · have hgf : (truthyList ags || truthyList gb) = false := by
        revert hg
        cases truthyList ags || truthyList gb
        · intro _
          rfl
        · intro hg2
          exact absurd rfl hg2
      rw [if_pos ⟨rfl, hgf⟩]
      exact ⟨_, rfl⟩
  · intro ha hb
    unfold aggregate_db_data
    rw [if_pos ⟨rfl, by simp [ha, hb]⟩]

/-- Witness for C7 at a concrete grouped `count` query: all four shapes are
delivered, including `{total}` for `count_only` through the grouped
count-aggregation branch. -/
theorem c7_return_shapes_witness :
    (∀ k ∈ (none : Option (List (String × String))).getD [], k.1 ∈ ["country"]) ∧
    ((truthyList (some [(⟨"count", none⟩ : Agg)]) || truthyList (some ["country"]))
        = true →
      ¬(validGroupCols ["country"] ((some ["country"]).getD []) = [] ∧
        ((some [(⟨"count", none⟩ : Agg)]).getD []).filter (selectedAgg ["country"])
          = [] ∧
        apply_filters ["country"] [[("country", .str "A")]]
          ((none : Option (List (String × FilterVal))).getD []) ≠ [])) ∧
    ((∃ res, aggregate_db_data ["country"] [[("country", .str "A")]] none
        (some ["country"]) (some [⟨"count", none⟩]) none none none "list" =
        .list_res res res.length none 0) ∧
    (∃ res, aggregate_db_data ["country"] [[("country", .str "A")]] none
        (some ["country"]) (some [⟨"count", none⟩]) none none none "aggregated" =
        .agg_res res res.length) ∧
    (∃ v, aggregate_db_data ["country"] [[("country", .str "A")]] none
        (some ["country"]) (some [⟨"count", none⟩]) none none none "count_only" =
        .total_res v) ∧
    (truthyList (some [(⟨"count", none⟩ : Agg)]) = false →
      truthyList (some ["country"]) = false →
      aggregate_db_data ["country"] [[("country", .str "A")]] none
          (some ["country"]) (some [⟨"count", none⟩]) none none none
          "count_only" =
        .total_res (.num (apply_filters ["country"] [[("country", .str "A")]]
          ((none : Option (List (String × FilterVal))).getD [])).length))) :=
  ⟨by decide, by decide,
   c7_return_shapes ["country"] [[("country", .str "A")]] none
     (some ["country"]) (some [⟨"count", none⟩]) none none none
     (by decide) (by decide)⟩

end Aggregator

namespace DeltaSync

/-- The action column of the specification's five-row state machine. -/
inductive SpecAct
  | update_in_place
  | no_write
  | insert_latest
deriving DecidableEq, Repr

/-- The classification column of the specification's five-row state machine. -/
inductive SpecLabel
  | cls_new
  | cls_changed
  | cls_unchanged
deriving DecidableEq, Repr

/-- The five-row table of the specification, written from the spec's words:
row 1 — `recordForTargetDate` exists and differs from `currentValue` beyond
the epsilon: update in place, changed; row 2 — it exists and matches: no
write, unchanged; row 3 — no record for the target date and no prior value:
insert with `is_latest = true`, new; row 4 — no target-date record and the
prior value differs: insert with `is_latest = true`, changed; row 5 — the
prior value matches: no write, unchanged. -/
def spec_row (currentValue : ℚ) (recordForTargetDate latestPriorValue : Option ℚ) :
    SpecAct × SpecLabel :=
  match recordForTargetDate, latestPriorValue with
  | some w, _ =>
    if |w - currentValue| > eps then (.update_in_place, .cls_changed)
    else (.no_write, .cls_unchanged)
  | none, none => (.insert_latest, .cls_new)
  | none, some p =>
    if |p - currentValue| > eps then (.insert_latest, .cls_changed)
    else (.no_write, .cls_unchanged)

/-- C2: the diff-and-classify step of both importers implements exactly the
specification's five-row state machine with epsilon `0.000001`: an
`update_in_place` row updates the target-date record in place (flag set) and
bumps `changed`; an `insert_latest` row appends a pending insert with
`is_latest = true` and bumps `new` or `changed` according to the row's
classification; a `no_write` row leaves the store and pending inserts alone
and bumps `unchanged`; every row bumps `processed`, adds the identity to the
affected set exactly when it wrote, and the decision depends only on
`currentValue`, `recordForTargetDate` and `latestPriorValue`. -/
theorem c2_state_machine {ι : Type} [DecidableEq ι] (d : Nat)
    (prev exist : ι → Option ℚ) (ls : LoopState ι) (a : ι) (v : ℚ) :
    process_entry d prev exist ls (a, v) =
      match spec_row v (exist a) (prev a) with
      | (.update_in_place, _) =>
        { ls with
          store := update_existing ls.store d a v
          affected := a :: ls.affected
          stats := { ls.stats with
            changed := ls.stats.changed + 1, processed := ls.stats.processed + 1 } }
      | (.insert_latest, .cls_new) =>
        { ls with
          inserts := ls.inserts ++ [⟨a, d, v, true⟩]
          affected := a :: ls.affected
          stats := { ls.stats with
            new := ls.stats.new + 1, processed := ls.stats.processed + 1 } }
      | (.insert_latest, _) =>
        { ls with
          inserts := ls.inserts ++ [⟨a, d, v, true⟩]
          affected := a :: ls.affected
          stats := { ls.stats with
            changed := ls.stats.changed + 1, processed := ls.stats.processed + 1 } }
      | (.no_write, _) =>
        { ls with stats := { ls.stats with
            unchanged := ls.stats.unchanged + 1,
            processed := ls.stats.processed + 1 } } := by
  unfold process_entry spec_row
  dsimp only
  cases hex : exist a with
  | none =>
    cases hpv : prev a with
    | none => rfl
    | some p =>
      by_cases hc : |p - v| > eps
      · simp only [if_pos hc]
      · simp only [if_neg hc]
  | some w =>
    by_cases hc : |w - v| > eps
    · simp only [if_pos hc]
    · simp only [if_neg hc]

end DeltaSync

namespace DeltaSync

variable {ι : Type} [DecidableEq ι]

lemma mem_inserts_step (d : Nat) (prev exist : ι → Option ℚ) (ls : LoopState ι)
    (e : ι × ℚ) (r : SRec ι) (hr : r ∈ ls.inserts) :
    r ∈ (process_entry d prev exist ls e).inserts := by
  unfold process_entry
  cases exist e.1 with
  | none =>
    cases prev e.1 with
    | none => exact List.mem_append_left _ hr
    | some p =>
      by_cases hc : |p - e.2| > eps
      · simp only [if_pos hc]
        exact List.mem_append_left _ hr
      · simp only [if_neg hc]
        exact hr
  | some w =>
    by_cases hc : |w - e.2| > eps
    · simp only [if_pos hc]
      exact hr
    · simp only [if_neg hc]
      exact hr

lemma mem_inserts_foldl (d : Nat) (prev exist : ι → Option ℚ)
    (fetch : List (ι × ℚ)) (ls : LoopState ι) (r : SRec ι) (hr : r ∈ ls.inserts) :
    r ∈ (fetch.foldl (process_entry d prev exist) ls).inserts := by
  induction fetch generalizing ls with
  | nil => exact hr
  | cons e rest ih =>
    exact ih (process_entry d prev exist ls e) (mem_inserts_step d prev exist ls e r hr)

lemma insert_classified_mem (d : Nat) (prev exist : ι → Option ℚ)
    (fetch : List (ι × ℚ)) (ls : LoopState ι) (a : ι) (v : ℚ)
    (hmem : (a, v) ∈ fetch) (hex : exist a = none)
    (hcls : prev a = none ∨ ∃ p, prev a = some p ∧ |p - v| > eps) :
    (⟨a, d, v, true⟩ : SRec ι) ∈ (fetch.foldl (process_entry d prev exist) ls).inserts := by
  induction fetch generalizing ls with
  | nil => cases hmem
  | cons e rest ih =>
    rw [List.foldl_cons]
    rcases List.mem_cons.mp hmem with he | hmem2
    · subst he
      apply mem_inserts_foldl
      unfold process_entry
      dsimp only
      rw [hex]
      rcases hcls with hp | ⟨p, hp, hpe⟩
      · rw [hp]
        exact List.mem_append_right _ (List.mem_singleton.mpr rfl)
      · rw [hp]
        simp only [if_pos hpe]
        exact List.mem_append_right _ (List.mem_singleton.mpr rfl)
    · exact ih _ hmem2

lemma update_latest_flags_mem_shape (s : List (SRec ι)) (aff : List ι) (r : SRec ι)
    (hr : r ∈ s) :
    ∃ r2 ∈ update_latest_flags s aff,
      r2.id = r.id ∧ r2.date = r.date ∧ r2.value = r.value := by
  unfold update_latest_flags
  cases table_max_date s with
  | none => exact ⟨r, hr, rfl, rfl, rfl⟩
  | some m =>
    by_cases hc : r.id ∈ aff ∧ r.date ≠ m
    · exact ⟨{ r with is_latest := false },
        List.mem_map.mpr ⟨r, hr, by rw [if_pos hc]⟩, rfl, rfl, rfl⟩
    · exact ⟨r, List.mem_map.mpr ⟨r, hr, by rw [if_neg hc]⟩, rfl, rfl, rfl⟩

end DeltaSync

namespace DeltaSync

open CosmosFetch in
/-- C9 fails on the code as universally stated: for a prior stored value that
is positive but within the `0.000001` epsilon (here `10⁻⁷`), a failed fetch
(exception) still reports `0.0`, but the diff classifies the address as
unchanged — no zero-value record is written and `changed` stays `0`. -/
theorem c9_counterexample :
    (get_balance_async "a" .exn).2 = 0 ∧
    (sync_balances (ι := String) [⟨"a", 0, 1 / 10000000, true⟩] 1
        [get_balance_async "a" .exn]).1
      = [⟨"a", 0, 1 / 10000000, true⟩] ∧
    (sync_balances (ι := String) [⟨"a", 0, 1 / 10000000, true⟩] 1
        [get_balance_async "a" .exn]).2.changed = 0 ∧
    (sync_balances (ι := String) [⟨"a", 0, 1 / 10000000, true⟩] 1
        [get_balance_async "a" .exn]).2.unchanged = 1 := by
  have hg : ¬(|(1 : ℚ) / 10000000 - 0| > eps) := by
    rw [sub_zero, abs_of_nonneg (by norm_num)]
    norm_num [eps]
  have hex : existing_for (ι := String) [⟨"a", 0, 1 / 10000000, true⟩] 1 "a"
      = none := rfl
  have hpv : previous_for (ι := String) [⟨"a", 0, 1 / 10000000, true⟩] 1 "a"
      = some (1 / 10000000) := rfl
  have hrun : run_loop (ι := String) [⟨"a", 0, 1 / 10000000, true⟩] 1
      [get_balance_async "a" .exn] =
      { store := [⟨"a", 0, 1 / 10000000, true⟩], inserts := [], affected := [],
        stats := { stats0 with unchanged := 1, processed := 1 } } := by
    unfold run_loop
    rw [List.foldl_cons, List.foldl_nil]
    unfold process_entry
    simp only [get_balance_async, hex, hpv]
    rw [if_neg hg]
    rfl
  refine ⟨rfl, ?_, ?_, ?_⟩ <;>
  · simp only [sync_balances]
    rw [hrun]
    try rfl

open CosmosFetch in
/-- C9 amended: any per-address fetch failure — an exception (including the
timeout), a non-200 status, or a 200 body without the `balances` key — is
reported as balance `0.0`, indistinguishable from a genuine zero balance.
Consequently, for an address with no record on the target date whose
latest-prior value differs from `0` by more than the epsilon, the importer
classifies the address under the changed-insert row of the state machine and
a zero-value record for the target date ends up in the store. -/
theorem c9_amended (out : FetchOutcome)
    (hout : out = .exn ∨ (∃ st, out = .httpError st) ∨ out = .okNoField)
    (s : List (SRec String)) (d : Nat) (a : String) (fetch : List (String × ℚ))
    (hmem : get_balance_async a out ∈ fetch)
    (hex : existing_for s d a = none)
    (p : ℚ) (hp : previous_for s d a = some p) (hpe : |p - 0| > eps) :
    (get_balance_async a out).2 = 0 ∧
    spec_row (get_balance_async a out).2 (existing_for s d a) (previous_for s d a)
      = (.insert_latest, .cls_changed) ∧
    ∃ r ∈ (sync_balances s d fetch).1, r.id = a ∧ r.date = d ∧ r.value = 0 := by
  have hz : get_balance_async a out = (a, 0) := by
    rcases hout with h | ⟨st, h⟩ | h <;> subst h <;> rfl
  refine ⟨by rw [hz], ?_, ?_⟩
  · rw [hz, hex, hp]
    unfold spec_row
    simp only [if_pos hpe]
  · have hins : (⟨a, d, 0, true⟩ : SRec String) ∈ (run_loop s d fetch).inserts := by
      apply insert_classified_mem
      · rw [← hz]
        exact hmem
      · exact hex
      · exact Or.inr ⟨p, hp, hpe⟩
    unfold sync_balances
    dsimp only
    by_cases haff : (run_loop s d fetch).affected = []
    · rw [if_pos haff]
      exact ⟨⟨a, d, 0, true⟩, List.mem_append_right _ hins, rfl, rfl, rfl⟩
    · rw [if_neg haff]
      obtain ⟨r2, hr2, hid, hdt, hv⟩ :=
        update_latest_flags_mem_shape
          ((run_loop s d fetch).store ++ (run_loop s d fetch).inserts)
          (run_loop s d fetch).affected ⟨a, d, 0, true⟩
          (List.mem_append_right _ hins)
      exact ⟨r2, hr2, hid, hdt, hv⟩

open CosmosFetch in
/-- Witness for C9 amended: address `a` has prior value `50`, the fetch times
out, and the store receives a zero-value record for the target date. -/
theorem c9_amended_witness :
    ((FetchOutcome.exn = FetchOutcome.exn ∨
        (∃ st, FetchOutcome.exn = FetchOutcome.httpError st) ∨
        FetchOutcome.exn = FetchOutcome.okNoField) ∧
      get_balance_async "a" .exn ∈ [get_balance_async "a" .exn] ∧
      existing_for (ι := String) [⟨"a", 0, 50, true⟩] 1 "a" = none ∧
      previous_for (ι := String) [⟨"a", 0, 50, true⟩] 1 "a" = some 50 ∧
      |(50 : ℚ) - 0| > eps) ∧
    ((get_balance_async "a" .exn).2 = 0 ∧
      spec_row (get_balance_async "a" .exn).2
          (existing_for (ι := String) [⟨"a", 0, 50, true⟩] 1 "a")
          (previous_for (ι := String) [⟨"a", 0, 50, true⟩] 1 "a")
        = (.insert_latest, .cls_changed) ∧
      ∃ r ∈ (sync_balances (ι := String) [⟨"a", 0, 50, true⟩] 1
          [get_balance_async "a" .exn]).1, r.id = "a" ∧ r.date = 1 ∧ r.value = 0) :=
  ⟨⟨Or.inl rfl, List.mem_singleton.mpr rfl, rfl, rfl,
    by rw [sub_zero, abs_of_nonneg (by norm_num : (0 : ℚ) ≤ 50)]; norm_num [eps]⟩,
   c9_amended .exn (Or.inl rfl) [⟨"a", 0, 50, true⟩] 1 "a"
     [get_balance_async "a" .exn] (List.mem_singleton.mpr rfl) rfl 50 rfl
     (by rw [sub_zero, abs_of_nonneg (by norm_num : (0 : ℚ) ≤ 50)]; norm_num [eps])⟩

end DeltaSync

namespace DeltaSync

variable {ι : Type} [DecidableEq ι]

lemma pick_mem (l : List (SRec ι)) (acc : Option (SRec ι)) (r : SRec ι)
    (h : l.foldl (fun acc r =>
        match acc with
        | none => some r
        | some b => if b.date ≤ r.date then some r else acc) acc = some r) :
    acc = some r ∨ r ∈ l := by
  induction l generalizing acc with
  | nil => exact Or.inl h
  | cons x xs ih =>
    rw [List.foldl_cons] at h
    rcases ih _ h with hacc | hmem
    · cases acc with
      | none =>
        simp only [Option.some.injEq] at hacc
        exact Or.inr (List.mem_cons.mpr (Or.inl hacc.symm))
      | some b =>
        dsimp only at hacc
        by_cases hc : b.date ≤ x.date
        · rw [if_pos hc] at hacc
          simp only [Option.some.injEq] at hacc
          exact Or.inr (List.mem_cons.mpr (Or.inl hacc.symm))
        · rw [if_neg hc] at hacc
          exact Or.inl hacc
    · exact Or.inr (List.mem_cons_of_mem _ hmem)

lemma latest_before_mem (s : List (SRec ι)) (d : Nat) (i : ι) (r : SRec ι)
    (h : latest_before s d i = some r) : r ∈ s ∧ r.id = i ∧ r.date < d := by
  unfold latest_before at h
  rcases pick_mem _ none r h with hacc | hmem
  · cases hacc
  · obtain ⟨hmem2, hp⟩ := List.mem_filter.mp hmem
    obtain ⟨h1, h2⟩ := of_decide_eq_true hp
    exact ⟨hmem2, h1, h2⟩

lemma mem_prior_ids (s : List (SRec ι)) (d : Nat) (r : SRec ι)
    (hr : r ∈ s) (hd : r.date < d) : r.id ∈ prior_ids s d := by
  unfold prior_ids
  rw [List.mem_dedup]
  exact List.mem_map.mpr ⟨r, List.mem_filter.mpr ⟨hr, decide_eq_true hd⟩, rfl⟩

lemma mem_deleted_keys (s : List (SRec ι)) (d : Nat) (fids : List ι) (k : ι) (p : ℚ)
    (hk : previous_for s d k = some p) (hp : p > 0) (hnf : k ∉ fids) :
    k ∈ deleted_keys s d fids := by
  obtain ⟨r, hr⟩ : ∃ r, latest_before s d k = some r := by
    unfold previous_for at hk
    cases hlb2 : latest_before s d k with
    | none => rw [hlb2] at hk; cases hk
    | some r => exact ⟨r, rfl⟩
  obtain ⟨hmem, hid, hdt⟩ := latest_before_mem s d k r hr
  unfold deleted_keys
  apply List.mem_filter.mpr
  refine ⟨hid ▸ mem_prior_ids s d r hmem hdt, ?_⟩
  rw [hk]
  simp only [Bool.and_eq_true, decide_eq_true_eq]
  exact ⟨hnf, hp⟩

lemma zero_existing_establishes (st : List (SRec ι)) (d : Nat) (k : ι)
    (h : (st.find? (fun r => decide (r.id = k ∧ r.date = d))).isSome = true) :
    ∃ r ∈ zero_existing st d k, r.id = k ∧ r.date = d ∧ r.value = 0 := by
  induction st with
  | nil => simp [List.find?] at h
  | cons x xs ih =>
    unfold zero_existing
    by_cases hc : x.id = k ∧ x.date = d
    · rw [if_pos hc]
      exact ⟨{ x with value := 0 }, List.mem_cons_self _ _, hc.1, hc.2, rfl⟩
    · rw [if_neg hc]
      have h2 : (xs.find? (fun r => decide (r.id = k ∧ r.date = d))).isSome = true := by
        rw [List.find?_cons_of_neg] at h
        · exact h
        · exact decide_eq_false hc ▸ (by simp [hc])
      obtain ⟨r, hrmem, hprop⟩ := ih h2
      exact ⟨r, List.mem_cons_of_mem _ hrmem, hprop⟩

lemma zero_existing_preserves (st : List (SRec ι)) (d : Nat) (k2 k : ι)
    (h : ∃ r ∈ st, r.id = k ∧ r.date = d ∧ r.value = 0) :
    ∃ r ∈ zero_existing st d k2, r.id = k ∧ r.date = d ∧ r.value = 0 := by
  obtain ⟨r, hr, h1, h2, h3⟩ := h
  induction st with
  | nil => cases hr
  | cons x xs ih =>
    unfold zero_existing
    by_cases hc : x.id = k2 ∧ x.date = d
    · rw [if_pos hc]
      rcases List.mem_cons.mp hr with hx | hx
      · exact ⟨{ x with value := 0 }, List.mem_cons_self _ _,
          by rw [← hx] at hc ⊢; exact h1, by rw [← hx]; exact h2, rfl⟩
      · exact ⟨r, List.mem_cons_of_mem _ hx, h1, h2, h3⟩
    · rw [if_neg hc]
      rcases List.mem_cons.mp hr with hx | hx
      · exact ⟨x, List.mem_cons_self _ _, hx ▸ h1, hx ▸ h2, hx ▸ h3⟩
      · obtain ⟨r2, hr2, hp2⟩ := ih hx
        exact ⟨r2, List.mem_cons_of_mem _ hr2, hp2⟩

lemma apply_deleted_establishes (st : List (SRec ι)) (d : Nat) (k : ι) :
    ∃ r ∈ apply_deleted st d k, r.id = k ∧ r.date = d ∧ r.value = 0 := by
  unfold apply_deleted
  by_cases h : (st.find? (fun r => decide (r.id = k ∧ r.date = d))).isSome = true
  · rw [if_pos h]
    exact zero_existing_establishes st d k h
  · rw [if_neg h]
    exact ⟨⟨k, d, 0, true⟩, List.mem_append_right _ (List.mem_singleton.mpr rfl),
      rfl, rfl, rfl⟩

lemma apply_deleted_preserves (st : List (SRec ι)) (d : Nat) (k2 k : ι)
    (h : ∃ r ∈ st, r.id = k ∧ r.date = d ∧ r.value = 0) :
    ∃ r ∈ apply_deleted st d k2, r.id = k ∧ r.date = d ∧ r.value = 0 := by
  unfold apply_deleted
  by_cases hf : (st.find? (fun r => decide (r.id = k2 ∧ r.date = d))).isSome = true
  · rw [if_pos hf]
    exact zero_existing_preserves st d k2 k h
  · rw [if_neg hf]
    obtain ⟨r, hr, hp⟩ := h
    exact ⟨r, List.mem_append_left _ hr, hp⟩

lemma fold_deleted_preserves (dk : List ι) (st : List (SRec ι)) (d : Nat) (k : ι)
    (h : ∃ r ∈ st, r.id = k ∧ r.date = d ∧ r.value = 0) :
    ∃ r ∈ dk.foldl (fun acc k2 => apply_deleted acc d k2) st,
      r.id = k ∧ r.date = d ∧ r.value = 0 := by
  induction dk generalizing st with
  | nil => exact h
  | cons k0 rest ih =>
    rw [List.foldl_cons]
    exact ih _ (apply_deleted_preserves st d k0 k h)

lemma fold_deleted_establishes (dk : List ι) (st : List (SRec ι)) (d : Nat) (k : ι)
    (hk : k ∈ dk) :
    ∃ r ∈ dk.foldl (fun acc k2 => apply_deleted acc d k2) st,
      r.id = k ∧ r.date = d ∧ r.value = 0 := by
  induction dk generalizing st with
  | nil => cases hk
  | cons k0 rest ih =>
    rw [List.foldl_cons]
    rcases List.mem_cons.mp hk with he | hmem
    · subst he
      exact fold_deleted_preserves rest _ d k (apply_deleted_establishes st d k)
    · exact ih _ hmem

lemma zero_positive_preserves (st : List (SRec ι)) (d : Nat) (k2 k : ι)
    (h : ∃ r ∈ st, r.id = k ∧ r.date = d ∧ r.value = 0) :
    ∃ r ∈ zero_positive_at st d k2, r.id = k ∧ r.date = d ∧ r.value = 0 := by
  obtain ⟨r, hr, h1, h2, h3⟩ := h
  unfold zero_positive_at
  refine ⟨_, List.mem_map_of_mem _ hr, ?_⟩
  rw [if_neg (fun hc => absurd hc.2.2 (by rw [h3]; exact lt_irrefl 0))]
  exact ⟨h1, h2, h3⟩

lemma process_disappeared_preserves (st : List (SRec ι)) (d : Nat) (fids : List ι)
    (k : ι) (h : ∃ r ∈ st, r.id = k ∧ r.date = d ∧ r.value = 0) :
    ∃ r ∈ (process_disappeared st d fids).1, r.id = k ∧ r.date = d ∧ r.value = 0 := by
  unfold process_disappeared
  have haux : ∀ (snap : List (SRec ι)) (acc : List (SRec ι) × Nat),
      (∃ r ∈ acc.1, r.id = k ∧ r.date = d ∧ r.value = 0) →
      ∃ r ∈ (snap.foldl (fun acc r =>
          (zero_positive_at acc.1 d r.id,
           if acc.1.any (fun x => decide (x.id = r.id ∧ x.date = d ∧ x.value > 0))
           then acc.2 + 1 else acc.2)) acc).1,
        r.id = k ∧ r.date = d ∧ r.value = 0 := by
    intro snap
    induction snap with
    | nil => exact fun acc h2 => h2
    | cons x xs ih =>
      intro acc h2
      rw [List.foldl_cons]
      exact ih _ (zero_positive_preserves acc.1 d x.id k h2)
  exact haux _ (st, 0) h

end DeltaSync

namespace DeltaSync

/-- C3 fails on the code for the wallet-balance entity kind: address `y` has
latest-prior value `50 > 0` and is absent from the fetch, yet
`import_balances_to_db` has no deleted/disappeared pass at all — the run
leaves `y` without any target-date record (its stale day-0 row is all there
is), and the summary's deleted/disappeared counters stay `0`. -/
theorem c3_counterexample :
    (sync_balances (ι := String) [⟨"y", 0, 50, true⟩] 1 [("x", 100)]).1
      = [⟨"y", 0, 50, true⟩, ⟨"x", 1, 100, true⟩] ∧
    (¬ ∃ r ∈ (sync_balances (ι := String) [⟨"y", 0, 50, true⟩] 1 [("x", 100)]).1,
        r.id = "y" ∧ r.date = 1) ∧
    (sync_balances (ι := String) [⟨"y", 0, 50, true⟩] 1 [("x", 100)]).2.deleted = 0 ∧
    (sync_balances (ι := String) [⟨"y", 0, 50, true⟩] 1 [("x", 100)]).2.disappeared
      = 0 := by
  refine ⟨?_, ?_, ?_, ?_⟩ <;> decide

/-- C3 amended: only the delegation importer writes disappearance records.
For every identity with a positive latest-prior value absent from the fetch,
`import_delegations_to_db` counts it among the deleted delegations
(`deleted_delegations` in the summary; the separate `disappeared` counter only
covers positive same-day rows) and a zero-value record for the target date is
present in the resulting store.  The balance importer has no such pass. -/
theorem c3_amended {ι : Type} [DecidableEq ι] (s : List (SRec ι)) (d : Nat)
    (fetch : List (ι × ℚ)) (k : ι) (p : ℚ)
    (hk : previous_for s d k = some p) (hp : p > 0)
    (hnf : k ∉ fetch.map Prod.fst) :
    k ∈ deleted_keys s d (fetch.map Prod.fst) ∧
    (sync_delegations s d fetch).2.deleted =
      (deleted_keys s d (fetch.map Prod.fst)).length ∧
    0 < (sync_delegations s d fetch).2.deleted ∧
    ∃ r ∈ (sync_delegations s d fetch).1, r.id = k ∧ r.date = d ∧ r.value = 0 := by
  have hmem := mem_deleted_keys s d (fetch.map Prod.fst) k p hk hp hnf
  have hlen : (sync_delegations s d fetch).2.deleted =
      (deleted_keys s d (fetch.map Prod.fst)).length := by
    simp only [sync_delegations, process_deleted]
  refine ⟨hmem, hlen, ?_, ?_⟩
  · rw [hlen]
    exact List.length_pos.mpr (List.ne_nil_of_mem hmem)
  · have h1 : ∃ r ∈ (process_deleted s (run_loop s d fetch).store d
        (fetch.map Prod.fst)).1, r.id = k ∧ r.date = d ∧ r.value = 0 := by
      unfold process_deleted
      exact fold_deleted_establishes _ _ d k hmem
    have h2 := process_disappeared_preserves
      (process_deleted s (run_loop s d fetch).store d (fetch.map Prod.fst)).1 d
      (fetch.map Prod.fst) k h1
    obtain ⟨r, hr, hp1, hp2, hp3⟩ := h2
    have h3 : r ∈ (process_disappeared
        (process_deleted s (run_loop s d fetch).store d (fetch.map Prod.fst)).1 d
        (fetch.map Prod.fst)).1 ++ (run_loop s d fetch).inserts :=
      List.mem_append_left _ hr
    unfold sync_delegations
    dsimp only
    by_cases haff : (run_loop s d fetch).affected ++
        (process_deleted s (run_loop s d fetch).store d (fetch.map Prod.fst)).2.1
        = []
    · rw [if_pos haff]
      exact ⟨r, h3, hp1, hp2, hp3⟩
    · rw [if_neg haff]
      obtain ⟨r2, hr2, hq1, hq2, hq3⟩ := update_latest_flags_mem_shape _ _ r h3
      exact ⟨r2, hr2, by rw [hq1, hp1], by rw [hq2, hp2], by rw [hq3, hp3]⟩

/-- Witness for C3 amended: delegation pair `y` has prior value `50`, the
fetch returns only `x`, and a zero record for `y` lands on the target date. -/
theorem c3_amended_witness :
    (previous_for (ι := String) [⟨"y", 0, 50, true⟩] 1 "y" = some 50 ∧
      (50 : ℚ) > 0 ∧ "y" ∉ ([("x", (100 : ℚ))].map Prod.fst)) ∧
    ("y" ∈ deleted_keys (ι := String) [⟨"y", 0, 50, true⟩] 1
        ([("x", (100 : ℚ))].map Prod.fst) ∧
      (sync_delegations (ι := String) [⟨"y", 0, 50, true⟩] 1 [("x", 100)]).2.deleted =
        (deleted_keys (ι := String) [⟨"y", 0, 50, true⟩] 1
          ([("x", (100 : ℚ))].map Prod.fst)).length ∧
      0 < (sync_delegations (ι := String) [⟨"y", 0, 50, true⟩] 1
        [("x", 100)]).2.deleted ∧
      ∃ r ∈ (sync_delegations (ι := String) [⟨"y", 0, 50, true⟩] 1 [("x", 100)]).1,
        r.id = "y" ∧ r.date = 1 ∧ r.value = 0) :=
  ⟨⟨rfl, by norm_num, by decide⟩,
   c3_amended [⟨"y", 0, 50, true⟩] 1 [("x", 100)] "y" 50 rfl (by norm_num)
     (by decide)⟩

end DeltaSync

namespace DeltaSync

variable {ι : Type} [DecidableEq ι]

/-- Proof-layer classification of one fetched entry against the two fixed
lookup maps (`updC` = same-day correction, `insN` = new-identity insert,
`insC` = changed insert, `noW` = no write). -/
inductive Cls
  | updC
  | insN
  | insC
  | noW
deriving DecidableEq, Repr

/-- The decision made by `process_entry`, extracted as a function. -/
def classify (prev exist : ι → Option ℚ) (a : ι) (v : ℚ) : Cls :=
  match exist a with
  | some w => if |w - v| > eps then .updC else .noW
  | none =>
    match prev a with
    | none => .insN
    | some p => if |p - v| > eps then .insC else .noW

lemma process_entry_eq (d : Nat) (prev exist : ι → Option ℚ) (ls : LoopState ι)
    (e : ι × ℚ) :
    process_entry d prev exist ls e =
      match classify prev exist e.1 e.2 with
      | .updC =>
        { ls with
          store := update_existing ls.store d e.1 e.2
          affected := e.1 :: ls.affected
          stats := { ls.stats with
            changed := ls.stats.changed + 1, processed := ls.stats.processed + 1 } }
      | .insN =>
        { ls with
          inserts := ls.inserts ++ [⟨e.1, d, e.2, true⟩]
          affected := e.1 :: ls.affected
          stats := { ls.stats with
            new := ls.stats.new + 1, processed := ls.stats.processed + 1 } }
      | .insC =>
        { ls with
          inserts := ls.inserts ++ [⟨e.1, d, e.2, true⟩]
          affected := e.1 :: ls.affected
          stats := { ls.stats with
            changed := ls.stats.changed + 1, processed := ls.stats.processed + 1 } }
      | .noW =>
        { ls with stats := { ls.stats with
            unchanged := ls.stats.unchanged + 1,
            processed := ls.stats.processed + 1 } } := by
  unfold process_entry classify
  cases hex : exist e.1 with
  | none =>
    cases hpv : prev e.1 with
    | none => rfl
    | some p =>
      by_cases hc : |p - e.2| > eps
      · simp only [if_pos hc]
      · simp only [if_neg hc]
  | some w =>
    by_cases hc : |w - e.2| > eps
    · simp only [if_pos hc]
    · simp only [if_neg hc]

/-- The store component of the loop is the fold of the in-place updates of
the `updC`-classified entries. -/
lemma loop_store_spec (d : Nat) (prev exist : ι → Option ℚ)
    (fetch : List (ι × ℚ)) (ls : LoopState ι) :
    (fetch.foldl (process_entry d prev exist) ls).store =
      fetch.foldl (fun st e =>
        if classify prev exist e.1 e.2 = .updC then update_existing st d e.1 e.2
        else st) ls.store := by
  induction fetch generalizing ls with
  | nil => rfl
  | cons e rest ih =>
    rw [List.foldl_cons, List.foldl_cons, ih]
    congr 1
    rw [process_entry_eq]
    cases classify prev exist e.1 e.2 <;> simp_all

/-- The pending inserts of the loop are exactly the insert-classified entries,
as records with the target date and `is_latest = true`. -/
lemma loop_inserts_spec (d : Nat) (prev exist : ι → Option ℚ)
    (fetch : List (ι × ℚ)) (ls : LoopState ι) :
    (fetch.foldl (process_entry d prev exist) ls).inserts =
      ls.inserts ++ fetch.filterMap (fun e =>
        match classify prev exist e.1 e.2 with
        | .insN => some ⟨e.1, d, e.2, true⟩
        | .insC => some ⟨e.1, d, e.2, true⟩
        | _ => none) := by
  induction fetch generalizing ls with
  | nil => simp
  | cons e rest ih =>
    rw [List.foldl_cons, List.filterMap_cons, ih, process_entry_eq]
    cases classify prev exist e.1 e.2 <;> simp

/-- Membership in the affected set: an identity is affected exactly when it
was already affected or one of its entries received a write classification. -/
lemma loop_affected_mem (d : Nat) (prev exist : ι → Option ℚ)
    (fetch : List (ι × ℚ)) (ls : LoopState ι) (i : ι) :
    i ∈ (fetch.foldl (process_entry d prev exist) ls).affected ↔
      i ∈ ls.affected ∨
        ∃ v, (i, v) ∈ fetch ∧ classify prev exist i v ≠ .noW := by
  induction fetch generalizing ls with
  | nil => simp
  | cons e rest ih =>
    obtain ⟨a, w⟩ := e
    rw [List.foldl_cons, ih, process_entry_eq]
    dsimp only
    constructor
    · rintro (hmem | ⟨v, hv, hcls⟩)
      · cases hc : classify prev exist a w <;> rw [hc] at hmem
        case noW => exact Or.inl hmem
        all_goals
          rcases List.mem_cons.mp hmem with he | hmem2
        all_goals
          first
          | exact Or.inl hmem2
          | (subst he
             exact Or.inr ⟨w, List.mem_cons_self _ _, by rw [hc]; simp⟩)
      · exact Or.inr ⟨v, List.mem_cons_of_mem _ hv, hcls⟩
    · rintro (hmem | ⟨v, hv, hcls⟩)
      · cases classify prev exist a w <;>
          first
          | exact Or.inl (List.mem_cons_of_mem _ hmem)
          | exact Or.inl hmem
      · rcases List.mem_cons.mp hv with he | hv2
        · injection he with h1 h2
          subst h1
          subst h2
          cases hc : classify prev exist i v
          case noW => exact absurd hc hcls
          all_goals exact Or.inl (List.mem_cons_self _ _)
        · exact Or.inr ⟨v, hv2, hcls⟩

/-- An empty affected set means every entry classified as `noW`. -/
lemma loop_affected_nil (d : Nat) (prev exist : ι → Option ℚ)
    (fetch : List (ι × ℚ)) (ls : LoopState ι)
    (h : (fetch.foldl (process_entry d prev exist) ls).affected = []) :
    ls.affected = [] ∧ ∀ e ∈ fetch, classify prev exist e.1 e.2 = .noW := by
  induction fetch generalizing ls with
  | nil => exact ⟨h, by simp⟩
  | cons e rest ih =>
    rw [List.foldl_cons] at h
    obtain ⟨h1, h2⟩ := ih _ h
    rw [process_entry_eq] at h1
    cases hc : classify prev exist e.1 e.2 <;> rw [hc] at h1 <;>
      first
      | cases h1
      | exact ⟨h1, fun e2 he2 => by
          rcases List.mem_cons.mp he2 with he | he
          · rw [he, hc]
          · exact h2 e2 he⟩

end DeltaSync

namespace DeltaSync

variable {ι : Type} [DecidableEq ι]

lemma update_existing_cons (r : SRec ι) (rs : List (SRec ι)) (d : Nat) (i : ι)
    (v : ℚ) :
    update_existing (r :: rs) d i v =
      if r.id = i ∧ r.date = d then { r with value := v, is_latest := true } :: rs
      else r :: update_existing rs d i v := rfl

lemma zero_existing_cons (r : SRec ι) (rs : List (SRec ι)) (d : Nat) (i : ι) :
    zero_existing (r :: rs) d i =
      if r.id = i ∧ r.date = d then { r with value := 0 } :: rs
      else r :: zero_existing rs d i := rfl

lemma recsOf_append (t u : List (SRec ι)) (i : ι) :
    recsOf (t ++ u) i = recsOf t i ++ recsOf u i := by
  unfold recsOf
  rw [List.filter_append]

lemma recsOf_map_id_preserving (f : SRec ι → SRec ι) (hf : ∀ r, (f r).id = r.id)
    (st : List (SRec ι)) (i : ι) :
    recsOf (st.map f) i = (recsOf st i).map f := by
  unfold recsOf
  rw [List.filter_map]
  congr 1
  apply List.filter_congr
  intro r _
  simp only [Function.comp_apply, hf r]

lemma recsOf_update_ne (st : List (SRec ι)) (d : Nat) (i j : ι) (v : ℚ)
    (h : j ≠ i) : recsOf (update_existing st d i v) j = recsOf st j := by
  induction st with
  | nil => rfl
  | cons r rs ih =>
    rw [update_existing_cons]
    by_cases hc : r.id = i ∧ r.date = d
    · rw [if_pos hc]
      unfold recsOf
      rw [List.filter_cons, List.filter_cons]
      dsimp only
      have hcond : ¬(decide (r.id = j) = true) := by
        simp only [decide_eq_true_eq]
        exact fun hji => h (hji.symm.trans hc.1)
      rw [if_neg hcond, if_neg hcond]
    · rw [if_neg hc]
      unfold recsOf
      rw [List.filter_cons, List.filter_cons]
      unfold recsOf at ih
      rw [ih]

lemma recsOf_update_self (st : List (SRec ι)) (d : Nat) (i : ι) (v : ℚ) :
    recsOf (update_existing st d i v) i = update_existing (recsOf st i) d i v := by
  induction st with
  | nil => rfl
  | cons r rs ih =>
    by_cases hc : r.id = i ∧ r.date = d
    · rw [update_existing_cons, if_pos hc]
      unfold recsOf
      rw [List.filter_cons, List.filter_cons]
      dsimp only
      rw [if_pos (decide_eq_true hc.1 : decide (r.id = i) = true),
        if_pos (decide_eq_true hc.1 : decide (r.id = i) = true)]
      rw [update_existing_cons, if_pos hc]
    · rw [update_existing_cons, if_neg hc]
      unfold recsOf
      rw [List.filter_cons, List.filter_cons]
      by_cases hid : r.id = i
      · rw [if_pos (decide_eq_true hid : decide (r.id = i) = true),
          if_pos (decide_eq_true hid : decide (r.id = i) = true)]
        rw [update_existing_cons, if_neg hc]
        unfold recsOf at ih
        rw [ih]
      · rw [if_neg (by simp [hid] : ¬(decide (r.id = i) = true)),
          if_neg (by simp [hid] : ¬(decide (r.id = i) = true))]
        unfold recsOf at ih
        rw [ih]

lemma recsOf_zero_ne (st : List (SRec ι)) (d : Nat) (i j : ι)
    (h : j ≠ i) : recsOf (zero_existing st d i) j = recsOf st j := by
  induction st with
  | nil => rfl
  | cons r rs ih =>
    rw [zero_existing_cons]
    by_cases hc : r.id = i ∧ r.date = d
    · rw [if_pos hc]
      unfold recsOf
      rw [List.filter_cons, List.filter_cons]
      dsimp only
      have hcond : ¬(decide (r.id = j) = true) := by
        simp only [decide_eq_true_eq]
        exact fun hji => h (hji.symm.trans hc.1)
      rw [if_neg hcond, if_neg hcond]
    · rw [if_neg hc]
      unfold recsOf
      rw [List.filter_cons, List.filter_cons]
      unfold recsOf at ih
      rw [ih]

/-- The date-flag projection of a row list; the latest invariant only
depends on it. -/
def dfProj (l : List (SRec ι)) : List (Nat × Bool) :=
  l.map (fun r => (r.date, r.is_latest))

lemma idOK_iff_dfProj (s : List (SRec ι)) (i : ι) :
    idOK s i ↔
      ((dfProj (recsOf s i)).countP (fun x => x.2) = 1 ∧
        ∀ x ∈ dfProj (recsOf s i), x.2 = true →
          x.1 = ((dfProj (recsOf s i)).map Prod.fst).foldl max 0) := by
  unfold idOK dfProj maxDate
  rw [List.countP_map, List.map_map]
  constructor
  · rintro ⟨h1, h2⟩
    refine ⟨h1, ?_⟩
    intro x hx hx2
    obtain ⟨r, hr, hrx⟩ := List.mem_map.mp hx
    rw [← hrx] at hx2 ⊢
    exact h2 r hr hx2
  · rintro ⟨h1, h2⟩
    refine ⟨h1, ?_⟩
    intro r hr hrl
    exact h2 (r.date, r.is_latest) (List.mem_map_of_mem _ hr) hrl

lemma idOK_congr (t1 t2 : List (SRec ι)) (i : ι)
    (h : dfProj (recsOf t1 i) = dfProj (recsOf t2 i)) : idOK t1 i ↔ idOK t2 i := by
  rw [idOK_iff_dfProj, idOK_iff_dfProj, h]

lemma foldl_max_le (l : List Nat) (a m : Nat) (ha : a ≤ m) (h : ∀ x ∈ l, x ≤ m) :
    l.foldl max a ≤ m := by
  induction l generalizing a with
  | nil => exact ha
  | cons x xs ih =>
    rw [List.foldl_cons]
    exact ih _ (max_le ha (h x (List.mem_cons_self _ _)))
      (fun y hy => h y (List.mem_cons_of_mem _ hy))

lemma le_foldl_max_self (l : List Nat) (a : Nat) : a ≤ l.foldl max a := by
  induction l generalizing a with
  | nil => exact le_rfl
  | cons x xs ih =>
    rw [List.foldl_cons]
    exact le_trans (le_max_left a x) (ih _)

lemma le_foldl_max_mem (l : List Nat) (a x : Nat) (hx : x ∈ l) : x ≤ l.foldl max a := by
  induction l generalizing a with
  | nil => cases hx
  | cons y ys ih =>
    rw [List.foldl_cons]
    rcases List.mem_cons.mp hx with he | he
    · subst he
      exact le_trans (le_max_right a x) (le_foldl_max_self ys _)
    · exact ih _ he

lemma maxDate_eq_of (l : List (SRec ι)) (d : Nat)
    (hle : ∀ r ∈ l, r.date ≤ d) (hmem : ∃ r ∈ l, r.date = d) : maxDate l = d := by
  unfold maxDate
  obtain ⟨r0, hr0, hd0⟩ := hmem
  refine le_antisymm ?_ ?_
  · exact foldl_max_le _ 0 d (Nat.zero_le d) (fun x hx => by
      obtain ⟨r, hr, hrx⟩ := List.mem_map.mp hx
      rw [← hrx]
      exact hle r hr)
  · rw [← hd0]
    exact le_foldl_max_mem _ 0 r0.date (List.mem_map_of_mem _ hr0)

lemma countP_eq_one_of (l : List (SRec ι)) (P : SRec ι → Bool) (rz : SRec ι)
    (hmem : rz ∈ l) (hP : P rz = true)
    (hpair : l.Pairwise (fun a b => ¬(a.date = b.date)))
    (hdate : ∀ r ∈ l, P r = true → r.date = rz.date) :
    l.countP P = 1 := by
  induction l with
  | nil => cases hmem
  | cons x xs ih =>
    rw [List.countP_cons]
    obtain ⟨hx, hxs⟩ := List.pairwise_cons.mp hpair
    by_cases hPx : P x = true
    · have hzero : xs.countP P = 0 := by
        rw [List.countP_eq_zero]
        intro y hy hPy
        have hyd : y.date = rz.date := hdate y (List.mem_cons_of_mem _ hy) hPy
        have hxd : x.date = rz.date := hdate x (List.mem_cons_self _ _) hPx
        exact hx y hy (hxd.trans hyd.symm)
      rw [hzero, hPx]
      rfl
    · have hrzmem : rz ∈ xs := by
        rcases List.mem_cons.mp hmem with he | he
        · rw [he] at hP
          exact absurd hP hPx
        · exact he
      rw [ih hrzmem hxs (fun r hr hPr => hdate r (List.mem_cons_of_mem _ hr) hPr)]
      simp [hPx]

lemma pairwise_dates_recsOf (t : List (SRec ι)) (i : ι) (hu : uniqueIdDate t) :
    (recsOf t i).Pairwise (fun a b => ¬(a.date = b.date)) := by
  have h1 : (recsOf t i).Pairwise (fun a b => ¬(a.id = b.id ∧ a.date = b.date)) :=
    hu.sublist (List.filter_sublist t)
  apply h1.imp_of_mem
  intro a b ha hb hr hd
  have hai : a.id = i := of_decide_eq_true (List.mem_filter.mp ha).2
  have hbi : b.id = i := of_decide_eq_true (List.mem_filter.mp hb).2
  exact hr ⟨hai.trans hbi.symm, hd⟩

end DeltaSync

namespace DeltaSync

variable {ι : Type} [DecidableEq ι]

lemma mem_update_existing (st : List (SRec ι)) (d : Nat) (i : ι) (v : ℚ)
    (r2 : SRec ι) (h : r2 ∈ update_existing st d i v) :
    r2 ∈ st ∨ ∃ r ∈ st, r.id = i ∧ r.date = d ∧
      r2 = { r with value := v, is_latest := true } := by
  induction st with
  | nil => cases h
  | cons r rs ih =>
    rw [update_existing_cons] at h
    by_cases hc : r.id = i ∧ r.date = d
    · rw [if_pos hc] at h
      rcases List.mem_cons.mp h with he | he
      · exact Or.inr ⟨r, List.mem_cons_self _ _, hc.1, hc.2, he⟩
      · exact Or.inl (List.mem_cons_of_mem _ he)
    · rw [if_neg hc] at h
      rcases List.mem_cons.mp h with he | he
      · exact Or.inl (he ▸ List.mem_cons_self _ _)
      · rcases ih he with h1 | ⟨r0, hr0, hp⟩
        · exact Or.inl (List.mem_cons_of_mem _ h1)
        · exact Or.inr ⟨r0, List.mem_cons_of_mem _ hr0, hp⟩

lemma mem_zero_existing (st : List (SRec ι)) (d : Nat) (i : ι)
    (r2 : SRec ι) (h : r2 ∈ zero_existing st d i) :
    r2 ∈ st ∨ ∃ r ∈ st, r.id = i ∧ r.date = d ∧ r2 = { r with value := 0 } := by
  induction st with
  | nil => cases h
  | cons r rs ih =>
    rw [zero_existing_cons] at h
    by_cases hc : r.id = i ∧ r.date = d
    · rw [if_pos hc] at h
      rcases List.mem_cons.mp h with he | he
      · exact Or.inr ⟨r, List.mem_cons_self _ _, hc.1, hc.2, he⟩
      · exact Or.inl (List.mem_cons_of_mem _ he)
    · rw [if_neg hc] at h
      rcases List.mem_cons.mp h with he | he
      · exact Or.inl (he ▸ List.mem_cons_self _ _)
      · rcases ih he with h1 | ⟨r0, hr0, hp⟩
        · exact Or.inl (List.mem_cons_of_mem _ h1)
        · exact Or.inr ⟨r0, List.mem_cons_of_mem _ hr0, hp⟩

lemma update_existing_result (l : List (SRec ι)) (d : Nat) (i : ι) (v : ℚ)
    (h : ∃ r ∈ l, r.id = i ∧ r.date = d) :
    ∃ r2 ∈ update_existing l d i v,
      r2.id = i ∧ r2.date = d ∧ r2.is_latest = true := by
  induction l with
  | nil =>
    obtain ⟨r, hr, _⟩ := h
    cases hr
  | cons r rs ih =>
    rw [update_existing_cons]
    by_cases hc : r.id = i ∧ r.date = d
    · rw [if_pos hc]
      exact ⟨{ r with value := v, is_latest := true }, List.mem_cons_self _ _,
        hc.1, hc.2, rfl⟩
    · rw [if_neg hc]
      obtain ⟨r0, hr0, hp⟩ := h
      rcases List.mem_cons.mp hr0 with he | he
      · exact absurd (he ▸ hp) hc
      · obtain ⟨r2, hr2, hq⟩ := ih ⟨r0, he, hp⟩
        exact ⟨r2, List.mem_cons_of_mem _ hr2, hq⟩

lemma existing_for_some_mem (s : List (SRec ι)) (d : Nat) (i : ι) (w : ℚ)
    (h : existing_for s d i = some w) :
    ∃ r ∈ s, r.id = i ∧ r.date = d ∧ r.value = w := by
  unfold existing_for at h
  cases hf : s.find? (fun r => decide (r.id = i ∧ r.date = d)) with
  | none => rw [hf] at h; cases h
  | some r =>
    rw [hf] at h
    have hv : r.value = w := by
      simpa using h
    have hp0 := @List.find?_some _
      (fun x : SRec ι => decide (x.id = i ∧ x.date = d)) r s hf
    have hp := of_decide_eq_true hp0
    exact ⟨r, List.mem_of_find?_eq_some hf, hp.1, hp.2, hv⟩

lemma existing_for_none_of (s : List (SRec ι)) (d : Nat) (i : ι)
    (h : existing_for s d i = none) : ∀ r ∈ s, ¬(r.id = i ∧ r.date = d) := by
  unfold existing_for at h
  cases hf : s.find? (fun r => decide (r.id = i ∧ r.date = d)) with
  | none =>
    intro r hr hp
    have := List.find?_eq_none.mp hf r hr
    exact this (decide_eq_true hp)
  | some r => rw [hf] at h; cases h

/-- The identity-date skeleton of a store; uniqueness only depends on it. -/
def skel (s : List (SRec ι)) : List (ι × Nat) := s.map (fun r => (r.id, r.date))

lemma skel_update_existing (st : List (SRec ι)) (d : Nat) (i : ι) (v : ℚ) :
    skel (update_existing st d i v) = skel st := by
  induction st with
  | nil => rfl
  | cons r rs ih =>
    rw [update_existing_cons]
    by_cases hc : r.id = i ∧ r.date = d
    · rw [if_pos hc]
      rfl
    · rw [if_neg hc]
      unfold skel at ih ⊢
      simp only [List.map_cons, ih]

lemma skel_zero_existing (st : List (SRec ι)) (d : Nat) (i : ι) :
    skel (zero_existing st d i) = skel st := by
  induction st with
  | nil => rfl
  | cons r rs ih =>
    rw [zero_existing_cons]
    by_cases hc : r.id = i ∧ r.date = d
    · rw [if_pos hc]
      rfl
    · rw [if_neg hc]
      unfold skel at ih ⊢
      simp only [List.map_cons, ih]

lemma skel_fold_store (d : Nat) (prev exist : ι → Option ℚ)
    (fetch : List (ι × ℚ)) (st : List (SRec ι)) :
    skel (fetch.foldl (fun st e =>
        if classify prev exist e.1 e.2 = .updC then update_existing st d e.1 e.2
        else st) st) = skel st := by
  induction fetch generalizing st with
  | nil => rfl
  | cons e rest ih =>
    rw [List.foldl_cons]
    by_cases hc : classify prev exist e.1 e.2 = .updC
    · rw [if_pos hc, ih, skel_update_existing]
    · rw [if_neg hc, ih]

lemma uniqueIdDate_iff_skel (s : List (SRec ι)) :
    uniqueIdDate s ↔
      (skel s).Pairwise (fun a b => ¬(a.1 = b.1 ∧ a.2 = b.2)) := by
  unfold uniqueIdDate skel
  rw [List.pairwise_map]

lemma mem_skel_of_mem (s : List (SRec ι)) (r : SRec ι) (hr : r ∈ s) :
    (r.id, r.date) ∈ skel s := List.mem_map_of_mem _ hr

lemma mem_of_mem_skel (s : List (SRec ι)) (x : ι × Nat) (hx : x ∈ skel s) :
    ∃ r ∈ s, r.id = x.1 ∧ r.date = x.2 := by
  obtain ⟨r, hr, hrx⟩ := List.mem_map.mp hx
  exact ⟨r, hr, by rw [← hrx], by rw [← hrx]⟩

lemma classify_ins_exist_none (prev exist : ι → Option ℚ) (a : ι) (v : ℚ)
    (h : classify prev exist a v ≠ .noW) (h2 : classify prev exist a v ≠ .updC) :
    exist a = none := by
  unfold classify at h h2
  cases hex : exist a with
  | none => rfl
  | some w =>
    rw [hex] at h h2
    dsimp only at h h2
    by_cases hc : |w - v| > eps
    · rw [if_pos hc] at h2
      exact absurd rfl h2
    · rw [if_neg hc] at h
      exact absurd rfl h

lemma classify_updC_exist (prev exist : ι → Option ℚ) (a : ι) (v : ℚ)
    (h : classify prev exist a v = .updC) : ∃ w, exist a = some w := by
  unfold classify at h
  cases hex : exist a with
  | none =>
    rw [hex] at h
    dsimp only at h
    cases hpv : prev a with
    | none => rw [hpv] at h; cases h
    | some p =>
      rw [hpv] at h
      dsimp only at h
      by_cases hc : |p - v| > eps
      · rw [if_pos hc] at h; cases h
      · rw [if_neg hc] at h; cases h
  | some w => exact ⟨w, rfl⟩

lemma loop_insert_shape (prev exist : ι → Option ℚ) (d : Nat)
    (fetch : List (ι × ℚ)) (r : SRec ι)
    (h : r ∈ fetch.filterMap (fun e =>
        match classify prev exist e.1 e.2 with
        | .insN => some ⟨e.1, d, e.2, true⟩
        | .insC => some ⟨e.1, d, e.2, true⟩
        | _ => none)) :
    r.date = d ∧ r.is_latest = true ∧ exist r.id = none ∧
      ∃ v, (r.id, v) ∈ fetch ∧ r.value = v ∧ classify prev exist r.id v ≠ .noW := by
  obtain ⟨e, he, hfe⟩ := List.mem_filterMap.mp h
  obtain ⟨a, w⟩ := e
  dsimp only at hfe
  cases hc : classify prev exist a w <;> rw [hc] at hfe
  case updC => cases hfe
  case noW => cases hfe
  all_goals
    simp only [Option.some.injEq] at hfe
    subst hfe
    exact ⟨rfl, rfl,
      classify_ins_exist_none prev exist a w (by rw [hc]; simp) (by rw [hc]; simp),
      w, he, rfl, by rw [hc]; simp⟩

lemma loop_inserts_ids_sublist (prev exist : ι → Option ℚ) (d : Nat)
    (fetch : List (ι × ℚ)) :
    ((fetch.filterMap (fun e =>
        (match classify prev exist e.1 e.2 with
        | .insN => some ⟨e.1, d, e.2, true⟩
        | .insC => some ⟨e.1, d, e.2, true⟩
        | _ => none : Option (SRec ι)))).map (fun r => r.id)).Sublist
      (fetch.map Prod.fst) := by
  induction fetch with
  | nil => simp
  | cons e rest ih =>
    rw [List.filterMap_cons, List.map_cons]
    cases classify prev exist e.1 e.2
    case insN => exact List.Sublist.cons₂ _ ih
    case insC => exact List.Sublist.cons₂ _ ih
    all_goals exact List.Sublist.cons _ ih

end DeltaSync

namespace DeltaSync

variable {ι : Type} [DecidableEq ι]

/-- The row transformation applied by the flag repair below the global
maximum date. -/
def flag_off (aff : List ι) (d : Nat) (r : SRec ι) : SRec ι :=
  if r.id ∈ aff ∧ r.date ≠ d then { r with is_latest := false } else r

lemma flag_off_id (aff : List ι) (d : Nat) (r : SRec ι) :
    (flag_off aff d r).id = r.id := by
  unfold flag_off
  split_ifs <;> rfl

lemma flag_off_date (aff : List ι) (d : Nat) (r : SRec ι) :
    (flag_off aff d r).date = r.date := by
  unfold flag_off
  split_ifs <;> rfl

lemma flag_off_not_mem (aff : List ι) (d : Nat) (r : SRec ι) (h : r.id ∉ aff) :
    flag_off aff d r = r := by
  unfold flag_off
  rw [if_neg (fun hc => h hc.1)]

lemma mem_recsOf (t : List (SRec ι)) (i : ι) (r : SRec ι) (h : r ∈ recsOf t i) :
    r ∈ t ∧ r.id = i := by
  obtain ⟨h1, h2⟩ := List.mem_filter.mp h
  exact ⟨h1, of_decide_eq_true h2⟩

lemma recsOf_mem_of (t : List (SRec ι)) (r : SRec ι) (hr : r ∈ t) :
    r ∈ recsOf t r.id :=
  List.mem_filter.mpr ⟨hr, decide_eq_true rfl⟩

lemma foldl_max_opt_isSome (l : List (SRec ι)) (a : Nat) :
    ∃ m, l.foldl (fun acc r =>
        match acc with
        | none => some r.date
        | some m0 => some (max m0 r.date)) (some a) = some m := by
  induction l generalizing a with
  | nil => exact ⟨a, rfl⟩
  | cons x xs ih =>
    rw [List.foldl_cons]
    exact ih (max a x.date)

lemma table_max_isSome (t : List (SRec ι)) (h : t ≠ []) :
    ∃ m, table_max_date t = some m := by
  cases t with
  | nil => exact absurd rfl h
  | cons r rs =>
    unfold table_max_date
    rw [List.foldl_cons]
    exact foldl_max_opt_isSome rs r.date

end DeltaSync

namespace DeltaSync

variable {ι : Type} [DecidableEq ι]

lemma map_id_on {α : Type} (l : List α) (f : α → α) (h : ∀ a ∈ l, f a = a) :
    l.map f = l := by
  induction l with
  | nil => rfl
  | cons x xs ih =>
    rw [List.map_cons, h x (List.mem_cons_self _ _),
      ih (fun a ha => h a (List.mem_cons_of_mem _ ha))]

lemma srec_eta_flag (r : SRec ι) (h : r.is_latest = false) :
    { r with is_latest := false } = r := by
  cases r
  simp_all

lemma srec_eta_value (r : SRec ι) (h : r.value = 0) :
    { r with value := 0 } = r := by
  cases r
  simp_all

lemma find_filter_imp {α : Type} (s : List α) (p q : α → Bool)
    (h : ∀ a, p a = true → q a = true) :
    (s.filter q).find? p = s.find? p := by
  induction s with
  | nil => rfl
  | cons a s ih =>
    rw [List.filter_cons]
    by_cases hq : q a = true
    · rw [if_pos hq]
      by_cases hp : p a = true
      · rw [List.find?_cons_of_pos _ hp, List.find?_cons_of_pos _ hp]
      · rw [List.find?_cons_of_neg _ (by simpa using hp),
          List.find?_cons_of_neg _ (by simpa using hp), ih]
    · have hp : ¬(p a = true) := fun hpa => hq (h a hpa)
      rw [if_neg hq, List.find?_cons_of_neg _ (by simpa using hp), ih]

lemma filter_filter_imp {α : Type} (s : List α) (p q : α → Bool)
    (h : ∀ a, p a = true → q a = true) :
    (s.filter q).filter p = s.filter p := by
  induction s with
  | nil => rfl
  | cons a s ih =>
    rw [List.filter_cons, List.filter_cons]
    by_cases hq : q a = true
    · rw [if_pos hq, List.filter_cons]
      by_cases hp : p a = true
      · rw [if_pos hp, if_pos hp, ih]
      · rw [if_neg hp, if_neg hp, ih]
    · have hp : ¬(p a = true) := fun hpa => hq (h a hpa)
      rw [if_neg hq, if_neg hp, ih]

lemma existing_for_congr (s1 s2 : List (SRec ι)) (d : Nat) (i : ι)
    (h : recsOf s1 i = recsOf s2 i) :
    existing_for s1 d i = existing_for s2 d i := by
  unfold existing_for
  rw [← find_filter_imp s1 (fun r => decide (r.id = i ∧ r.date = d))
      (fun r => decide (r.id = i))
      (fun r hr => decide_eq_true (of_decide_eq_true hr).1),
    ← find_filter_imp s2 (fun r => decide (r.id = i ∧ r.date = d))
      (fun r => decide (r.id = i))
      (fun r hr => decide_eq_true (of_decide_eq_true hr).1)]
  show ((recsOf s1 i).find? _).map _ = ((recsOf s2 i).find? _).map _
  rw [h]

lemma latest_before_congr (s1 s2 : List (SRec ι)) (d : Nat) (i : ι)
    (h : recsOf s1 i = recsOf s2 i) :
    latest_before s1 d i = latest_before s2 d i := by
  unfold latest_before
  rw [← filter_filter_imp s1 (fun r => decide (r.id = i ∧ r.date < d))
      (fun r => decide (r.id = i))
      (fun r hr => decide_eq_true (of_decide_eq_true hr).1),
    ← filter_filter_imp s2 (fun r => decide (r.id = i ∧ r.date < d))
      (fun r => decide (r.id = i))
      (fun r hr => decide_eq_true (of_decide_eq_true hr).1)]
  show ((recsOf s1 i).filter _).foldl _ _ = ((recsOf s2 i).filter _).foldl _ _
  rw [h]

lemma previous_for_congr (s1 s2 : List (SRec ι)) (d : Nat) (i : ι)
    (h : recsOf s1 i = recsOf s2 i) :
    previous_for s1 d i = previous_for s2 d i := by
  unfold previous_for
  rw [latest_before_congr s1 s2 d i h]

lemma unique_row_eq (s : List (SRec ι)) (hu : uniqueIdDate s) (a b : SRec ι)
    (ha : a ∈ s) (hb : b ∈ s) (hid : a.id = b.id) (hdate : a.date = b.date) :
    a = b := by
  unfold uniqueIdDate at hu
  induction s with
  | nil => cases ha
  | cons x xs ih =>
    obtain ⟨hx, hxs⟩ := List.pairwise_cons.mp hu
    rcases List.mem_cons.mp ha with rfl | ha2
    · rcases List.mem_cons.mp hb with rfl | hb2
      · rfl
      · exact absurd ⟨hid, hdate⟩ (hx b hb2)
    · rcases List.mem_cons.mp hb with rfl | hb2
      · exact absurd ⟨hid.symm, hdate.symm⟩ (hx a ha2)
      · exact ih hxs ha2 hb2

lemma existing_for_eq_of_unique (s : List (SRec ι)) (d : Nat) (i : ι) (v : ℚ)
    (hu : uniqueIdDate s) (h : ∃ r ∈ s, r.id = i ∧ r.date = d ∧ r.value = v) :
    existing_for s d i = some v := by
  obtain ⟨r, hr, h1, h2, h3⟩ := h
  unfold existing_for
  cases hf : s.find? (fun x => decide (x.id = i ∧ x.date = d)) with
  | none =>
    have := List.find?_eq_none.mp hf r hr
    exact absurd (decide_eq_true ⟨h1, h2⟩) this
  | some r0 =>
    have hp := of_decide_eq_true
      (@List.find?_some _ (fun x : SRec ι => decide (x.id = i ∧ x.date = d)) r0 s hf)
    have hmem := List.mem_of_find?_eq_some hf
    have he : r0 = r :=
      unique_row_eq s hu r0 r hmem hr (hp.1.trans h1.symm) (hp.2.trans h2.symm)
    show some r0.value = some v
    rw [he, h3]

end DeltaSync

namespace DeltaSync

variable {ι : Type} [DecidableEq ι]

lemma flag_off_value (aff : List ι) (d : Nat) (r : SRec ι) :
    (flag_off aff d r).value = r.value := by
  unfold flag_off
  split_ifs <;> rfl

lemma flag_off_map_post (t : List (SRec ι)) (aff : List ι) (m : Nat) :
    ∀ r ∈ t.map (flag_off aff m), r.id ∈ aff → r.date ≠ m →
      r.is_latest = false := by
  intro r hr hid hd
  obtain ⟨x, hx, hxr⟩ := List.mem_map.mp hr
  have hxid : x.id ∈ aff := by rw [← flag_off_id aff m x, hxr]; exact hid
  have hxd : x.date ≠ m := by rw [← flag_off_date aff m x, hxr]; exact hd
  rw [← hxr]
  unfold flag_off
  rw [if_pos ⟨hxid, hxd⟩]

lemma update_latest_flags_eq_map (s : List (SRec ι)) (aff : List ι) (m : Nat)
    (hm : table_max_date s = some m) :
    update_latest_flags s aff = s.map (flag_off aff m) := by
  unfold update_latest_flags
  rw [hm]
  rfl

lemma table_max_aux_map (G : SRec ι → SRec ι) (hd : ∀ r, (G r).date = r.date)
    (s : List (SRec ι)) (acc : Option Nat) :
    (s.map G).foldl (fun acc r =>
      match acc with
      | none => some r.date
      | some m => some (max m r.date)) acc =
    s.foldl (fun acc r =>
      match acc with
      | none => some r.date
      | some m => some (max m r.date)) acc := by
  induction s generalizing acc with
  | nil => rfl
  | cons x xs ih =>
    rw [List.map_cons, List.foldl_cons, List.foldl_cons]
    simp only [hd]
    exact ih _

lemma table_max_date_map (G : SRec ι → SRec ι) (hd : ∀ r, (G r).date = r.date)
    (s : List (SRec ι)) : table_max_date (s.map G) = table_max_date s := by
  unfold table_max_date
  exact table_max_aux_map G hd s none

lemma dfProj_map (G : SRec ι → SRec ι) (hd : ∀ r, (G r).date = r.date)
    (hf : ∀ r, (G r).is_latest = r.is_latest) (l : List (SRec ι)) :
    dfProj (l.map G) = dfProj l := by
  induction l with
  | nil => rfl
  | cons x xs ih =>
    unfold dfProj at ih ⊢
    rw [List.map_cons, List.map_cons, List.map_cons, ih]
    simp only [hd, hf]

lemma idOK_of_recsOf_eq (t1 t2 : List (SRec ι)) (i : ι)
    (h : recsOf t1 i = recsOf t2 i) : idOK t1 i ↔ idOK t2 i := by
  unfold idOK
  rw [h]

lemma flags_latestOK (t : List (SRec ι)) (aff : List ι) (d : Nat)
    (H1 : ∀ r ∈ t, r.date ≤ d)
    (H2 : uniqueIdDate t)
    (H3 : ∀ i ∈ aff, ∃ r ∈ t, r.id = i ∧ r.date = d ∧ r.is_latest = true)
    (H4 : ∀ r ∈ t, r.id ∉ aff → idOK t r.id)
    (H5 : aff ≠ []) :
    latestOK (update_latest_flags t aff) := by
  obtain ⟨i0, hi0⟩ := List.exists_mem_of_ne_nil aff H5
  obtain ⟨r0, hr0t, _, hr0d, _⟩ := H3 i0 hi0
  have ht : t ≠ [] := fun he => by rw [he] at hr0t; cases hr0t
  obtain ⟨m, hm⟩ := table_max_isSome t ht
  have hmd : m = d := by
    obtain ⟨rm, hrm, hrmd⟩ := table_max_date_mem t m hm
    refine le_antisymm (hrmd ▸ H1 rm hrm) ?_
    exact hr0d ▸ table_max_date_le t m hm r0 hr0t
  subst hmd
  rw [update_latest_flags_eq_map t aff m hm]
  intro r' hr'
  obtain ⟨r, hr, hrr⟩ := List.mem_map.mp hr'
  have hid : r'.id = r.id := by rw [← hrr]; exact flag_off_id aff m r
  rw [hid]
  have hrecs : recsOf (t.map (flag_off aff m)) r.id
      = (recsOf t r.id).map (flag_off aff m) :=
    recsOf_map_id_preserving (flag_off aff m) (flag_off_id aff m) t r.id
  by_cases hiaff : r.id ∈ aff
  · obtain ⟨rz, hrzt, hrzid, hrzd, hrzl⟩ := H3 r.id hiaff
    have hrzrec : rz ∈ recsOf t r.id := by
      have h2 := recsOf_mem_of t rz hrzt
      rw [hrzid] at h2
      exact h2
    have hfix : flag_off aff m rz = rz := by
      unfold flag_off
      rw [if_neg (fun hc => hc.2 hrzd)]
    have hdle : ∀ x ∈ (recsOf t r.id).map (flag_off aff m), x.date ≤ m := by
      intro x hx
      obtain ⟨x0, hx0, hx0x⟩ := List.mem_map.mp hx
      rw [← hx0x, flag_off_date]
      exact H1 x0 (mem_recsOf t r.id x0 hx0).1
    have hflagd : ∀ x ∈ (recsOf t r.id).map (flag_off aff m),
        x.is_latest = true → x.date = m := by
      intro x hx hxl
      obtain ⟨x0, hx0, hx0x⟩ := List.mem_map.mp hx
      have hx0i : x0.id = r.id := (mem_recsOf t r.id x0 hx0).2
      by_cases hc : x0.id ∈ aff ∧ x0.date ≠ m
      · rw [← hx0x] at hxl
        unfold flag_off at hxl
        rw [if_pos hc] at hxl
        cases hxl
      · have hx0d : x0.date = m := by
          by_contra hne
          exact hc ⟨hx0i ▸ hiaff, hne⟩
        rw [← hx0x, flag_off_date]
        exact hx0d
    have hmax : maxDate ((recsOf t r.id).map (flag_off aff m)) = m :=
      maxDate_eq_of _ m hdle
        ⟨flag_off aff m rz, List.mem_map_of_mem _ hrzrec, by rw [hfix]; exact hrzd⟩
    unfold idOK
    rw [hrecs]
    constructor
    · refine countP_eq_one_of _ _ (flag_off aff m rz)
        (List.mem_map_of_mem _ hrzrec) (by rw [hfix]; exact hrzl) ?_ ?_
      · have hp := pairwise_dates_recsOf t r.id H2
        rw [List.pairwise_map]
        apply hp.imp
        intro a b hab
        rw [flag_off_date, flag_off_date]
        exact hab
      · intro x hx hxl
        rw [hfix, hrzd]
        exact hflagd x hx hxl
    · intro x hx hxl
      rw [hmax]
      exact hflagd x hx hxl
  · have hmapid : (recsOf t r.id).map (flag_off aff m) = recsOf t r.id :=
      map_id_on _ _ (fun a ha =>
        flag_off_not_mem aff m a (by rw [(mem_recsOf t r.id a ha).2]; exact hiaff))
    have hre : recsOf (t.map (flag_off aff m)) r.id = recsOf t r.id := by
      rw [hrecs, hmapid]
    exact (idOK_of_recsOf_eq _ _ _ hre).mpr (H4 r hr hiaff)

end DeltaSync

namespace DeltaSync

variable {ι : Type} [DecidableEq ι]

lemma fold_store_id (d : Nat) (prev exist : ι → Option ℚ)
    (fetch : List (ι × ℚ)) (st : List (SRec ι))
    (h : ∀ e ∈ fetch, classify prev exist e.1 e.2 = .noW) :
    fetch.foldl (fun st e =>
        if classify prev exist e.1 e.2 = .updC then update_existing st d e.1 e.2
        else st) st = st := by
  induction fetch generalizing st with
  | nil => rfl
  | cons e rest ih =>
    rw [List.foldl_cons,
      if_neg (by rw [h e (List.mem_cons_self _ _)]; exact fun hc => Cls.noConfusion hc)]
    exact ih st (fun e2 he2 => h e2 (List.mem_cons_of_mem _ he2))

lemma fold_inserts_nil (d : Nat) (prev exist : ι → Option ℚ)
    (fetch : List (ι × ℚ))
    (h : ∀ e ∈ fetch, classify prev exist e.1 e.2 = .noW) :
    fetch.filterMap (fun e =>
        (match classify prev exist e.1 e.2 with
        | .insN => some ⟨e.1, d, e.2, true⟩
        | .insC => some ⟨e.1, d, e.2, true⟩
        | _ => none : Option (SRec ι))) = [] := by
  induction fetch with
  | nil => rfl
  | cons e rest ih =>
    rw [List.filterMap_cons, h e (List.mem_cons_self _ _)]
    exact ih (fun e2 he2 => h e2 (List.mem_cons_of_mem _ he2))

lemma fold_store_recsOf_ne (d : Nat) (prev exist : ι → Option ℚ)
    (fetch : List (ι × ℚ)) (st : List (SRec ι)) (i : ι)
    (h : ∀ e ∈ fetch, e.1 ≠ i) :
    recsOf (fetch.foldl (fun st e =>
        if classify prev exist e.1 e.2 = .updC then update_existing st d e.1 e.2
        else st) st) i = recsOf st i := by
  induction fetch generalizing st with
  | nil => rfl
  | cons e rest ih =>
    rw [List.foldl_cons]
    have hrest := fun e2 he2 => h e2 (List.mem_cons_of_mem _ he2)
    by_cases hc : classify prev exist e.1 e.2 = .updC
    · rw [if_pos hc, ih _ hrest,
        recsOf_update_ne st d e.1 i e.2 (fun he => h e (List.mem_cons_self _ _) he.symm)]
    · rw [if_neg hc, ih _ hrest]

lemma fold_store_recsOf_noW (d : Nat) (prev exist : ι → Option ℚ)
    (fetch : List (ι × ℚ)) (st : List (SRec ι)) (i : ι)
    (h : ∀ v, (i, v) ∈ fetch → classify prev exist i v = .noW) :
    recsOf (fetch.foldl (fun st e =>
        if classify prev exist e.1 e.2 = .updC then update_existing st d e.1 e.2
        else st) st) i = recsOf st i := by
  induction fetch generalizing st with
  | nil => rfl
  | cons e rest ih =>
    rw [List.foldl_cons]
    have hrest := fun v hv => h v (List.mem_cons_of_mem _ hv)
    by_cases hid : e.1 = i
    · have hnoW : classify prev exist e.1 e.2 = .noW := by
        rw [hid]
        exact h e.2 (by rw [← hid]; exact List.mem_cons_self _ _)
      rw [if_neg (by rw [hnoW]; exact fun hc => Cls.noConfusion hc), ih _ hrest]
    · by_cases hc : classify prev exist e.1 e.2 = .updC
      · rw [if_pos hc, ih _ hrest,
          recsOf_update_ne st d e.1 i e.2 (fun he => hid he.symm)]
      · rw [if_neg hc, ih _ hrest]

lemma nodup_keys_unique (fetch : List (ι × ℚ))
    (hnodup : (fetch.map Prod.fst).Nodup) (i : ι) (v w : ℚ)
    (h1 : (i, v) ∈ fetch) (h2 : (i, w) ∈ fetch) : v = w := by
  induction fetch with
  | nil => cases h1
  | cons e rest ih =>
    rw [List.map_cons, List.nodup_cons] at hnodup
    rcases List.mem_cons.mp h1 with he1 | he1
    · rcases List.mem_cons.mp h2 with he2 | he2
      · rw [← he1] at he2
        exact (Prod.mk.injEq _ _ _ _ ▸ he2).2.symm
      · exact absurd (List.mem_map.mpr ⟨(i, w), he2, by rw [← he1]⟩) hnodup.1
    · rcases List.mem_cons.mp h2 with he2 | he2
      · exact absurd (List.mem_map.mpr ⟨(i, v), he1, by rw [← he2]⟩) hnodup.1
      · exact ih hnodup.2 he1 he2

lemma fold_store_recsOf_updC (d : Nat) (prev exist : ι → Option ℚ)
    (fetch : List (ι × ℚ)) (st : List (SRec ι)) (i : ι) (v : ℚ)
    (hnodup : (fetch.map Prod.fst).Nodup)
    (hmem : (i, v) ∈ fetch) (hc : classify prev exist i v = .updC) :
    recsOf (fetch.foldl (fun st e =>
        if classify prev exist e.1 e.2 = .updC then update_existing st d e.1 e.2
        else st) st) i = update_existing (recsOf st i) d i v := by
  induction fetch generalizing st with
  | nil => cases hmem
  | cons e rest ih =>
    rw [List.map_cons, List.nodup_cons] at hnodup
    rw [List.foldl_cons]
    rcases List.mem_cons.mp hmem with he | he
    · rw [← he]
      rw [← he] at hnodup
      have hrest : ∀ e2 ∈ rest, e2.1 ≠ i := by
        intro e2 he2 hid
        exact hnodup.1 (List.mem_map.mpr ⟨e2, he2, hid⟩)
      rw [if_pos hc, fold_store_recsOf_ne d prev exist rest _ i hrest,
        recsOf_update_self st d i v]
    · have hne : e.1 ≠ i := by
        intro hid
        exact hnodup.1 (List.mem_map.mpr ⟨(i, v), he, hid.symm⟩)
      by_cases hcls : classify prev exist e.1 e.2 = .updC
      · rw [if_pos hcls, ih _ hnodup.2 he]
        rw [recsOf_update_ne st d e.1 i e.2 (fun h2 => hne h2.symm)]
      · rw [if_neg hcls]
        exact ih _ hnodup.2 he

lemma update_existing_result_val (l : List (SRec ι)) (d : Nat) (i : ι) (v : ℚ)
    (h : ∃ r ∈ l, r.id = i ∧ r.date = d) :
    ∃ r2 ∈ update_existing l d i v,
      r2.id = i ∧ r2.date = d ∧ r2.value = v ∧ r2.is_latest = true := by
  induction l with
  | nil =>
    obtain ⟨r, hr, _⟩ := h
    cases hr
  | cons r rs ih =>
    rw [update_existing_cons]
    by_cases hc : r.id = i ∧ r.date = d
    · rw [if_pos hc]
      exact ⟨{ r with value := v, is_latest := true }, List.mem_cons_self _ _,
        hc.1, hc.2, rfl, rfl⟩
    · rw [if_neg hc]
      obtain ⟨r0, hr0, hp⟩ := h
      rcases List.mem_cons.mp hr0 with he | he
      · exact absurd (he ▸ hp) hc
      · obtain ⟨r2, hr2, hq⟩ := ih ⟨r0, he, hp⟩
        exact ⟨r2, List.mem_cons_of_mem _ hr2, hq⟩

lemma fold_store_dates (d : Nat) (prev exist : ι → Option ℚ)
    (fetch : List (ι × ℚ)) (st : List (SRec ι))
    (h : ∀ r ∈ st, r.date ≤ d) :
    ∀ r ∈ fetch.foldl (fun st e =>
        if classify prev exist e.1 e.2 = .updC then update_existing st d e.1 e.2
        else st) st, r.date ≤ d := by
  induction fetch generalizing st with
  | nil => exact h
  | cons e rest ih =>
    rw [List.foldl_cons]
    by_cases hc : classify prev exist e.1 e.2 = .updC
    · rw [if_pos hc]
      refine ih _ ?_
      intro r hr
      rcases mem_update_existing st d e.1 e.2 r hr with hmem | ⟨r0, hr0, _, hd0, hre⟩
      · exact h r hmem
      · rw [hre]
        exact le_of_eq hd0
    · rw [if_neg hc]
      exact ih _ h

end DeltaSync

namespace DeltaSync

variable {ι : Type} [DecidableEq ι]

lemma recsOf_apply_deleted_ne (st : List (SRec ι)) (d : Nat) (k i : ι)
    (h : i ≠ k) : recsOf (apply_deleted st d k) i = recsOf st i := by
  unfold apply_deleted
  by_cases hf : (st.find? (fun r => decide (r.id = k ∧ r.date = d))).isSome = true
  · rw [if_pos hf, recsOf_zero_ne st d k i h]
  · rw [if_neg hf, recsOf_append]
    have hsing : recsOf [(⟨k, d, 0, true⟩ : SRec ι)] i = [] := by
      unfold recsOf
      rw [List.filter_cons,
        if_neg (by simpa using fun hc : k = i => h hc.symm)]
      rfl
    rw [hsing, List.append_nil]

lemma fold_deleted_recsOf_ne (dk : List ι) (st : List (SRec ι)) (d : Nat) (i : ι)
    (h : i ∉ dk) :
    recsOf (dk.foldl (fun acc k2 => apply_deleted acc d k2) st) i = recsOf st i := by
  induction dk generalizing st with
  | nil => rfl
  | cons k0 rest ih =>
    rw [List.foldl_cons,
      ih _ (fun hmem => h (List.mem_cons_of_mem _ hmem)),
      recsOf_apply_deleted_ne st d k0 i (fun he => h (he ▸ List.mem_cons_self _ _))]

lemma zero_existing_flag_pres (st : List (SRec ι)) (d : Nat) (k2 k : ι)
    (h : ∃ r ∈ st, r.id = k ∧ r.date = d ∧ r.is_latest = true) :
    ∃ r ∈ zero_existing st d k2, r.id = k ∧ r.date = d ∧ r.is_latest = true := by
  obtain ⟨r, hr, h1, h2, h3⟩ := h
  induction st with
  | nil => cases hr
  | cons x xs ih =>
    rw [zero_existing_cons]
    by_cases hc : x.id = k2 ∧ x.date = d
    · rw [if_pos hc]
      rcases List.mem_cons.mp hr with hx | hx
      · exact ⟨{ x with value := 0 }, List.mem_cons_self _ _,
          by rw [hx] at h1; exact h1, by rw [hx] at h2; exact h2,
          by rw [hx] at h3; exact h3⟩
      · exact ⟨r, List.mem_cons_of_mem _ hx, h1, h2, h3⟩
    · rw [if_neg hc]
      rcases List.mem_cons.mp hr with hx | hx
      · exact ⟨x, List.mem_cons_self _ _, hx ▸ h1, hx ▸ h2, hx ▸ h3⟩
      · obtain ⟨r2, hr2, hp2⟩ := ih hx
        exact ⟨r2, List.mem_cons_of_mem _ hr2, hp2⟩

lemma apply_deleted_flag_pres (st : List (SRec ι)) (d : Nat) (k2 k : ι)
    (h : ∃ r ∈ st, r.id = k ∧ r.date = d ∧ r.is_latest = true) :
    ∃ r ∈ apply_deleted st d k2, r.id = k ∧ r.date = d ∧ r.is_latest = true := by
  unfold apply_deleted
  by_cases hf : (st.find? (fun r => decide (r.id = k2 ∧ r.date = d))).isSome = true
  · rw [if_pos hf]
    exact zero_existing_flag_pres st d k2 k h
  · rw [if_neg hf]
    obtain ⟨r, hr, hp⟩ := h
    exact ⟨r, List.mem_append_left _ hr, hp⟩

lemma fold_deleted_flag_pres (dk : List ι) (st : List (SRec ι)) (d : Nat) (k : ι)
    (h : ∃ r ∈ st, r.id = k ∧ r.date = d ∧ r.is_latest = true) :
    ∃ r ∈ dk.foldl (fun acc k2 => apply_deleted acc d k2) st,
      r.id = k ∧ r.date = d ∧ r.is_latest = true := by
  induction dk generalizing st with
  | nil => exact h
  | cons k0 rest ih =>
    rw [List.foldl_cons]
    exact ih _ (apply_deleted_flag_pres st d k0 k h)

lemma apply_deleted_flag (st : List (SRec ι)) (d : Nat) (k : ι)
    (hpre : (∃ r ∈ st, r.id = k ∧ r.date = d) →
      ∃ r ∈ st, r.id = k ∧ r.date = d ∧ r.is_latest = true) :
    ∃ r ∈ apply_deleted st d k, r.id = k ∧ r.date = d ∧ r.is_latest = true := by
  unfold apply_deleted
  by_cases hf : (st.find? (fun r => decide (r.id = k ∧ r.date = d))).isSome = true
  · rw [if_pos hf]
    obtain ⟨r0, hr0, hp0⟩ := List.find?_isSome.mp hf
    exact zero_existing_flag_pres st d k k
      (hpre ⟨r0, hr0, (of_decide_eq_true hp0).1, (of_decide_eq_true hp0).2⟩)
  · rw [if_neg hf]
    exact ⟨⟨k, d, 0, true⟩, List.mem_append_right _ (List.mem_singleton.mpr rfl),
      rfl, rfl, rfl⟩

lemma fold_deleted_flag (dk : List ι) (st : List (SRec ι)) (d : Nat)
    (hnd : dk.Nodup)
    (hpre : ∀ k ∈ dk, (∃ r ∈ st, r.id = k ∧ r.date = d) →
      ∃ r ∈ st, r.id = k ∧ r.date = d ∧ r.is_latest = true) :
    ∀ k ∈ dk, ∃ r ∈ dk.foldl (fun acc k2 => apply_deleted acc d k2) st,
      r.id = k ∧ r.date = d ∧ r.is_latest = true := by
  induction dk generalizing st with
  | nil => intro k hk; cases hk
  | cons k0 rest ih =>
    rw [List.nodup_cons] at hnd
    intro k hk
    rw [List.foldl_cons]
    rcases List.mem_cons.mp hk with he | hmem
    · subst he
      exact fold_deleted_flag_pres rest _ d k
        (apply_deleted_flag st d k (hpre k (List.mem_cons_self _ _)))
    · refine ih _ hnd.2 ?_ k hmem
      intro k2 hk2 hex
      have hne2 : k2 ≠ k0 := fun he2 => hnd.1 (he2 ▸ hk2)
      obtain ⟨r, hr, hid, hdd⟩ := hex
      have hrrec : r ∈ recsOf (apply_deleted st d k0) k2 := by
        have h2 := recsOf_mem_of _ r hr
        rw [hid] at h2
        exact h2
      rw [recsOf_apply_deleted_ne st d k0 k2 hne2] at hrrec
      obtain ⟨hrst, hrid⟩ := mem_recsOf st k2 r hrrec
      obtain ⟨r1, hr1, h1, h2, h3⟩ :=
        hpre k2 (List.mem_cons_of_mem _ hk2) ⟨r, hrst, hrid, hdd⟩
      have hr1rec : r1 ∈ recsOf st k2 := by
        have h4 := recsOf_mem_of st r1 hr1
        rw [h1] at h4
        exact h4
      rw [← recsOf_apply_deleted_ne st d k0 k2 hne2] at hr1rec
      exact ⟨r1, (mem_recsOf _ k2 r1 hr1rec).1, h1, h2, h3⟩

lemma deleted_keys_nodup (s : List (SRec ι)) (d : Nat) (fids : List ι) :
    (deleted_keys s d fids).Nodup := by
  unfold deleted_keys prior_ids
  exact (List.nodup_dedup _).filter _

lemma deleted_keys_not_fids (s : List (SRec ι)) (d : Nat) (fids : List ι) (k : ι)
    (h : k ∈ deleted_keys s d fids) : k ∉ fids := by
  unfold deleted_keys at h
  have h2 := (List.mem_filter.mp h).2
  rw [Bool.and_eq_true] at h2
  exact of_decide_eq_true h2.1

end DeltaSync

namespace DeltaSync

variable {ι : Type} [DecidableEq ι]

lemma skel_map_preserving (G : SRec ι → SRec ι) (hid : ∀ r, (G r).id = r.id)
    (hdate : ∀ r, (G r).date = r.date) (l : List (SRec ι)) :
    skel (l.map G) = skel l := by
  induction l with
  | nil => rfl
  | cons x xs ih =>
    unfold skel at ih ⊢
    rw [List.map_cons, List.map_cons, List.map_cons, ih]
    simp only [hid, hdate]

lemma fold_disappear_exists_map (d : Nat) (snap : List (SRec ι))
    (acc : List (SRec ι) × Nat) :
    ∃ G : SRec ι → SRec ι,
      (∀ r, (G r).id = r.id ∧ (G r).date = r.date ∧
        (G r).is_latest = r.is_latest) ∧
      (snap.foldl (fun acc r =>
          (zero_positive_at acc.1 d r.id,
           if acc.1.any (fun x => decide (x.id = r.id ∧ x.date = d ∧ x.value > 0))
           then acc.2 + 1 else acc.2)) acc).1 = acc.1.map G := by
  induction snap generalizing acc with
  | nil => exact ⟨id, fun r => ⟨rfl, rfl, rfl⟩, (List.map_id _).symm⟩
  | cons x xs ih =>
    obtain ⟨G, hG, hEq⟩ := ih (zero_positive_at acc.1 d x.id,
      if acc.1.any (fun y => decide (y.id = x.id ∧ y.date = d ∧ y.value > 0))
      then acc.2 + 1 else acc.2)
    refine ⟨fun r => G (if r.id = x.id ∧ r.date = d ∧ r.value > 0
        then { r with value := 0 } else r), ?_, ?_⟩
    · intro r
      by_cases hc : r.id = x.id ∧ r.date = d ∧ r.value > 0
      · simp only [if_pos hc]
        exact ⟨(hG _).1, (hG _).2.1, (hG _).2.2⟩
      · simp only [if_neg hc]
        exact hG r
    · rw [List.foldl_cons]
      refine Eq.trans ?_ (Eq.trans hEq ?_)
      · rfl
      · show (zero_positive_at acc.1 d x.id).map G = _
        unfold zero_positive_at
        rw [List.map_map]
        rfl

lemma disappeared_exists_map (st : List (SRec ι)) (d : Nat) (fids : List ι) :
    ∃ G : SRec ι → SRec ι,
      (∀ r, (G r).id = r.id ∧ (G r).date = r.date ∧
        (G r).is_latest = r.is_latest) ∧
      (process_disappeared st d fids).1 = st.map G := by
  unfold process_disappeared
  exact fold_disappear_exists_map d _ (st, 0)

lemma fold_disappear_recsOf_ne (d : Nat) (snap : List (SRec ι))
    (acc : List (SRec ι) × Nat) (i : ι) (h : ∀ x ∈ snap, x.id ≠ i) :
    recsOf (snap.foldl (fun acc r =>
        (zero_positive_at acc.1 d r.id,
         if acc.1.any (fun x => decide (x.id = r.id ∧ x.date = d ∧ x.value > 0))
         then acc.2 + 1 else acc.2)) acc).1 i = recsOf acc.1 i := by
  induction snap generalizing acc with
  | nil => rfl
  | cons x xs ih =>
    rw [List.foldl_cons, ih _ (fun y hy => h y (List.mem_cons_of_mem _ hy))]
    show recsOf (zero_positive_at acc.1 d x.id) i = recsOf acc.1 i
    unfold zero_positive_at
    rw [recsOf_map_id_preserving _ (fun r => by split_ifs <;> rfl)]
    exact map_id_on _ _ (fun r hr => by
      rw [if_neg (fun hc =>
        h x (List.mem_cons_self _ _)
          (hc.1.symm.trans (mem_recsOf acc.1 i r hr).2))])

lemma disappeared_recsOf_ne (st : List (SRec ι)) (d : Nat) (fids : List ι)
    (i : ι) (h : i ∈ fids) :
    recsOf (process_disappeared st d fids).1 i = recsOf st i := by
  unfold process_disappeared
  refine fold_disappear_recsOf_ne d
    (st.filter (fun r => decide (r.date = d ∧ r.value > 0 ∧ r.id ∉ fids)))
    (st, 0) i ?_
  intro x hx hxi
  have hp := of_decide_eq_true (List.mem_filter.mp hx).2
  exact hp.2.2 (hxi ▸ h)

lemma fold_disappear_post (d : Nat) (fids : List ι) (snap : List (SRec ι))
    (acc : List (SRec ι) × Nat)
    (hinv : ∀ r ∈ acc.1, r.date = d → r.id ∉ fids → 0 < r.value →
      r.id ∈ snap.map (fun x => x.id)) :
    ∀ r ∈ (snap.foldl (fun acc r =>
        (zero_positive_at acc.1 d r.id,
         if acc.1.any (fun x => decide (x.id = r.id ∧ x.date = d ∧ x.value > 0))
         then acc.2 + 1 else acc.2)) acc).1,
      r.date = d → r.id ∉ fids → ¬(0 < r.value) := by
  induction snap generalizing acc with
  | nil =>
    intro r hr hd hf hv
    have h2 := hinv r hr hd hf hv
    simp at h2
  | cons x xs ih =>
    rw [List.foldl_cons]
    refine ih _ ?_
    intro r hr hd hf hv
    show r.id ∈ xs.map (fun x => x.id)
    have hr2 : r ∈ (zero_positive_at acc.1 d x.id) := hr
    unfold zero_positive_at at hr2
    obtain ⟨r0, hr0, hrr⟩ := List.mem_map.mp hr2
    by_cases hc : r0.id = x.id ∧ r0.date = d ∧ r0.value > 0
    · rw [if_pos hc] at hrr
      rw [← hrr] at hv
      exact absurd hv (lt_irrefl 0)
    · rw [if_neg hc] at hrr
      subst hrr
      have hmem := hinv r0 hr0 hd hf hv
      rw [List.map_cons] at hmem
      rcases List.mem_cons.mp hmem with he | he
      · exact absurd ⟨he, hd, hv⟩ hc
      · exact he

lemma disappeared_post (st : List (SRec ι)) (d : Nat) (fids : List ι) :
    ∀ r ∈ (process_disappeared st d fids).1,
      r.date = d → r.id ∉ fids → ¬(0 < r.value) := by
  unfold process_disappeared
  exact fold_disappear_post d fids _ (st, 0) (fun r hr hd hf hv =>
    List.mem_map.mpr ⟨r, List.mem_filter.mpr ⟨hr, decide_eq_true ⟨hd, hv, hf⟩⟩, rfl⟩)

lemma mem_apply_deleted_dates (st : List (SRec ι)) (d : Nat) (k : ι)
    (h : ∀ x ∈ st, x.date ≤ d) :
    ∀ r ∈ apply_deleted st d k, r.date ≤ d := by
  intro r hr
  unfold apply_deleted at hr
  by_cases hf : (st.find? (fun r => decide (r.id = k ∧ r.date = d))).isSome = true
  · rw [if_pos hf] at hr
    rcases mem_zero_existing st d k r hr with hmem | ⟨r0, hr0, _, hd0, hre⟩
    · exact h r hmem
    · rw [hre]
      exact le_of_eq hd0
  · rw [if_neg hf] at hr
    rcases List.mem_append.mp hr with hmem | hmem
    · exact h r hmem
    · rw [List.mem_singleton.mp hmem]

lemma fold_deleted_dates (dk : List ι) (st : List (SRec ι)) (d : Nat)
    (h : ∀ x ∈ st, x.date ≤ d) :
    ∀ r ∈ dk.foldl (fun acc k2 => apply_deleted acc d k2) st, r.date ≤ d := by
  induction dk generalizing st with
  | nil => exact h
  | cons k0 rest ih =>
    rw [List.foldl_cons]
    exact ih _ (mem_apply_deleted_dates st d k0 h)

lemma uniqueIdDate_of_skel_eq (t1 t2 : List (SRec ι)) (h : skel t1 = skel t2) :
    uniqueIdDate t1 ↔ uniqueIdDate t2 := by
  rw [uniqueIdDate_iff_skel, uniqueIdDate_iff_skel, h]

lemma apply_deleted_unique (st : List (SRec ι)) (d : Nat) (k : ι)
    (hu : uniqueIdDate st) : uniqueIdDate (apply_deleted st d k) := by
  unfold apply_deleted
  by_cases hf : (st.find? (fun r => decide (r.id = k ∧ r.date = d))).isSome = true
  · rw [if_pos hf]
    exact (uniqueIdDate_of_skel_eq _ _ (skel_zero_existing st d k)).mpr hu
  · rw [if_neg hf]
    have hnone : st.find? (fun r => decide (r.id = k ∧ r.date = d)) = none :=
      Option.not_isSome_iff_eq_none.mp hf
    have hno : ∀ x ∈ st, ¬(x.id = k ∧ x.date = d) := by
      intro x hx hp
      exact (List.find?_eq_none.mp hnone x hx) (decide_eq_true hp)
    unfold uniqueIdDate
    rw [List.pairwise_append]
    refine ⟨hu, List.pairwise_singleton _ _, ?_⟩
    intro a ha b hb
    rw [List.mem_singleton.mp hb]
    exact fun hp => hno a ha ⟨hp.1, hp.2⟩

lemma fold_deleted_unique (dk : List ι) (st : List (SRec ι)) (d : Nat)
    (hu : uniqueIdDate st) :
    uniqueIdDate (dk.foldl (fun acc k2 => apply_deleted acc d k2) st) := by
  induction dk generalizing st with
  | nil => exact hu
  | cons k0 rest ih =>
    rw [List.foldl_cons]
    exact ih _ (apply_deleted_unique st d k0 hu)

lemma skel_apply_deleted_sub (st : List (SRec ι)) (d : Nat) (k : ι) :
    ∀ x ∈ skel (apply_deleted st d k), x ∈ skel st ∨ x = (k, d) := by
  intro x hx
  unfold apply_deleted at hx
  by_cases hf : (st.find? (fun r => decide (r.id = k ∧ r.date = d))).isSome = true
  · rw [if_pos hf, skel_zero_existing] at hx
    exact Or.inl hx
  · rw [if_neg hf] at hx
    unfold skel at hx
    rw [List.map_append] at hx
    rcases List.mem_append.mp hx with h1 | h1
    · exact Or.inl h1
    · right
      simpa using h1

lemma skel_fold_deleted_sub (dk : List ι) (st : List (SRec ι)) (d : Nat) :
    ∀ x ∈ skel (dk.foldl (fun acc k2 => apply_deleted acc d k2) st),
      x ∈ skel st ∨ (x.1 ∈ dk ∧ x.2 = d) := by
  induction dk generalizing st with
  | nil => exact fun x hx => Or.inl hx
  | cons k0 rest ih =>
    intro x hx
    rw [List.foldl_cons] at hx
    rcases ih _ x hx with h1 | h1
    · rcases skel_apply_deleted_sub st d k0 x h1 with h2 | h2
      · exact Or.inl h2
      · exact Or.inr ⟨by rw [h2]; exact List.mem_cons_self _ _, by rw [h2]⟩
    · exact Or.inr ⟨List.mem_cons_of_mem _ h1.1, h1.2⟩

end DeltaSync

namespace DeltaSync

variable {ι : Type} [DecidableEq ι]

lemma skel_append (t u : List (SRec ι)) : skel (t ++ u) = skel t ++ skel u := by
  unfold skel
  rw [List.map_append]

lemma run_loop_store (s : List (SRec ι)) (d : Nat) (fetch : List (ι × ℚ)) :
    (run_loop s d fetch).store =
      fetch.foldl (fun st e =>
        if classify (previous_for s d) (existing_for s d) e.1 e.2 = .updC
        then update_existing st d e.1 e.2 else st) s := by
  unfold run_loop
  rw [loop_store_spec]

lemma run_loop_inserts (s : List (SRec ι)) (d : Nat) (fetch : List (ι × ℚ)) :
    (run_loop s d fetch).inserts =
      fetch.filterMap (fun e =>
        match classify (previous_for s d) (existing_for s d) e.1 e.2 with
        | .insN => some ⟨e.1, d, e.2, true⟩
        | .insC => some ⟨e.1, d, e.2, true⟩
        | _ => none) := by
  unfold run_loop
  rw [loop_inserts_spec]
  show [] ++ _ = _
  rw [List.nil_append]

lemma run_loop_affected (s : List (SRec ι)) (d : Nat) (fetch : List (ι × ℚ))
    (i : ι) :
    i ∈ (run_loop s d fetch).affected ↔
      ∃ v, (i, v) ∈ fetch ∧
        classify (previous_for s d) (existing_for s d) i v ≠ .noW := by
  unfold run_loop
  rw [loop_affected_mem]
  constructor
  · rintro (h | h)
    · exact absurd h (List.not_mem_nil i)
    · exact h
  · exact Or.inr

lemma run_loop_affected_nil (s : List (SRec ι)) (d : Nat) (fetch : List (ι × ℚ))
    (h : (run_loop s d fetch).affected = []) :
    ∀ e ∈ fetch, classify (previous_for s d) (existing_for s d) e.1 e.2 = .noW := by
  unfold run_loop at h
  exact (loop_affected_nil _ _ _ _ _ h).2

lemma classify_ins_cases (prev exist : ι → Option ℚ) (a : ι) (v : ℚ)
    (h : classify prev exist a v ≠ .noW) (h2 : classify prev exist a v ≠ .updC) :
    prev a = none ∨ ∃ p, prev a = some p ∧ |p - v| > eps := by
  have hex := classify_ins_exist_none prev exist a v h h2
  unfold classify at h
  rw [hex] at h
  dsimp only at h
  cases hpv : prev a with
  | none => exact Or.inl rfl
  | some p =>
    rw [hpv] at h
    dsimp only at h
    by_cases hc : |p - v| > eps
    · exact Or.inr ⟨p, rfl, hc⟩
    · rw [if_neg hc] at h
      exact absurd rfl h

lemma recsOf_run_loop_inserts_nil (s : List (SRec ι)) (d : Nat)
    (fetch : List (ι × ℚ)) (i : ι)
    (hnoW : ∀ v, (i, v) ∈ fetch →
      classify (previous_for s d) (existing_for s d) i v = .noW) :
    recsOf (run_loop s d fetch).inserts i = [] := by
  rw [run_loop_inserts]
  unfold recsOf
  rw [List.filter_eq_nil_iff]
  intro x hx
  obtain ⟨hxd, hxl, hxe, v, hv, hxv, hcls⟩ := loop_insert_shape _ _ d fetch x hx
  intro hdec
  have hxi : x.id = i := of_decide_eq_true hdec
  rw [hxi] at hv hcls
  exact hcls (hnoW v hv)

lemma sync_balances_latestOK (s : List (SRec ι)) (d : Nat) (fetch : List (ι × ℚ))
    (hok : latestOK s) (huniq : uniqueIdDate s)
    (hdates : ∀ r ∈ s, r.date ≤ d)
    (hnodup : (fetch.map Prod.fst).Nodup) :
    latestOK (sync_balances s d fetch).1 := by
  by_cases haff : (run_loop s d fetch).affected = []
  · have hnoW := run_loop_affected_nil s d fetch haff
    have hres : (sync_balances s d fetch).1 =
        (run_loop s d fetch).store ++ (run_loop s d fetch).inserts := by
      simp only [sync_balances]
      rw [if_pos haff]
    rw [hres, run_loop_store, run_loop_inserts,
      fold_store_id d _ _ fetch s hnoW, fold_inserts_nil d _ _ fetch hnoW,
      List.append_nil]
    exact hok
  · have hres : (sync_balances s d fetch).1 =
        update_latest_flags
          ((run_loop s d fetch).store ++ (run_loop s d fetch).inserts)
          (run_loop s d fetch).affected := by
      simp only [sync_balances]
      rw [if_neg haff]
    rw [hres]
    have hH1 : ∀ r ∈ (run_loop s d fetch).store ++ (run_loop s d fetch).inserts,
        r.date ≤ d := by
      intro r hr
      rcases List.mem_append.mp hr with h1 | h1
      · rw [run_loop_store] at h1
        exact fold_store_dates d _ _ fetch s hdates r h1
      · rw [run_loop_inserts] at h1
        exact le_of_eq (loop_insert_shape _ _ d fetch r h1).1
    have hH2 : uniqueIdDate
        ((run_loop s d fetch).store ++ (run_loop s d fetch).inserts) := by
      rw [uniqueIdDate_iff_skel, skel_append, List.pairwise_append]
      have hs : skel (run_loop s d fetch).store = skel s := by
        rw [run_loop_store]
        exact skel_fold_store d _ _ fetch s
      refine ⟨?_, ?_, ?_⟩
      · rw [hs]
        exact (uniqueIdDate_iff_skel s).mp huniq
      · have hnd : ((run_loop s d fetch).inserts.map (fun r => r.id)).Nodup := by
          rw [run_loop_inserts]
          exact (loop_inserts_ids_sublist _ _ d fetch).nodup hnodup
        have hpw : (run_loop s d fetch).inserts.Pairwise
            (fun a b : SRec ι => a.id ≠ b.id) := List.pairwise_map.mp hnd
        unfold skel
        rw [List.pairwise_map]
        exact hpw.imp (fun hab hc => hab hc.1)
      · intro x hx y hy
        rw [hs] at hx
        obtain ⟨rins, hrins, hrid, hrdt⟩ := mem_of_mem_skel _ y hy
        rw [run_loop_inserts] at hrins
        obtain ⟨hdins, _, hexins, _⟩ := loop_insert_shape _ _ d fetch rins hrins
        obtain ⟨rx, hrx, hrxid, hrxdt⟩ := mem_of_mem_skel s x hx
        intro hc
        refine existing_for_none_of s d rins.id hexins rx hrx ⟨?_, ?_⟩
        · rw [hrxid, hc.1, ← hrid]
        · rw [hrxdt, hc.2, ← hrdt, hdins]
    have hH3 : ∀ i ∈ (run_loop s d fetch).affected,
        ∃ r ∈ (run_loop s d fetch).store ++ (run_loop s d fetch).inserts,
          r.id = i ∧ r.date = d ∧ r.is_latest = true := by
      intro i hi
      obtain ⟨v, hv, hcls⟩ := (run_loop_affected s d fetch i).mp hi
      by_cases hupd : classify (previous_for s d) (existing_for s d) i v = .updC
      · obtain ⟨w, hw⟩ := classify_updC_exist _ _ i v hupd
        obtain ⟨r0, hr0, hr0i, hr0d, _⟩ := existing_for_some_mem s d i w hw
        have hrec : recsOf (run_loop s d fetch).store i =
            update_existing (recsOf s i) d i v := by
          rw [run_loop_store]
          exact fold_store_recsOf_updC d _ _ fetch s i v hnodup hv hupd
        have hex2 : ∃ r ∈ recsOf s i, r.id = i ∧ r.date = d := by
          refine ⟨r0, ?_, hr0i, hr0d⟩
          have h4 := recsOf_mem_of s r0 hr0
          rw [hr0i] at h4
          exact h4
        obtain ⟨r2, hr2, h1, h2, h3⟩ := update_existing_result (recsOf s i) d i v hex2
        rw [← hrec] at hr2
        exact ⟨r2, List.mem_append_left _ (mem_recsOf _ _ _ hr2).1, h1, h2, h3⟩
      · have hex := classify_ins_exist_none _ _ i v hcls hupd
        have hca := classify_ins_cases _ _ i v hcls hupd
        have hmem2 : (⟨i, d, v, true⟩ : SRec ι) ∈ (run_loop s d fetch).inserts := by
          unfold run_loop
          exact insert_classified_mem d _ _ fetch _ i v hv hex hca
        exact ⟨⟨i, d, v, true⟩, List.mem_append_right _ hmem2, rfl, rfl, rfl⟩
    have hH4 : ∀ r ∈ (run_loop s d fetch).store ++ (run_loop s d fetch).inserts,
        r.id ∉ (run_loop s d fetch).affected →
        idOK ((run_loop s d fetch).store ++ (run_loop s d fetch).inserts) r.id := by
      intro r hr hnaff
      have hnoW : ∀ v, (r.id, v) ∈ fetch →
          classify (previous_for s d) (existing_for s d) r.id v = .noW := by
        intro v hv
        by_contra hc
        exact hnaff ((run_loop_affected s d fetch r.id).mpr ⟨v, hv, hc⟩)
      have hstore : recsOf (run_loop s d fetch).store r.id = recsOf s r.id := by
        rw [run_loop_store]
        exact fold_store_recsOf_noW d _ _ fetch s r.id hnoW
      have hins : recsOf (run_loop s d fetch).inserts r.id = [] :=
        recsOf_run_loop_inserts_nil s d fetch r.id hnoW
      have hre : recsOf
          ((run_loop s d fetch).store ++ (run_loop s d fetch).inserts) r.id =
          recsOf s r.id := by
        rw [recsOf_append, hstore, hins, List.append_nil]
      refine (idOK_of_recsOf_eq _ _ _ hre).mpr ?_
      have hr2 : r ∈ recsOf s r.id := by
        rw [← hre]
        exact recsOf_mem_of _ r hr
      exact hok r (mem_recsOf s r.id r hr2).1
    exact flags_latestOK _ _ d hH1 hH2 hH3 hH4 haff

end DeltaSync

namespace DeltaSync

variable {ι : Type} [DecidableEq ι]

lemma latestOK_map_preserving (st : List (SRec ι)) (G : SRec ι → SRec ι)
    (hG : ∀ r, (G r).id = r.id ∧ (G r).date = r.date ∧
      (G r).is_latest = r.is_latest)
    (h : latestOK st) : latestOK (st.map G) := by
  intro r' hr'
  obtain ⟨r, hr, hrr⟩ := List.mem_map.mp hr'
  have hid : r'.id = r.id := by rw [← hrr]; exact (hG r).1
  rw [hid]
  have hre : dfProj (recsOf (st.map G) r.id) = dfProj (recsOf st r.id) := by
    rw [recsOf_map_id_preserving G (fun r => (hG r).1)]
    exact dfProj_map G (fun r => (hG r).2.1) (fun r => (hG r).2.2) _
  exact (idOK_congr _ _ _ hre).mpr (h r hr)

lemma map_flag_transport (st : List (SRec ι)) (G : SRec ι → SRec ι)
    (hG : ∀ r, (G r).id = r.id ∧ (G r).date = r.date ∧
      (G r).is_latest = r.is_latest)
    (k : ι) (d : Nat)
    (h : ∃ r ∈ st, r.id = k ∧ r.date = d ∧ r.is_latest = true) :
    ∃ r ∈ st.map G, r.id = k ∧ r.date = d ∧ r.is_latest = true := by
  obtain ⟨r, hr, h1, h2, h3⟩ := h
  exact ⟨G r, List.mem_map_of_mem _ hr, (hG r).1.trans h1, (hG r).2.1.trans h2,
    (hG r).2.2.trans h3⟩

lemma store_flag_pre (s : List (SRec ι)) (d : Nat) (fetch : List (ι × ℚ))
    (hok : latestOK s) (hdates : ∀ r ∈ s, r.date ≤ d) (k : ι)
    (hknf : k ∉ fetch.map (fun e => e.1)) :
    (∃ r ∈ (run_loop s d fetch).store, r.id = k ∧ r.date = d) →
      ∃ r ∈ (run_loop s d fetch).store,
        r.id = k ∧ r.date = d ∧ r.is_latest = true := by
  have hne : ∀ e ∈ fetch, e.1 ≠ k := fun e he hk =>
    hknf (List.mem_map.mpr ⟨e, he, hk⟩)
  have hrec : recsOf (run_loop s d fetch).store k = recsOf s k := by
    rw [run_loop_store]
    exact fold_store_recsOf_ne d _ _ fetch s k hne
  rintro ⟨r, hr, hid, hdd⟩
  have hrrec : r ∈ recsOf s k := by
    rw [← hrec]
    have h2 := recsOf_mem_of _ r hr
    rw [hid] at h2
    exact h2
  have hrs : r ∈ s := (mem_recsOf s k r hrrec).1
  have hidOK : idOK s k := by
    have h3 := hok r hrs
    rw [hid] at h3
    exact h3
  obtain ⟨hcount, hmaxp⟩ := hidOK
  have hpos : 0 < (recsOf s k).countP (fun r => r.is_latest) := by
    rw [hcount]
    exact Nat.zero_lt_one
  obtain ⟨rf, hrf, hrfl⟩ := List.countP_pos_iff.mp hpos
  have hmax : maxDate (recsOf s k) = d :=
    maxDate_eq_of _ d (fun x hx => hdates x (mem_recsOf s k x hx).1) ⟨r, hrrec, hdd⟩
  have hrfd : rf.date = d := by
    rw [← hmax]
    exact hmaxp rf hrf hrfl
  have hrf2 : rf ∈ (run_loop s d fetch).store := by
    have h5 : rf ∈ recsOf (run_loop s d fetch).store k := by
      rw [hrec]
      exact hrf
    exact (mem_recsOf _ k rf h5).1
  exact ⟨rf, hrf2, (mem_recsOf s k rf hrf).2, hrfd, hrfl⟩

lemma sync_delegations_unfold (s : List (SRec ι)) (d : Nat)
    (fetch : List (ι × ℚ)) :
    (sync_delegations s d fetch).1 =
      (if (run_loop s d fetch).affected ++
          deleted_keys s d (fetch.map (fun e => e.1)) = []
       then (process_disappeared
          ((deleted_keys s d (fetch.map (fun e => e.1))).foldl
            (fun acc k2 => apply_deleted acc d k2) (run_loop s d fetch).store)
          d (fetch.map (fun e => e.1))).1 ++ (run_loop s d fetch).inserts
       else update_latest_flags
          ((process_disappeared
            ((deleted_keys s d (fetch.map (fun e => e.1))).foldl
              (fun acc k2 => apply_deleted acc d k2) (run_loop s d fetch).store)
            d (fetch.map (fun e => e.1))).1 ++ (run_loop s d fetch).inserts)
          ((run_loop s d fetch).affected ++
            deleted_keys s d (fetch.map (fun e => e.1)))) := rfl

end DeltaSync

namespace DeltaSync

variable {ι : Type} [DecidableEq ι]

lemma sync_delegations_latestOK (s : List (SRec ι)) (d : Nat)
    (fetch : List (ι × ℚ))
    (hok : latestOK s) (huniq : uniqueIdDate s)
    (hdates : ∀ r ∈ s, r.date ≤ d)
    (hnodup : (fetch.map Prod.fst).Nodup) :
    latestOK (sync_delegations s d fetch).1 := by
  obtain ⟨G, hG, hmap⟩ := disappeared_exists_map
    ((deleted_keys s d (fetch.map (fun e => e.1))).foldl
      (fun acc k2 => apply_deleted acc d k2) (run_loop s d fetch).store)
    d (fetch.map (fun e => e.1))
  rw [sync_delegations_unfold]
  by_cases haff : (run_loop s d fetch).affected ++
      deleted_keys s d (fetch.map (fun e => e.1)) = []
  · rw [if_pos haff]
    obtain ⟨ha1, ha2⟩ := List.append_eq_nil.mp haff
    have hnoW := run_loop_affected_nil s d fetch ha1
    have hstore : (run_loop s d fetch).store = s := by
      rw [run_loop_store]
      exact fold_store_id d _ _ fetch s hnoW
    have hins : (run_loop s d fetch).inserts = [] := by
      rw [run_loop_inserts]
      exact fold_inserts_nil d _ _ fetch hnoW
    rw [ha2, List.foldl_nil, hstore] at hmap ⊢
    rw [hins, List.append_nil, hmap]
    exact latestOK_map_preserving s G hG hok
  · rw [if_neg haff]
    have hstored : ∀ r ∈ (run_loop s d fetch).store, r.date ≤ d := by
      rw [run_loop_store]
      exact fold_store_dates d _ _ fetch s hdates
    have hskelstore : skel (run_loop s d fetch).store = skel s := by
      rw [run_loop_store]
      exact skel_fold_store d _ _ fetch s
    have huniqstore : uniqueIdDate (run_loop s d fetch).store :=
      (uniqueIdDate_of_skel_eq _ _ hskelstore).mpr huniq
    have hst2d : ∀ r ∈ (deleted_keys s d (fetch.map (fun e => e.1))).foldl
        (fun acc k2 => apply_deleted acc d k2) (run_loop s d fetch).store,
        r.date ≤ d :=
      fold_deleted_dates _ _ d hstored
    have huniq2 : uniqueIdDate
        ((deleted_keys s d (fetch.map (fun e => e.1))).foldl
          (fun acc k2 => apply_deleted acc d k2) (run_loop s d fetch).store) :=
      fold_deleted_unique _ _ d huniqstore
    have hskel3 : skel (process_disappeared
        ((deleted_keys s d (fetch.map (fun e => e.1))).foldl
          (fun acc k2 => apply_deleted acc d k2) (run_loop s d fetch).store)
        d (fetch.map (fun e => e.1))).1 =
        skel ((deleted_keys s d (fetch.map (fun e => e.1))).foldl
          (fun acc k2 => apply_deleted acc d k2) (run_loop s d fetch).store) := by
      rw [hmap]
      exact skel_map_preserving G (fun r => (hG r).1) (fun r => (hG r).2.1) _
    have huniq3 : uniqueIdDate (process_disappeared
        ((deleted_keys s d (fetch.map (fun e => e.1))).foldl
          (fun acc k2 => apply_deleted acc d k2) (run_loop s d fetch).store)
        d (fetch.map (fun e => e.1))).1 :=
      (uniqueIdDate_of_skel_eq _ _ hskel3).mpr huniq2
    have hH1 : ∀ r ∈ (process_disappeared
        ((deleted_keys s d (fetch.map (fun e => e.1))).foldl
          (fun acc k2 => apply_deleted acc d k2) (run_loop s d fetch).store)
        d (fetch.map (fun e => e.1))).1 ++ (run_loop s d fetch).inserts,
        r.date ≤ d := by
      intro r hr
      rcases List.mem_append.mp hr with h1 | h1
      · rw [hmap] at h1
        obtain ⟨r0, hr0, hrr⟩ := List.mem_map.mp h1
        rw [← hrr, (hG r0).2.1]
        exact hst2d r0 hr0
      · rw [run_loop_inserts] at h1
        exact le_of_eq (loop_insert_shape _ _ d fetch r h1).1
    have hH2 : uniqueIdDate ((process_disappeared
        ((deleted_keys s d (fetch.map (fun e => e.1))).foldl
          (fun acc k2 => apply_deleted acc d k2) (run_loop s d fetch).store)
        d (fetch.map (fun e => e.1))).1 ++ (run_loop s d fetch).inserts) := by
      rw [uniqueIdDate_iff_skel, skel_append, List.pairwise_append]
      refine ⟨(uniqueIdDate_iff_skel _).mp huniq3, ?_, ?_⟩
      · have hnd : ((run_loop s d fetch).inserts.map (fun r => r.id)).Nodup := by
          rw [run_loop_inserts]
          exact (loop_inserts_ids_sublist _ _ d fetch).nodup hnodup
        have hpw : (run_loop s d fetch).inserts.Pairwise
            (fun a b : SRec ι => a.id ≠ b.id) := List.pairwise_map.mp hnd
        unfold skel
        rw [List.pairwise_map]
        exact hpw.imp (fun hab hc => hab hc.1)
      · intro x hx y hy
        obtain ⟨rins, hrins, hrid, hrdt⟩ := mem_of_mem_skel _ y hy
        rw [run_loop_inserts] at hrins
        obtain ⟨hdins, _, hexins, v, hv, _, _⟩ :=
          loop_insert_shape _ _ d fetch rins hrins
        rw [hskel3] at hx
        intro hc
        rcases skel_fold_deleted_sub _ _ d x hx with h1 | h1
        · rw [hskelstore] at h1
          obtain ⟨rx, hrx, hrxid, hrxdt⟩ := mem_of_mem_skel s x h1
          refine existing_for_none_of s d rins.id hexins rx hrx ⟨?_, ?_⟩
          · rw [hrxid, hc.1, ← hrid]
          · rw [hrxdt, hc.2, ← hrdt, hdins]
        · have hfid : rins.id ∈ fetch.map (fun e => e.1) :=
            List.mem_map.mpr ⟨(rins.id, v), hv, rfl⟩
          have hxnf : x.1 ∉ fetch.map (fun e => e.1) :=
            deleted_keys_not_fids s d _ x.1 h1.1
          exact hxnf (by rw [hc.1, ← hrid]; exact hfid)
    have hH3 : ∀ i ∈ (run_loop s d fetch).affected ++
        deleted_keys s d (fetch.map (fun e => e.1)),
        ∃ r ∈ (process_disappeared
          ((deleted_keys s d (fetch.map (fun e => e.1))).foldl
            (fun acc k2 => apply_deleted acc d k2) (run_loop s d fetch).store)
          d (fetch.map (fun e => e.1))).1 ++ (run_loop s d fetch).inserts,
          r.id = i ∧ r.date = d ∧ r.is_latest = true := by
      intro i hi
      rcases List.mem_append.mp hi with hi1 | hi1
      · obtain ⟨v, hv, hcls⟩ := (run_loop_affected s d fetch i).mp hi1
        by_cases hupd : classify (previous_for s d) (existing_for s d) i v = .updC
        · obtain ⟨w, hw⟩ := classify_updC_exist _ _ i v hupd
          obtain ⟨r0, hr0, hr0i, hr0d, _⟩ := existing_for_some_mem s d i w hw
          have hrec : recsOf (run_loop s d fetch).store i =
              update_existing (recsOf s i) d i v := by
            rw [run_loop_store]
            exact fold_store_recsOf_updC d _ _ fetch s i v hnodup hv hupd
          have hex2 : ∃ r ∈ recsOf s i, r.id = i ∧ r.date = d := by
            refine ⟨r0, ?_, hr0i, hr0d⟩
            have h4 := recsOf_mem_of s r0 hr0
            rw [hr0i] at h4
            exact h4
          obtain ⟨r2, hr2, h1, h2, h3⟩ :=
            update_existing_result (recsOf s i) d i v hex2
          rw [← hrec] at hr2
          have hw1 : ∃ r ∈ (run_loop s d fetch).store,
              r.id = i ∧ r.date = d ∧ r.is_latest = true :=
            ⟨r2, (mem_recsOf _ _ _ hr2).1, h1, h2, h3⟩
          have hw2 := fold_deleted_flag_pres
            (deleted_keys s d (fetch.map (fun e => e.1))) _ d i hw1
          have hw3 := map_flag_transport _ G hG i d hw2
          rw [← hmap] at hw3
          obtain ⟨r4, hr4, hp4⟩ := hw3
          exact ⟨r4, List.mem_append_left _ hr4, hp4⟩
        · have hex := classify_ins_exist_none _ _ i v hcls hupd
          have hca := classify_ins_cases _ _ i v hcls hupd
          have hmem2 : (⟨i, d, v, true⟩ : SRec ι) ∈ (run_loop s d fetch).inserts := by
            unfold run_loop
            exact insert_classified_mem d _ _ fetch _ i v hv hex hca
          exact ⟨⟨i, d, v, true⟩, List.mem_append_right _ hmem2, rfl, rfl, rfl⟩
      · have hpre : ∀ k ∈ deleted_keys s d (fetch.map (fun e => e.1)),
            (∃ r ∈ (run_loop s d fetch).store, r.id = k ∧ r.date = d) →
            ∃ r ∈ (run_loop s d fetch).store,
              r.id = k ∧ r.date = d ∧ r.is_latest = true :=
          fun k hk => store_flag_pre s d fetch hok hdates k
            (deleted_keys_not_fids s d _ k hk)
        have hw2 := fold_deleted_flag _ _ d (deleted_keys_nodup s d _) hpre i hi1
        have hw3 := map_flag_transport _ G hG i d hw2
        rw [← hmap] at hw3
        obtain ⟨r4, hr4, hp4⟩ := hw3
        exact ⟨r4, List.mem_append_left _ hr4, hp4⟩
    have hH4 : ∀ r ∈ (process_disappeared
        ((deleted_keys s d (fetch.map (fun e => e.1))).foldl
          (fun acc k2 => apply_deleted acc d k2) (run_loop s d fetch).store)
        d (fetch.map (fun e => e.1))).1 ++ (run_loop s d fetch).inserts,
        r.id ∉ (run_loop s d fetch).affected ++
          deleted_keys s d (fetch.map (fun e => e.1)) →
        idOK ((process_disappeared
          ((deleted_keys s d (fetch.map (fun e => e.1))).foldl
            (fun acc k2 => apply_deleted acc d k2) (run_loop s d fetch).store)
          d (fetch.map (fun e => e.1))).1 ++ (run_loop s d fetch).inserts)
          r.id := by
      intro r hr hnaff
      have hna1 : r.id ∉ (run_loop s d fetch).affected :=
        fun h => hnaff (List.mem_append_left _ h)
      have hna2 : r.id ∉ deleted_keys s d (fetch.map (fun e => e.1)) :=
        fun h => hnaff (List.mem_append_right _ h)
      have hnoW : ∀ v, (r.id, v) ∈ fetch →
          classify (previous_for s d) (existing_for s d) r.id v = .noW := by
        intro v hv
        by_contra hc
        exact hna1 ((run_loop_affected s d fetch r.id).mpr ⟨v, hv, hc⟩)
      have hstore2 : recsOf (run_loop s d fetch).store r.id = recsOf s r.id := by
        rw [run_loop_store]
        exact fold_store_recsOf_noW d _ _ fetch s r.id hnoW
      have hrec2 : recsOf ((deleted_keys s d (fetch.map (fun e => e.1))).foldl
          (fun acc k2 => apply_deleted acc d k2) (run_loop s d fetch).store)
          r.id = recsOf s r.id := by
        rw [fold_deleted_recsOf_ne _ _ d r.id hna2, hstore2]
      have hins : recsOf (run_loop s d fetch).inserts r.id = [] :=
        recsOf_run_loop_inserts_nil s d fetch r.id hnoW
      have hlist : recsOf ((process_disappeared
          ((deleted_keys s d (fetch.map (fun e => e.1))).foldl
            (fun acc k2 => apply_deleted acc d k2) (run_loop s d fetch).store)
          d (fetch.map (fun e => e.1))).1 ++ (run_loop s d fetch).inserts)
          r.id = (recsOf s r.id).map G := by
        rw [recsOf_append, hins, List.append_nil, hmap,
          recsOf_map_id_preserving G (fun r => (hG r).1), hrec2]
      have hdf : dfProj (recsOf ((process_disappeared
          ((deleted_keys s d (fetch.map (fun e => e.1))).foldl
            (fun acc k2 => apply_deleted acc d k2) (run_loop s d fetch).store)
          d (fetch.map (fun e => e.1))).1 ++ (run_loop s d fetch).inserts)
          r.id) = dfProj (recsOf s r.id) := by
        rw [hlist]
        exact dfProj_map G (fun r => (hG r).2.1) (fun r => (hG r).2.2) _
      have hmem3 : r ∈ (recsOf s r.id).map G := by
        rw [← hlist]
        exact recsOf_mem_of _ r hr
      obtain ⟨r0, hr0, _⟩ := List.mem_map.mp hmem3
      have hr0s : r0 ∈ s := (mem_recsOf s r.id r0 hr0).1
      have hr0id : r0.id = r.id := (mem_recsOf s r.id r0 hr0).2
      refine (idOK_congr _ _ _ hdf).mpr ?_
      have h6 := hok r0 hr0s
      rw [hr0id] at h6
      exact h6
    exact flags_latestOK _ _ d hH1 hH2 hH3 hH4 haff

end DeltaSync

namespace DeltaSync

/-- C1: after an import run completes (either `import_balances_to_db` or
`import_delegations_to_db`, both modelled with their final
`update_latest_*_flags` repair step), the latest invariant holds for every
identity with at least one stored snapshot record: exactly one of its records
has `is_latest = true`, and that record's date equals the maximum date among
the identity's records (`latestOK`/`idOK`).  The hypotheses are the database
invariants the importer runs under: the pre-state satisfies the invariant,
rows are unique per (identity, date), no stored date exceeds the target date,
and the fetched state names each identity once. -/
theorem c1_latest_invariant {ι : Type} [DecidableEq ι] (s : List (SRec ι))
    (d : Nat) (fetch : List (ι × ℚ))
    (hok : latestOK s) (huniq : uniqueIdDate s)
    (hdates : ∀ r ∈ s, r.date ≤ d)
    (hnodup : (fetch.map Prod.fst).Nodup) :
    latestOK (sync_balances s d fetch).1 ∧
      latestOK (sync_delegations s d fetch).1 :=
  ⟨sync_balances_latestOK s d fetch hok huniq hdates hnodup,
   sync_delegations_latestOK s d fetch hok huniq hdates hnodup⟩

/-- Witness for C1: both importer runs starting from the empty store with a
single fetched identity end in a state satisfying the latest invariant. -/
theorem c1_latest_invariant_witness :
    latestOK ([] : List (SRec ℕ)) ∧ uniqueIdDate ([] : List (SRec ℕ)) ∧
    (∀ r ∈ ([] : List (SRec ℕ)), r.date ≤ 1) ∧
    (([((0 : ℕ), (100 : ℚ))].map Prod.fst).Nodup) ∧
    (latestOK (sync_balances ([] : List (SRec ℕ)) 1 [(0, 100)]).1 ∧
     latestOK (sync_delegations ([] : List (SRec ℕ)) 1 [(0, 100)]).1) :=
  ⟨by decide, by decide, by decide, by decide,
   c1_latest_invariant [] 1 [(0, 100)] (by decide) (by decide) (by decide)
     (by decide)⟩

end DeltaSync

namespace DeltaSync

variable {ι : Type} [DecidableEq ι]

lemma run_loop_affected_nil_of_noW (s : List (SRec ι)) (d : Nat)
    (fetch : List (ι × ℚ))
    (h : ∀ e ∈ fetch, classify (previous_for s d) (existing_for s d) e.1 e.2 = .noW) :
    (run_loop s d fetch).affected = [] := by
  rw [List.eq_nil_iff_forall_not_mem]
  intro i hi
  obtain ⟨v, hv, hcls⟩ := (run_loop_affected s d fetch i).mp hi
  exact hcls (h (i, v) hv)

lemma classify_congr (prev1 exist1 prev2 exist2 : ι → Option ℚ) (a : ι) (v : ℚ)
    (h1 : exist1 a = exist2 a) (h2 : prev1 a = prev2 a) :
    classify prev1 exist1 a v = classify prev2 exist2 a v := by
  unfold classify
  rw [h1, h2]

lemma uniqueIdDate_update_latest_flags (t : List (SRec ι)) (aff : List ι)
    (hu : uniqueIdDate t) : uniqueIdDate (update_latest_flags t aff) := by
  cases hm : table_max_date t with
  | none =>
    unfold update_latest_flags
    rw [hm]
    exact hu
  | some m =>
    rw [update_latest_flags_eq_map t aff m hm]
    exact (uniqueIdDate_of_skel_eq _ _
      (skel_map_preserving (flag_off aff m) (flag_off_id aff m)
        (flag_off_date aff m) t)).mpr hu

lemma recsOf_update_latest_flags_not_mem (t : List (SRec ι)) (aff : List ι)
    (i : ι) (h : i ∉ aff) :
    recsOf (update_latest_flags t aff) i = recsOf t i := by
  cases hm : table_max_date t with
  | none =>
    unfold update_latest_flags
    rw [hm]
  | some m =>
    rw [update_latest_flags_eq_map t aff m hm,
      recsOf_map_id_preserving (flag_off aff m) (flag_off_id aff m)]
    exact map_id_on _ _ (fun a ha =>
      flag_off_not_mem aff m a (by rw [(mem_recsOf t i a ha).2]; exact h))

lemma update_latest_flags_mem_rev (s : List (SRec ι)) (aff : List ι)
    (r2 : SRec ι) (hr2 : r2 ∈ update_latest_flags s aff) :
    ∃ r ∈ s, r2.id = r.id ∧ r2.date = r.date ∧ r2.value = r.value := by
  unfold update_latest_flags at hr2
  revert hr2
  cases table_max_date s with
  | none => exact fun hr2 => ⟨r2, hr2, rfl, rfl, rfl⟩
  | some m =>
    intro hr2
    obtain ⟨x, hx, hxr⟩ := List.mem_map.mp hr2
    by_cases hc : x.id ∈ aff ∧ x.date ≠ m
    · rw [if_pos hc] at hxr
      exact ⟨x, hx, by rw [← hxr], by rw [← hxr], by rw [← hxr]⟩
    · rw [if_neg hc] at hxr
      exact ⟨x, hx, by rw [← hxr], by rw [← hxr], by rw [← hxr]⟩

lemma pick_fold_map (G : SRec ι → SRec ι) (hdate : ∀ r, (G r).date = r.date)
    (l : List (SRec ι)) (acc : Option (SRec ι)) :
    (l.map G).foldl (fun acc r =>
      match acc with
      | none => some r
      | some b => if b.date ≤ r.date then some r else acc) (Option.map G acc) =
    Option.map G (l.foldl (fun acc r =>
      match acc with
      | none => some r
      | some b => if b.date ≤ r.date then some r else acc) acc) := by
  induction l generalizing acc with
  | nil => rfl
  | cons x xs ih =>
    cases acc with
    | none =>
      rw [List.map_cons, List.foldl_cons, List.foldl_cons]
      show (xs.map G).foldl _ (some (G x)) = Option.map G (xs.foldl _ (some x))
      exact ih (some x)
    | some b =>
      rw [List.map_cons, List.foldl_cons, List.foldl_cons]
      by_cases hc : b.date ≤ x.date
      · have h1 : (G b).date ≤ (G x).date := by
          rw [hdate b, hdate x]
          exact hc
        show (xs.map G).foldl _
            (if (G b).date ≤ (G x).date then some (G x) else some (G b)) =
          Option.map G (xs.foldl _ (if b.date ≤ x.date then some x else some b))
        rw [if_pos h1, if_pos hc]
        exact ih (some x)
      · have h1 : ¬((G b).date ≤ (G x).date) := by
          rw [hdate b, hdate x]
          exact hc
        show (xs.map G).foldl _
            (if (G b).date ≤ (G x).date then some (G x) else some (G b)) =
          Option.map G (xs.foldl _ (if b.date ≤ x.date then some x else some b))
        rw [if_neg h1, if_neg hc]
        exact ih (some b)

lemma latest_before_map_pres (st : List (SRec ι)) (G : SRec ι → SRec ι)
    (hid : ∀ r, (G r).id = r.id) (hdate : ∀ r, (G r).date = r.date)
    (d : Nat) (i : ι) :
    latest_before (st.map G) d i = Option.map G (latest_before st d i) := by
  unfold latest_before
  rw [List.filter_map]
  have hfil : st.filter ((fun r => decide (r.id = i ∧ r.date < d)) ∘ G) =
      st.filter (fun r => decide (r.id = i ∧ r.date < d)) := by
    apply List.filter_congr
    intro x hx
    show decide ((G x).id = i ∧ (G x).date < d) = _
    rw [hid x, hdate x]
  rw [hfil]
  exact pick_fold_map G hdate _ none

lemma previous_for_update_latest_flags (t : List (SRec ι)) (aff : List ι)
    (d : Nat) (i : ι) :
    previous_for (update_latest_flags t aff) d i = previous_for t d i := by
  cases hm : table_max_date t with
  | none =>
    unfold update_latest_flags
    rw [hm]
  | some m =>
    rw [update_latest_flags_eq_map t aff m hm]
    unfold previous_for
    rw [latest_before_map_pres t (flag_off aff m) (flag_off_id aff m)
      (flag_off_date aff m) d i]
    cases latest_before t d i with
    | none => rfl
    | some r =>
      show some (flag_off aff m r).value = some r.value
      rw [flag_off_value]

end DeltaSync

namespace DeltaSync

variable {ι : Type} [DecidableEq ι]

lemma loop_result_row (s : List (SRec ι)) (d : Nat) (fetch : List (ι × ℚ))
    (i : ι) (v : ℚ) (hnodup : (fetch.map Prod.fst).Nodup)
    (hv : (i, v) ∈ fetch)
    (hcls : classify (previous_for s d) (existing_for s d) i v ≠ .noW) :
    ∃ r ∈ (run_loop s d fetch).store ++ (run_loop s d fetch).inserts,
      r.id = i ∧ r.date = d ∧ r.value = v := by
  by_cases hupd : classify (previous_for s d) (existing_for s d) i v = .updC
  · obtain ⟨w, hw⟩ := classify_updC_exist _ _ i v hupd
    obtain ⟨r0, hr0, hr0i, hr0d, _⟩ := existing_for_some_mem s d i w hw
    have hrec : recsOf (run_loop s d fetch).store i =
        update_existing (recsOf s i) d i v := by
      rw [run_loop_store]
      exact fold_store_recsOf_updC d _ _ fetch s i v hnodup hv hupd
    have hex2 : ∃ r ∈ recsOf s i, r.id = i ∧ r.date = d := by
      refine ⟨r0, ?_, hr0i, hr0d⟩
      have h4 := recsOf_mem_of s r0 hr0
      rw [hr0i] at h4
      exact h4
    obtain ⟨r2, hr2, h1, h2, h3, _⟩ :=
      update_existing_result_val (recsOf s i) d i v hex2
    rw [← hrec] at hr2
    exact ⟨r2, List.mem_append_left _ (mem_recsOf _ _ _ hr2).1, h1, h2, h3⟩
  · have hex := classify_ins_exist_none _ _ i v hcls hupd
    have hca := classify_ins_cases _ _ i v hcls hupd
    have hmem2 : (⟨i, d, v, true⟩ : SRec ι) ∈ (run_loop s d fetch).inserts := by
      unfold run_loop
      exact insert_classified_mem d _ _ fetch _ i v hv hex hca
    exact ⟨⟨i, d, v, true⟩, List.mem_append_right _ hmem2, rfl, rfl, rfl⟩

lemma loop_result_unique (s : List (SRec ι)) (d : Nat) (fetch : List (ι × ℚ))
    (huniq : uniqueIdDate s) (hnodup : (fetch.map Prod.fst).Nodup) :
    uniqueIdDate ((run_loop s d fetch).store ++ (run_loop s d fetch).inserts) := by
  rw [uniqueIdDate_iff_skel, skel_append, List.pairwise_append]
  have hs : skel (run_loop s d fetch).store = skel s := by
    rw [run_loop_store]
    exact skel_fold_store d _ _ fetch s
  refine ⟨?_, ?_, ?_⟩
  · rw [hs]
    exact (uniqueIdDate_iff_skel s).mp huniq
  · have hnd : ((run_loop s d fetch).inserts.map (fun r => r.id)).Nodup := by
      rw [run_loop_inserts]
      exact (loop_inserts_ids_sublist _ _ d fetch).nodup hnodup
    have hpw : (run_loop s d fetch).inserts.Pairwise
        (fun a b : SRec ι => a.id ≠ b.id) := List.pairwise_map.mp hnd
    unfold skel
    rw [List.pairwise_map]
    exact hpw.imp (fun hab hc => hab hc.1)
  · intro x hx y hy
    rw [hs] at hx
    obtain ⟨rins, hrins, hrid, hrdt⟩ := mem_of_mem_skel _ y hy
    rw [run_loop_inserts] at hrins
    obtain ⟨hdins, _, hexins, _⟩ := loop_insert_shape _ _ d fetch rins hrins
    obtain ⟨rx, hrx, hrxid, hrxdt⟩ := mem_of_mem_skel s x hx
    intro hc
    refine existing_for_none_of s d rins.id hexins rx hrx ⟨?_, ?_⟩
    · rw [hrxid, hc.1, ← hrid]
    · rw [hrxdt, hc.2, ← hrdt, hdins]

lemma balances_state_unique (s : List (SRec ι)) (d : Nat) (fetch : List (ι × ℚ))
    (huniq : uniqueIdDate s) (hnodup : (fetch.map Prod.fst).Nodup) :
    uniqueIdDate (sync_balances s d fetch).1 := by
  by_cases haff : (run_loop s d fetch).affected = []
  · have hres : (sync_balances s d fetch).1 =
        (run_loop s d fetch).store ++ (run_loop s d fetch).inserts := by
      simp only [sync_balances]
      rw [if_pos haff]
    rw [hres]
    exact loop_result_unique s d fetch huniq hnodup
  · have hres : (sync_balances s d fetch).1 =
        update_latest_flags
          ((run_loop s d fetch).store ++ (run_loop s d fetch).inserts)
          (run_loop s d fetch).affected := by
      simp only [sync_balances]
      rw [if_neg haff]
    rw [hres]
    exact uniqueIdDate_update_latest_flags _ _
      (loop_result_unique s d fetch huniq hnodup)

lemma balances_state_row (s : List (SRec ι)) (d : Nat) (fetch : List (ι × ℚ))
    (i : ι) (v : ℚ)
    (h : ∃ r ∈ (run_loop s d fetch).store ++ (run_loop s d fetch).inserts,
      r.id = i ∧ r.date = d ∧ r.value = v) :
    ∃ r ∈ (sync_balances s d fetch).1, r.id = i ∧ r.date = d ∧ r.value = v := by
  obtain ⟨r, hr, h1, h2, h3⟩ := h
  by_cases haff : (run_loop s d fetch).affected = []
  · have hres : (sync_balances s d fetch).1 =
        (run_loop s d fetch).store ++ (run_loop s d fetch).inserts := by
      simp only [sync_balances]
      rw [if_pos haff]
    rw [hres]
    exact ⟨r, hr, h1, h2, h3⟩
  · have hres : (sync_balances s d fetch).1 =
        update_latest_flags
          ((run_loop s d fetch).store ++ (run_loop s d fetch).inserts)
          (run_loop s d fetch).affected := by
      simp only [sync_balances]
      rw [if_neg haff]
    rw [hres]
    obtain ⟨r2, hr2, e1, e2, e3⟩ := update_latest_flags_mem_shape _
      (run_loop s d fetch).affected r hr
    exact ⟨r2, hr2, e1.trans h1, e2.trans h2, e3.trans h3⟩

lemma balances_state_recsOf_noW (s : List (SRec ι)) (d : Nat)
    (fetch : List (ι × ℚ)) (i : ι)
    (hnoW : ∀ v, (i, v) ∈ fetch →
      classify (previous_for s d) (existing_for s d) i v = .noW) :
    recsOf (sync_balances s d fetch).1 i = recsOf s i := by
  have hni : i ∉ (run_loop s d fetch).affected := by
    intro hmem
    obtain ⟨v, hv, hcls⟩ := (run_loop_affected s d fetch i).mp hmem
    exact hcls (hnoW v hv)
  have hbase : recsOf
      ((run_loop s d fetch).store ++ (run_loop s d fetch).inserts) i =
      recsOf s i := by
    rw [recsOf_append, recsOf_run_loop_inserts_nil s d fetch i hnoW,
      List.append_nil, run_loop_store]
    exact fold_store_recsOf_noW d _ _ fetch s i hnoW
  by_cases haff : (run_loop s d fetch).affected = []
  · have hres : (sync_balances s d fetch).1 =
        (run_loop s d fetch).store ++ (run_loop s d fetch).inserts := by
      simp only [sync_balances]
      rw [if_pos haff]
    rw [hres]
    exact hbase
  · have hres : (sync_balances s d fetch).1 =
        update_latest_flags
          ((run_loop s d fetch).store ++ (run_loop s d fetch).inserts)
          (run_loop s d fetch).affected := by
      simp only [sync_balances]
      rw [if_neg haff]
    rw [hres, recsOf_update_latest_flags_not_mem _ _ i hni]
    exact hbase

lemma balances_second_noW (s : List (SRec ι)) (d : Nat) (fetch : List (ι × ℚ))
    (huniq : uniqueIdDate s) (hnodup : (fetch.map Prod.fst).Nodup) :
    ∀ e ∈ fetch, classify (previous_for (sync_balances s d fetch).1 d)
      (existing_for (sync_balances s d fetch).1 d) e.1 e.2 = .noW := by
  rintro ⟨i, v⟩ he
  by_cases hcls : classify (previous_for s d) (existing_for s d) i v = .noW
  · have hnoW : ∀ w, (i, w) ∈ fetch →
        classify (previous_for s d) (existing_for s d) i w = .noW := by
      intro w hw
      rw [nodup_keys_unique fetch hnodup i w v hw he]
      exact hcls
    have hrec := balances_state_recsOf_noW s d fetch i hnoW
    rw [classify_congr (previous_for (sync_balances s d fetch).1 d)
      (existing_for (sync_balances s d fetch).1 d)
      (previous_for s d) (existing_for s d) i v
      (existing_for_congr _ s d i hrec) (previous_for_congr _ s d i hrec)]
    exact hcls
  · have hrow := balances_state_row s d fetch i v
      (loop_result_row s d fetch i v hnodup he hcls)
    have hex2 : existing_for (sync_balances s d fetch).1 d i = some v :=
      existing_for_eq_of_unique _ d i v
        (balances_state_unique s d fetch huniq hnodup) hrow
    unfold classify
    rw [hex2]
    dsimp only
    rw [if_neg (by rw [sub_self, abs_zero]; norm_num [eps])]

lemma sync_balances_stable (s2 : List (SRec ι)) (d : Nat) (fetch : List (ι × ℚ))
    (h : ∀ e ∈ fetch, classify (previous_for s2 d) (existing_for s2 d)
      e.1 e.2 = .noW) :
    (sync_balances s2 d fetch).1 = s2 := by
  have haff := run_loop_affected_nil_of_noW s2 d fetch h
  simp only [sync_balances]
  rw [if_pos haff, run_loop_store, run_loop_inserts,
    fold_store_id d _ _ fetch s2 h, fold_inserts_nil d _ _ fetch h,
    List.append_nil]

end DeltaSync

namespace DeltaSync

variable {ι : Type} [DecidableEq ι]

lemma latest_before_eq_of_prior (s1 s2 : List (SRec ι)) (d : Nat) (k : ι)
    (h : s1.filter (fun r => decide (r.id = k ∧ r.date < d)) =
         s2.filter (fun r => decide (r.id = k ∧ r.date < d))) :
    latest_before s1 d k = latest_before s2 d k := by
  unfold latest_before
  rw [h]

lemma prior_filter_update_existing (st : List (SRec ι)) (d : Nat) (i : ι)
    (v : ℚ) (k : ι) :
    (update_existing st d i v).filter (fun r => decide (r.id = k ∧ r.date < d)) =
      st.filter (fun r => decide (r.id = k ∧ r.date < d)) := by
  induction st with
  | nil => rfl
  | cons x xs ih =>
    rw [update_existing_cons]
    by_cases hc : x.id = i ∧ x.date = d
    · rw [if_pos hc, List.filter_cons, List.filter_cons]
      have h1 : decide (({ x with value := v, is_latest := true } : SRec ι).id = k ∧
          ({ x with value := v, is_latest := true } : SRec ι).date < d) = false := by
        apply decide_eq_false
        intro hp
        exact absurd hp.2 (by rw [show ({ x with value := v, is_latest := true } :
          SRec ι).date = d from hc.2]; exact lt_irrefl d)
      have h2 : decide (x.id = k ∧ x.date < d) = false := by
        apply decide_eq_false
        intro hp
        exact absurd hp.2 (by rw [hc.2]; exact lt_irrefl d)
      rw [if_neg (by rw [h1]; exact Bool.false_ne_true),
        if_neg (by rw [h2]; exact Bool.false_ne_true)]
    · rw [if_neg hc, List.filter_cons, List.filter_cons, ih]

lemma prior_filter_fold_store (d : Nat) (prev exist : ι → Option ℚ)
    (fetch : List (ι × ℚ)) (st : List (SRec ι)) (k : ι) :
    (fetch.foldl (fun st e =>
        if classify prev exist e.1 e.2 = .updC then update_existing st d e.1 e.2
        else st) st).filter (fun r => decide (r.id = k ∧ r.date < d)) =
      st.filter (fun r => decide (r.id = k ∧ r.date < d)) := by
  induction fetch generalizing st with
  | nil => rfl
  | cons e rest ih =>
    rw [List.foldl_cons]
    by_cases hc : classify prev exist e.1 e.2 = .updC
    · rw [if_pos hc, ih, prior_filter_update_existing]
    · rw [if_neg hc, ih]

lemma prior_filter_zero_existing (st : List (SRec ι)) (d : Nat) (i k : ι) :
    (zero_existing st d i).filter (fun r => decide (r.id = k ∧ r.date < d)) =
      st.filter (fun r => decide (r.id = k ∧ r.date < d)) := by
  induction st with
  | nil => rfl
  | cons x xs ih =>
    rw [zero_existing_cons]
    by_cases hc : x.id = i ∧ x.date = d
    · rw [if_pos hc, List.filter_cons, List.filter_cons]
      have h1 : decide (({ x with value := (0 : ℚ) } : SRec ι).id = k ∧
          ({ x with value := (0 : ℚ) } : SRec ι).date < d) = false := by
        apply decide_eq_false
        intro hp
        exact absurd hp.2 (by rw [show ({ x with value := (0 : ℚ) } :
          SRec ι).date = d from hc.2]; exact lt_irrefl d)
      have h2 : decide (x.id = k ∧ x.date < d) = false := by
        apply decide_eq_false
        intro hp
        exact absurd hp.2 (by rw [hc.2]; exact lt_irrefl d)
      rw [if_neg (by rw [h1]; exact Bool.false_ne_true),
        if_neg (by rw [h2]; exact Bool.false_ne_true)]
    · rw [if_neg hc, List.filter_cons, List.filter_cons, ih]

lemma prior_filter_apply_deleted (st : List (SRec ι)) (d : Nat) (k2 k : ι) :
    (apply_deleted st d k2).filter (fun r => decide (r.id = k ∧ r.date < d)) =
      st.filter (fun r => decide (r.id = k ∧ r.date < d)) := by
  unfold apply_deleted
  by_cases hf : (st.find? (fun r => decide (r.id = k2 ∧ r.date = d))).isSome = true
  · rw [if_pos hf, prior_filter_zero_existing]
  · rw [if_neg hf, List.filter_append]
    have h1 : ([(⟨k2, d, 0, true⟩ : SRec ι)]).filter
        (fun r => decide (r.id = k ∧ r.date < d)) = [] := by
      rw [List.filter_eq_nil_iff]
      intro a ha hdec
      rw [List.mem_singleton.mp ha] at hdec
      exact absurd (of_decide_eq_true hdec).2 (lt_irrefl d)
    rw [h1, List.append_nil]

lemma prior_filter_fold_deleted (dk : List ι) (st : List (SRec ι)) (d : Nat)
    (k : ι) :
    ((dk.foldl (fun acc k2 => apply_deleted acc d k2) st).filter
      (fun r => decide (r.id = k ∧ r.date < d))) =
      st.filter (fun r => decide (r.id = k ∧ r.date < d)) := by
  induction dk generalizing st with
  | nil => rfl
  | cons k0 rest ih =>
    rw [List.foldl_cons, ih, prior_filter_apply_deleted]

lemma prior_filter_zero_positive (st : List (SRec ι)) (d : Nat) (j k : ι) :
    (zero_positive_at st d j).filter (fun r => decide (r.id = k ∧ r.date < d)) =
      st.filter (fun r => decide (r.id = k ∧ r.date < d)) := by
  unfold zero_positive_at
  rw [List.filter_map]
  have h1 : st.filter ((fun r => decide (r.id = k ∧ r.date < d)) ∘
      (fun r => if r.id = j ∧ r.date = d ∧ r.value > 0
        then { r with value := 0 } else r)) =
      st.filter (fun r => decide (r.id = k ∧ r.date < d)) := by
    apply List.filter_congr
    intro x hx
    by_cases hc : x.id = j ∧ x.date = d ∧ x.value > 0
    · show decide ((if x.id = j ∧ x.date = d ∧ x.value > 0
          then ({ x with value := 0 } : SRec ι) else x).id = k ∧
        (if x.id = j ∧ x.date = d ∧ x.value > 0
          then ({ x with value := 0 } : SRec ι) else x).date < d) =
        decide (x.id = k ∧ x.date < d)
      simp only [if_pos hc]
    · show decide ((if x.id = j ∧ x.date = d ∧ x.value > 0
          then ({ x with value := 0 } : SRec ι) else x).id = k ∧
        (if x.id = j ∧ x.date = d ∧ x.value > 0
          then ({ x with value := 0 } : SRec ι) else x).date < d) =
        decide (x.id = k ∧ x.date < d)
      simp only [if_neg hc]
  rw [h1]
  apply map_id_on
  intro x hx
  have hp := of_decide_eq_true (List.mem_filter.mp hx).2
  rw [if_neg (fun hc => absurd hp.2 (by rw [hc.2.1]; exact lt_irrefl d))]

lemma prior_filter_fold_disappear (d : Nat) (snap : List (SRec ι))
    (acc : List (SRec ι) × Nat) (k : ι) :
    ((snap.foldl (fun acc r =>
        (zero_positive_at acc.1 d r.id,
         if acc.1.any (fun x => decide (x.id = r.id ∧ x.date = d ∧ x.value > 0))
         then acc.2 + 1 else acc.2)) acc).1).filter
      (fun r => decide (r.id = k ∧ r.date < d)) =
      acc.1.filter (fun r => decide (r.id = k ∧ r.date < d)) := by
  induction snap generalizing acc with
  | nil => rfl
  | cons x xs ih =>
    rw [List.foldl_cons, ih]
    show (zero_positive_at acc.1 d x.id).filter _ = _
    rw [prior_filter_zero_positive]

lemma prior_filter_disappeared (st : List (SRec ι)) (d : Nat) (fids : List ι)
    (k : ι) :
    ((process_disappeared st d fids).1).filter
      (fun r => decide (r.id = k ∧ r.date < d)) =
      st.filter (fun r => decide (r.id = k ∧ r.date < d)) := by
  unfold process_disappeared
  exact prior_filter_fold_disappear d _ (st, 0) k

lemma prior_filter_inserts (s : List (SRec ι)) (d : Nat) (fetch : List (ι × ℚ))
    (k : ι) :
    ((run_loop s d fetch).inserts).filter
      (fun r => decide (r.id = k ∧ r.date < d)) = [] := by
  rw [List.filter_eq_nil_iff]
  intro a ha hdec
  rw [run_loop_inserts] at ha
  have hd := (loop_insert_shape _ _ d fetch a ha).1
  exact absurd (of_decide_eq_true hdec).2 (by rw [hd]; exact lt_irrefl d)

lemma previous_for_sync_delegations (s : List (SRec ι)) (d : Nat)
    (fetch : List (ι × ℚ)) (k : ι) :
    previous_for (sync_delegations s d fetch).1 d k = previous_for s d k := by
  have hbase : previous_for ((process_disappeared
      ((deleted_keys s d (fetch.map (fun e => e.1))).foldl
        (fun acc k2 => apply_deleted acc d k2) (run_loop s d fetch).store)
      d (fetch.map (fun e => e.1))).1 ++ (run_loop s d fetch).inserts) d k =
      previous_for s d k := by
    unfold previous_for
    rw [latest_before_eq_of_prior _ s d k ?_]
    rw [List.filter_append, prior_filter_inserts s d fetch k, List.append_nil,
      prior_filter_disappeared, prior_filter_fold_deleted, run_loop_store,
      prior_filter_fold_store]
  rw [sync_delegations_unfold]
  by_cases haff : (run_loop s d fetch).affected ++
      deleted_keys s d (fetch.map (fun e => e.1)) = []
  · rw [if_pos haff]
    exact hbase
  · rw [if_neg haff, previous_for_update_latest_flags]
    exact hbase

end DeltaSync

namespace DeltaSync

variable {ι : Type} [DecidableEq ι]

lemma table_max_none (t : List (SRec ι)) (h : table_max_date t = none) :
    t = [] := by
  cases t with
  | nil => rfl
  | cons r rs =>
    obtain ⟨m, hm⟩ := table_max_isSome (r :: rs) (by simp)
    rw [h] at hm
    cases hm

lemma deleted_keys_elim (s0 : List (SRec ι)) (d : Nat) (fids : List ι) (k : ι)
    (h : k ∈ deleted_keys s0 d fids) :
    k ∉ fids ∧ ∃ a, previous_for s0 d k = some a ∧ a > 0 := by
  unfold deleted_keys at h
  have h2 := (List.mem_filter.mp h).2
  rw [Bool.and_eq_true] at h2
  refine ⟨of_decide_eq_true h2.1, ?_⟩
  have h22 := h2.2
  cases hpv : previous_for s0 d k with
  | none =>
    simp only [hpv] at h22
    exact absurd h22 Bool.false_ne_true
  | some a =>
    simp only [hpv] at h22
    exact ⟨a, rfl, of_decide_eq_true h22⟩

lemma zero_existing_id (st : List (SRec ι)) (d : Nat) (k : ι)
    (hall : ∀ r ∈ st, r.id = k → r.date = d → r.value = 0) :
    zero_existing st d k = st := by
  induction st with
  | nil => rfl
  | cons x xs ih =>
    rw [zero_existing_cons]
    by_cases hc : x.id = k ∧ x.date = d
    · rw [if_pos hc,
        srec_eta_value x (hall x (List.mem_cons_self _ _) hc.1 hc.2)]
    · rw [if_neg hc,
        ih (fun r hr h1 h2 => hall r (List.mem_cons_of_mem _ hr) h1 h2)]

lemma apply_deleted_id (st : List (SRec ι)) (d : Nat) (k : ι)
    (hex : ∃ r ∈ st, r.id = k ∧ r.date = d ∧ r.value = 0)
    (hall : ∀ r ∈ st, r.id = k → r.date = d → r.value = 0) :
    apply_deleted st d k = st := by
  unfold apply_deleted
  obtain ⟨r, hr, h1, h2, _⟩ := hex
  rw [if_pos (List.find?_isSome.mpr ⟨r, hr, decide_eq_true ⟨h1, h2⟩⟩)]
  exact zero_existing_id st d k hall

lemma fold_deleted_id (dk : List ι) (st : List (SRec ι)) (d : Nat)
    (h : ∀ k ∈ dk, apply_deleted st d k = st) :
    dk.foldl (fun acc k2 => apply_deleted acc d k2) st = st := by
  induction dk with
  | nil => rfl
  | cons k0 rest ih =>
    rw [List.foldl_cons, h k0 (List.mem_cons_self _ _),
      ih (fun k hk => h k (List.mem_cons_of_mem _ hk))]

lemma disappeared_id_of_empty (st : List (SRec ι)) (d : Nat) (fids : List ι)
    (h : ∀ r ∈ st, ¬(r.date = d ∧ r.value > 0 ∧ r.id ∉ fids)) :
    (process_disappeared st d fids).1 = st := by
  have hsnap : st.filter
      (fun r => decide (r.date = d ∧ r.value > 0 ∧ r.id ∉ fids)) = [] := by
    rw [List.filter_eq_nil_iff]
    intro r hr hdec
    exact h r hr (of_decide_eq_true hdec)
  simp only [process_disappeared]
  rw [hsnap]
  rfl

end DeltaSync

namespace DeltaSync

variable {ι : Type} [DecidableEq ι]

lemma delegations_result_unique_base (s : List (SRec ι)) (d : Nat)
    (fetch : List (ι × ℚ))
    (huniq : uniqueIdDate s) (hnodup : (fetch.map Prod.fst).Nodup) :
    uniqueIdDate ((process_disappeared
      ((deleted_keys s d (fetch.map (fun e => e.1))).foldl
        (fun acc k2 => apply_deleted acc d k2) (run_loop s d fetch).store)
      d (fetch.map (fun e => e.1))).1 ++ (run_loop s d fetch).inserts) := by
  obtain ⟨G, hG, hmap⟩ := disappeared_exists_map
    ((deleted_keys s d (fetch.map (fun e => e.1))).foldl
      (fun acc k2 => apply_deleted acc d k2) (run_loop s d fetch).store)
    d (fetch.map (fun e => e.1))
  have hskelstore : skel (run_loop s d fetch).store = skel s := by
    rw [run_loop_store]
    exact skel_fold_store d _ _ fetch s
  have huniqstore : uniqueIdDate (run_loop s d fetch).store :=
    (uniqueIdDate_of_skel_eq _ _ hskelstore).mpr huniq
  have huniq2 : uniqueIdDate
      ((deleted_keys s d (fetch.map (fun e => e.1))).foldl
        (fun acc k2 => apply_deleted acc d k2) (run_loop s d fetch).store) :=
    fold_deleted_unique _ _ d huniqstore
  have hskel3 : skel (process_disappeared
      ((deleted_keys s d (fetch.map (fun e => e.1))).foldl
        (fun acc k2 => apply_deleted acc d k2) (run_loop s d fetch).store)
      d (fetch.map (fun e => e.1))).1 =
      skel ((deleted_keys s d (fetch.map (fun e => e.1))).foldl
        (fun acc k2 => apply_deleted acc d k2) (run_loop s d fetch).store) := by
    rw [hmap]
    exact skel_map_preserving G (fun r => (hG r).1) (fun r => (hG r).2.1) _
  have huniq3 : uniqueIdDate (process_disappeared
      ((deleted_keys s d (fetch.map (fun e => e.1))).foldl
        (fun acc k2 => apply_deleted acc d k2) (run_loop s d fetch).store)
      d (fetch.map (fun e => e.1))).1 :=
    (uniqueIdDate_of_skel_eq _ _ hskel3).mpr huniq2
  rw [uniqueIdDate_iff_skel, skel_append, List.pairwise_append]
  refine ⟨(uniqueIdDate_iff_skel _).mp huniq3, ?_, ?_⟩
  · have hnd : ((run_loop s d fetch).inserts.map (fun r => r.id)).Nodup := by
      rw [run_loop_inserts]
      exact (loop_inserts_ids_sublist _ _ d fetch).nodup hnodup
    have hpw : (run_loop s d fetch).inserts.Pairwise
        (fun a b : SRec ι => a.id ≠ b.id) := List.pairwise_map.mp hnd
    unfold skel
    rw [List.pairwise_map]
    exact hpw.imp (fun hab hc => hab hc.1)
  · intro x hx y hy
    obtain ⟨rins, hrins, hrid, hrdt⟩ := mem_of_mem_skel _ y hy
    rw [run_loop_inserts] at hrins
    obtain ⟨hdins, _, hexins, v, hv, _, _⟩ :=
      loop_insert_shape _ _ d fetch rins hrins
    rw [hskel3] at hx
    intro hc
    rcases skel_fold_deleted_sub _ _ d x hx with h1 | h1
    · rw [hskelstore] at h1
      obtain ⟨rx, hrx, hrxid, hrxdt⟩ := mem_of_mem_skel s x h1
      refine existing_for_none_of s d rins.id hexins rx hrx ⟨?_, ?_⟩
      · rw [hrxid, hc.1, ← hrid]
      · rw [hrxdt, hc.2, ← hrdt, hdins]
    · have hfid : rins.id ∈ fetch.map (fun e => e.1) :=
        List.mem_map.mpr ⟨(rins.id, v), hv, rfl⟩
      have hxnf : x.1 ∉ fetch.map (fun e => e.1) :=
        deleted_keys_not_fids s d _ x.1 h1.1
      exact hxnf (by rw [hc.1, ← hrid]; exact hfid)

lemma delegations_state_unique (s : List (SRec ι)) (d : Nat)
    (fetch : List (ι × ℚ))
    (huniq : uniqueIdDate s) (hnodup : (fetch.map Prod.fst).Nodup) :
    uniqueIdDate (sync_delegations s d fetch).1 := by
  rw [sync_delegations_unfold]
  by_cases haff : (run_loop s d fetch).affected ++
      deleted_keys s d (fetch.map (fun e => e.1)) = []
  · rw [if_pos haff]
    exact delegations_result_unique_base s d fetch huniq hnodup
  · rw [if_neg haff]
    exact uniqueIdDate_update_latest_flags _ _
      (delegations_result_unique_base s d fetch huniq hnodup)

lemma delegations_zero_row (s : List (SRec ι)) (d : Nat) (fetch : List (ι × ℚ))
    (k : ι) (hk : k ∈ deleted_keys s d (fetch.map (fun e => e.1))) :
    ∃ r ∈ (sync_delegations s d fetch).1,
      r.id = k ∧ r.date = d ∧ r.value = 0 := by
  have h1 := fold_deleted_establishes (deleted_keys s d (fetch.map (fun e => e.1)))
    (run_loop s d fetch).store d k hk
  have h2 := process_disappeared_preserves _ d (fetch.map (fun e => e.1)) k h1
  obtain ⟨r, hr, hp1, hp2, hp3⟩ := h2
  rw [sync_delegations_unfold]
  by_cases haff : (run_loop s d fetch).affected ++
      deleted_keys s d (fetch.map (fun e => e.1)) = []
  · rw [if_pos haff]
    exact ⟨r, List.mem_append_left _ hr, hp1, hp2, hp3⟩
  · rw [if_neg haff]
    obtain ⟨r2, hr2, e1, e2, e3⟩ := update_latest_flags_mem_shape _
      ((run_loop s d fetch).affected ++
        deleted_keys s d (fetch.map (fun e => e.1))) r
      (List.mem_append_left _ hr)
    exact ⟨r2, hr2, e1.trans hp1, e2.trans hp2, e3.trans hp3⟩

lemma delegations_state_recsOf_noW (s : List (SRec ι)) (d : Nat)
    (fetch : List (ι × ℚ)) (i : ι)
    (hfid : i ∈ fetch.map (fun e => e.1))
    (hnoW : ∀ v, (i, v) ∈ fetch →
      classify (previous_for s d) (existing_for s d) i v = .noW) :
    recsOf (sync_delegations s d fetch).1 i = recsOf s i := by
  have hni : i ∉ (run_loop s d fetch).affected := by
    intro hmem
    obtain ⟨v, hv, hcls⟩ := (run_loop_affected s d fetch i).mp hmem
    exact hcls (hnoW v hv)
  have hndk : i ∉ deleted_keys s d (fetch.map (fun e => e.1)) :=
    fun hmem => deleted_keys_not_fids s d _ i hmem hfid
  have hnaff : i ∉ (run_loop s d fetch).affected ++
      deleted_keys s d (fetch.map (fun e => e.1)) := by
    intro hmem
    rcases List.mem_append.mp hmem with h | h
    · exact hni h
    · exact hndk h
  have hbase : recsOf ((process_disappeared
      ((deleted_keys s d (fetch.map (fun e => e.1))).foldl
        (fun acc k2 => apply_deleted acc d k2) (run_loop s d fetch).store)
      d (fetch.map (fun e => e.1))).1 ++ (run_loop s d fetch).inserts) i =
      recsOf s i := by
    rw [recsOf_append, recsOf_run_loop_inserts_nil s d fetch i hnoW,
      List.append_nil, disappeared_recsOf_ne _ d _ i hfid,
      fold_deleted_recsOf_ne _ _ d i hndk, run_loop_store]
    exact fold_store_recsOf_noW d _ _ fetch s i hnoW
  rw [sync_delegations_unfold]
  by_cases haff : (run_loop s d fetch).affected ++
      deleted_keys s d (fetch.map (fun e => e.1)) = []
  · rw [if_pos haff]
    exact hbase
  · rw [if_neg haff, recsOf_update_latest_flags_not_mem _ _ i hnaff]
    exact hbase

lemma delegations_state_row (s : List (SRec ι)) (d : Nat) (fetch : List (ι × ℚ))
    (i : ι) (v : ℚ) (hfid : i ∈ fetch.map (fun e => e.1))
    (h : ∃ r ∈ (run_loop s d fetch).store ++ (run_loop s d fetch).inserts,
      r.id = i ∧ r.date = d ∧ r.value = v) :
    ∃ r ∈ (sync_delegations s d fetch).1,
      r.id = i ∧ r.date = d ∧ r.value = v := by
  obtain ⟨r, hr, h1, h2, h3⟩ := h
  have hndk : i ∉ deleted_keys s d (fetch.map (fun e => e.1)) :=
    fun hmem => deleted_keys_not_fids s d _ i hmem hfid
  have hs3 : r ∈ (process_disappeared
      ((deleted_keys s d (fetch.map (fun e => e.1))).foldl
        (fun acc k2 => apply_deleted acc d k2) (run_loop s d fetch).store)
      d (fetch.map (fun e => e.1))).1 ++ (run_loop s d fetch).inserts := by
    rcases List.mem_append.mp hr with hst | hins
    · apply List.mem_append_left
      have hrec : r ∈ recsOf (process_disappeared
          ((deleted_keys s d (fetch.map (fun e => e.1))).foldl
            (fun acc k2 => apply_deleted acc d k2) (run_loop s d fetch).store)
          d (fetch.map (fun e => e.1))).1 i := by
        rw [disappeared_recsOf_ne _ d _ i hfid,
          fold_deleted_recsOf_ne _ _ d i hndk]
        have h4 := recsOf_mem_of _ r hst
        rw [h1] at h4
        exact h4
      exact (mem_recsOf _ i r hrec).1
    · exact List.mem_append_right _ hins
  rw [sync_delegations_unfold]
  by_cases haff : (run_loop s d fetch).affected ++
      deleted_keys s d (fetch.map (fun e => e.1)) = []
  · rw [if_pos haff]
    exact ⟨r, hs3, h1, h2, h3⟩
  · rw [if_neg haff]
    obtain ⟨r2, hr2, e1, e2, e3⟩ := update_latest_flags_mem_shape _
      ((run_loop s d fetch).affected ++
        deleted_keys s d (fetch.map (fun e => e.1))) r hs3
    exact ⟨r2, hr2, e1.trans h1, e2.trans h2, e3.trans h3⟩

lemma delegations_state_post (s : List (SRec ι)) (d : Nat)
    (fetch : List (ι × ℚ)) :
    ∀ r ∈ (sync_delegations s d fetch).1, r.date = d →
      r.id ∉ fetch.map (fun e => e.1) → ¬(0 < r.value) := by
  have hbase : ∀ r ∈ (process_disappeared
      ((deleted_keys s d (fetch.map (fun e => e.1))).foldl
        (fun acc k2 => apply_deleted acc d k2) (run_loop s d fetch).store)
      d (fetch.map (fun e => e.1))).1 ++ (run_loop s d fetch).inserts,
      r.date = d → r.id ∉ fetch.map (fun e => e.1) → ¬(0 < r.value) := by
    intro r hr hd hnf
    rcases List.mem_append.mp hr with h1 | h1
    · exact disappeared_post _ d _ r h1 hd hnf
    · rw [run_loop_inserts] at h1
      obtain ⟨_, _, _, v, hv, _, _⟩ := loop_insert_shape _ _ d fetch r h1
      exact absurd (List.mem_map.mpr ⟨(r.id, v), hv, rfl⟩) hnf
  rw [sync_delegations_unfold]
  by_cases haff : (run_loop s d fetch).affected ++
      deleted_keys s d (fetch.map (fun e => e.1)) = []
  · rw [if_pos haff]
    exact hbase
  · rw [if_neg haff]
    intro r hr hd hnf
    obtain ⟨r0, hr0, e1, e2, e3⟩ := update_latest_flags_mem_rev _ _ r hr
    rw [e3]
    exact hbase r0 hr0 (by rw [← e2]; exact hd) (by rw [← e1]; exact hnf)

lemma delegations_second_noW (s : List (SRec ι)) (d : Nat)
    (fetch : List (ι × ℚ))
    (huniq : uniqueIdDate s) (hnodup : (fetch.map Prod.fst).Nodup) :
    ∀ e ∈ fetch, classify (previous_for (sync_delegations s d fetch).1 d)
      (existing_for (sync_delegations s d fetch).1 d) e.1 e.2 = .noW := by
  rintro ⟨i, v⟩ he
  have hfid : i ∈ fetch.map (fun e => e.1) := List.mem_map.mpr ⟨(i, v), he, rfl⟩
  by_cases hcls : classify (previous_for s d) (existing_for s d) i v = .noW
  · have hnoW : ∀ w, (i, w) ∈ fetch →
        classify (previous_for s d) (existing_for s d) i w = .noW := by
      intro w hw
      rw [nodup_keys_unique fetch hnodup i w v hw he]
      exact hcls
    have hrec := delegations_state_recsOf_noW s d fetch i hfid hnoW
    rw [classify_congr (previous_for (sync_delegations s d fetch).1 d)
      (existing_for (sync_delegations s d fetch).1 d)
      (previous_for s d) (existing_for s d) i v
      (existing_for_congr _ s d i hrec) (previous_for_congr _ s d i hrec)]
    exact hcls
  · have hrow := delegations_state_row s d fetch i v hfid
      (loop_result_row s d fetch i v hnodup he hcls)
    have hex2 : existing_for (sync_delegations s d fetch).1 d i = some v :=
      existing_for_eq_of_unique _ d i v
        (delegations_state_unique s d fetch huniq hnodup) hrow
    unfold classify
    rw [hex2]
    dsimp only
    rw [if_neg (by rw [sub_self, abs_zero]; norm_num [eps])]

end DeltaSync

namespace DeltaSync

variable {ι : Type} [DecidableEq ι]

lemma sync_delegations_stable (s1 : List (SRec ι)) (d : Nat)
    (fetch : List (ι × ℚ))
    (hnoW : ∀ e ∈ fetch, classify (previous_for s1 d) (existing_for s1 d)
      e.1 e.2 = .noW)
    (huniq1 : uniqueIdDate s1)
    (hdkzero : ∀ k ∈ deleted_keys s1 d (fetch.map (fun e => e.1)),
      ∃ r ∈ s1, r.id = k ∧ r.date = d ∧ r.value = 0)
    (hpost : ∀ r ∈ s1, r.date = d → r.id ∉ fetch.map (fun e => e.1) →
      ¬(0 < r.value))
    (hflag : ∀ k ∈ deleted_keys s1 d (fetch.map (fun e => e.1)),
      ∀ m, table_max_date s1 = some m →
        ∀ r ∈ s1, r.id = k → r.date ≠ m → r.is_latest = false) :
    (sync_delegations s1 d fetch).1 = s1 := by
  have haffl := run_loop_affected_nil_of_noW s1 d fetch hnoW
  have hstore : (run_loop s1 d fetch).store = s1 := by
    rw [run_loop_store]
    exact fold_store_id d _ _ fetch s1 hnoW
  have hins : (run_loop s1 d fetch).inserts = [] := by
    rw [run_loop_inserts]
    exact fold_inserts_nil d _ _ fetch hnoW
  have hst2 : (deleted_keys s1 d (fetch.map (fun e => e.1))).foldl
      (fun acc k2 => apply_deleted acc d k2) (run_loop s1 d fetch).store = s1 := by
    rw [hstore]
    apply fold_deleted_id
    intro k hk
    obtain ⟨r, hr, h1, h2, h3⟩ := hdkzero k hk
    apply apply_deleted_id _ d k ⟨r, hr, h1, h2, h3⟩
    intro r2 hr2 e1 e2
    have he := unique_row_eq s1 huniq1 r2 r hr2 hr
      (e1.trans h1.symm) (e2.trans h2.symm)
    rw [he, h3]
  have hst3 : (process_disappeared s1 d (fetch.map (fun e => e.1))).1 = s1 :=
    disappeared_id_of_empty s1 d _
      (fun r hr hc => hpost r hr hc.1 hc.2.2 hc.2.1)
  rw [sync_delegations_unfold, haffl, List.nil_append, hst2, hst3, hins,
    List.append_nil]
  by_cases hdk : deleted_keys s1 d (fetch.map (fun e => e.1)) = []
  · rw [if_pos hdk]
  · rw [if_neg hdk]
    obtain ⟨k0, hk0⟩ := List.exists_mem_of_ne_nil _ hdk
    obtain ⟨r0, hr0, _⟩ := hdkzero k0 hk0
    have hne : s1 ≠ [] := fun he => by rw [he] at hr0; cases hr0
    obtain ⟨m, hm⟩ := table_max_isSome s1 hne
    rw [update_latest_flags_eq_map s1 _ m hm]
    apply map_id_on
    intro r hr
    unfold flag_off
    by_cases hc : r.id ∈ deleted_keys s1 d (fetch.map (fun e => e.1)) ∧
        r.date ≠ m
    · rw [if_pos hc]
      exact srec_eta_flag r (hflag r.id hc.1 m hm r hr rfl hc.2)
    · rw [if_neg hc]

lemma delegations_dk2_mem (s : List (SRec ι)) (d : Nat) (fetch : List (ι × ℚ))
    (k : ι)
    (hk : k ∈ deleted_keys (sync_delegations s d fetch).1 d
      (fetch.map (fun e => e.1))) :
    k ∈ deleted_keys s d (fetch.map (fun e => e.1)) := by
  obtain ⟨hnf, a, hpv, hpos⟩ := deleted_keys_elim _ d _ k hk
  rw [previous_for_sync_delegations s d fetch k] at hpv
  exact mem_deleted_keys s d _ k a hpv hpos hnf

lemma delegations_flag_post (s : List (SRec ι)) (d : Nat)
    (fetch : List (ι × ℚ)) (k : ι)
    (hk : k ∈ deleted_keys (sync_delegations s d fetch).1 d
      (fetch.map (fun e => e.1)))
    (m : Nat) (hm : table_max_date (sync_delegations s d fetch).1 = some m) :
    ∀ r ∈ (sync_delegations s d fetch).1, r.id = k → r.date ≠ m →
      r.is_latest = false := by
  intro r hr hid hdm
  have hk1 := delegations_dk2_mem s d fetch k hk
  have hkaff : k ∈ (run_loop s d fetch).affected ++
      deleted_keys s d (fetch.map (fun e => e.1)) :=
    List.mem_append_right _ hk1
  have haffne : (run_loop s d fetch).affected ++
      deleted_keys s d (fetch.map (fun e => e.1)) ≠ [] :=
    fun he => by rw [he] at hkaff; cases hkaff
  rw [sync_delegations_unfold, if_neg haffne] at hm hr
  cases hm3 : table_max_date ((process_disappeared
      ((deleted_keys s d (fetch.map (fun e => e.1))).foldl
        (fun acc k2 => apply_deleted acc d k2) (run_loop s d fetch).store)
      d (fetch.map (fun e => e.1))).1 ++ (run_loop s d fetch).inserts) with
  | none =>
    have hnil := table_max_none _ hm3
    rw [hnil] at hr
    unfold update_latest_flags table_max_date at hr
    simp at hr
  | some m1 =>
    rw [update_latest_flags_eq_map _ _ m1 hm3] at hm hr
    have hm2 : table_max_date ((process_disappeared
        ((deleted_keys s d (fetch.map (fun e => e.1))).foldl
          (fun acc k2 => apply_deleted acc d k2) (run_loop s d fetch).store)
        d (fetch.map (fun e => e.1))).1 ++ (run_loop s d fetch).inserts) =
        some m := by
      rw [← table_max_date_map (flag_off ((run_loop s d fetch).affected ++
        deleted_keys s d (fetch.map (fun e => e.1))) m1)
        (flag_off_date _ m1)]
      exact hm
    have hmm : m1 = m := by
      rw [hm3] at hm2
      exact Option.some.injEq _ _ ▸ hm2
    rw [← hmm] at hdm
    exact flag_off_map_post _ _ m1 r hr (by rw [hid]; exact hkaff) hdm

lemma sync_delegations_idem (s : List (SRec ι)) (d : Nat)
    (fetch : List (ι × ℚ))
    (huniq : uniqueIdDate s) (hnodup : (fetch.map Prod.fst).Nodup) :
    (sync_delegations (sync_delegations s d fetch).1 d fetch).1 =
      (sync_delegations s d fetch).1 :=
  sync_delegations_stable _ d fetch
    (delegations_second_noW s d fetch huniq hnodup)
    (delegations_state_unique s d fetch huniq hnodup)
    (fun k hk => delegations_zero_row s d fetch k
      (delegations_dk2_mem s d fetch k hk))
    (delegations_state_post s d fetch)
    (fun k hk m hm => delegations_flag_post s d fetch k hk m hm)

end DeltaSync

namespace DeltaSync

/-- C4: the Delta-Sync import is idempotent at the level of the snapshot
store: running either importer a second time against the same fetched state
and target date leaves the store exactly as the first run left it — every
identity classifies as unchanged on the second run, the deleted pass only
re-zeroes already-zero rows in place, the disappeared snapshot is empty and
the flag repair flips no flag.  The hypotheses are the database uniqueness
invariant and the fetch naming each identity once. -/
theorem c4_idempotent {ι : Type} [DecidableEq ι] (s : List (SRec ι)) (d : Nat)
    (fetch : List (ι × ℚ))
    (huniq : uniqueIdDate s) (hnodup : (fetch.map Prod.fst).Nodup) :
    (sync_balances (sync_balances s d fetch).1 d fetch).1 =
      (sync_balances s d fetch).1 ∧
    (sync_delegations (sync_delegations s d fetch).1 d fetch).1 =
      (sync_delegations s d fetch).1 :=
  ⟨sync_balances_stable _ d fetch (balances_second_noW s d fetch huniq hnodup),
   sync_delegations_idem s d fetch huniq hnodup⟩

/-- Witness for C4: a second run over the same fetch leaves the store of the
first run unchanged, for both importers, at a concrete store and fetch. -/
theorem c4_idempotent_witness :
    uniqueIdDate ([] : List (SRec ℕ)) ∧
    (([((0 : ℕ), (100 : ℚ))].map Prod.fst).Nodup) ∧
    ((sync_balances (sync_balances ([] : List (SRec ℕ)) 1 [(0, 100)]).1
        1 [(0, 100)]).1 = (sync_balances ([] : List (SRec ℕ)) 1 [(0, 100)]).1 ∧
     (sync_delegations (sync_delegations ([] : List (SRec ℕ)) 1 [(0, 100)]).1
        1 [(0, 100)]).1 =
       (sync_delegations ([] : List (SRec ℕ)) 1 [(0, 100)]).1) :=
  ⟨by decide, by decide,
   c4_idempotent [] 1 [(0, 100)] (by decide) (by decide)⟩

end DeltaSync
